import Mathlib

/-!
Run-length encoded store (`til::rle`, src/inc/til/rle.h) and tree of panes
(`Pane`, src/cascadia/TerminalApp/Pane.cpp)

A shallow embedding of the run-length encoded store and of its splice
algorithm `_merge`, and of the pane tree with its snapped layout, followed by
theorems about them.

Conventions of the embedding:

* the counter type `S` is `size_t` (64 bits).  Counters are natural numbers.
  In `_merge`, whose sums take in the lengths of the incoming runs, every sum
  and every difference of counters is taken modulo `2 ^ 64` as the machine
  takes it (`addS`, `subS`), except a difference the source takes under the
  guard that it is not negative.  Elsewhere the wrap is written out where the
  source subtracts unsigned values that may wrap for representable arguments;
  the other sums run over the lengths of the runs of the store itself and are
  exact, which is what the machine computes for a store whose lengths sum to
  a `size()` below `2 ^ 64`;
* a call that does not return normally yields `Except.error` with the way it
  stopped: a thrown `E_INVALIDARG`, a `FAIL_FAST_IF`, or a read through an
  iterator that is outside its container (`undefined`);
* a mutating member function returns the store it leaves behind;
* an iterator into `_list` that a loop moves is the list of runs from the
  iterator to the end, together with the run just before it where the source
  steps back; the member `_it` of `rle_const_iterator`, which the source also
  compares, is the index of the run in `_list`;
* a value of `difference_type` is an integer; the conversion from `S` is
  written out (`toDifference`), every other sum or difference is the exact
  one, which is what the machine computes as long as it stays within 64 bits;
* a `float` of the pane layout is a rational number.  The members of the
  layout come twice: under their own names with exact arithmetic, for the
  statements on the structure of the tree and on sizes that every step
  represents exactly, and with the suffix `32` with every arithmetic result
  rounded to binary32 as the machine rounds it (`F32.round`), for the
  statements on the numbers the layout returns;
* a loop whose end depends on the data takes the number of rounds it may run
  (`fuel`) and yields `none` when they do not suffice.
-/

set_option autoImplicit false

namespace til

/-- Ways in which a call stops without returning. -/
inductive Failure where
  | E_INVALIDARG
  | FAIL_FAST
  | undefined
deriving DecidableEq, Repr

deriving instance DecidableEq for Except

/-- The value `std::numeric_limits<S>::max()` for `S = size_t`. -/
def npos : Nat := 2 ^ 64 - 1

/-- Unsigned subtraction in `S`. -/
def subS (a b : Nat) : Nat := (a + 2 ^ 64 - b) % 2 ^ 64

/-- Unsigned addition in `S`, used where the source adds to a value that may have wrapped. -/
def addS (a b : Nat) : Nat := (a + b) % 2 ^ 64

/-- The class `rle<T, S, N>`: the runs `_list` as (value, length) pairs and the cached `_size`. -/
structure rle (T : Type) where
  _list : List (T × Nat)
  _size : Nat
deriving DecidableEq, Repr

variable {T : Type}

/-- The constructor `rle()`. -/
def rle.mk0 : rle T := ⟨[], 0⟩

/-- Member `size()`. -/
def rle.size (s : rle T) : Nat := s._size

/-- The do-while scan of `_at`: `idx` is the index of `runPos`, the list argument the runs from
`runPos` on. Returns the index of the run found and `totalLength`. -/
def _at.scan (position : Nat) : List (T × Nat) → Nat → Nat → Except Failure (Nat × Nat)
  | [], _, _ => .error .FAIL_FAST
  | r :: rest, idx, totalLength =>
    if totalLength + r.2 > position then .ok (idx, totalLength + r.2)
    else _at.scan position rest (idx + 1) (totalLength + r.2)

/-- Member `_at(position, applies)`: the index of the run covering `position` and `applies`. -/
def rle._at (s : rle T) (position : Nat) : Except Failure (Nat × Nat) :=
  if ¬ (position < s._size) then .error .FAIL_FAST
  else if ¬ (s._list.length > 0) then .error .FAIL_FAST
  else
    match _at.scan position s._list 0 0 with
    | .error e => .error e
    | .ok (runPos, totalLength) => .ok (runPos, totalLength - position)

/-- Member `at(position, applies)`: the value at the position and for how much longer it applies. -/
def rle.atApplies (s : rle T) (position : Nat) : Except Failure (T × Nat) :=
  if position ≥ s._size then .error .E_INVALIDARG
  else
    match s._at position with
    | .error e => .error e
    | .ok (runPos, applies) =>
      match s._list[runPos]? with
      | some run => .ok (run.1, applies)
      | none => .error .undefined

/-- Member `at(position)`. -/
def rle.at (s : rle T) (position : Nat) : Except Failure T :=
  match s.atApplies position with
  | .error e => .error e
  | .ok (v, _) => .ok v

/-- Assignment to `front().second` of a run list. -/
def setFrontSecond (l : List (T × Nat)) (n : Nat) : List (T × Nat) :=
  match l with
  | [] => []
  | r :: rest => (r.1, n) :: rest

/-- The run list with `back()` replaced by `r`. -/
def setBack (l : List (T × Nat)) (r : T × Nat) : List (T × Nat) :=
  l.dropLast ++ [r]

/-- Member `substr(offset, count)`. -/
def rle.substr (s : rle T) (offset : Nat) (count : Nat) : Except Failure (rle T) :=
  let startIndex := offset
  let endIndex := subS (addS (min (subS s._size offset) count) offset) 1
  match s._at startIndex with
  | .error e => .error e
  | .ok (firstRun, startApplies) =>
    match s._at endIndex with
    | .error e => .error e
    | .ok (lastRun, endApplies) =>
      let substring := (s._list.drop firstRun).take (lastRun + 1 - firstRun)
      let substring := setFrontSecond substring startApplies
      match substring.getLast? with
      | none => .error .undefined
      | some back =>
        let substring := setBack substring (back.1, addS (subS back.2 endApplies) 1)
        .ok ⟨substring, addS (subS endIndex startIndex) 1⟩

/-- Member `replace(oldValue, newValue)`. -/
def rle.replaceValue [DecidableEq T] (s : rle T) (oldValue newValue : T) : rle T :=
  { s with _list := s._list.map fun run => if run.1 = oldValue then (newValue, run.2) else run }

/-- The lambda-accumulate of `_merge`: total coverage of the incoming items, summed in `S`. -/
def newItemsTotalCoverage (src : List (T × Nat)) : Nat :=
  src.foldl (fun value item => addS value item.2) 0

/-- The run `curr` after `curr->second--`, erased from the list when that left it at zero. -/
def decremented (curr : T × Nat) : List (T × Nat) :=
  if subS curr.2 1 = 0 then [] else [(curr.1, subS curr.2 1)]

/-- The body of `if (startIndex >= lowerBound && startIndex < upperBound)` in the single-cell
path of `_merge`, at the run `curr` with the runs `done` before it and `rest` after it.
`some l`: `_merge` returned there, leaving the run list `l`; `none`: it went on. -/
def _merge.singleCellAt [DecidableEq T] (NewAttr : T) (startIndex : Nat)
    (done : List (T × Nat)) (curr : T × Nat) (rest : List (T × Nat))
    (lowerBound upperBound : Nat) : Option (List (T × Nat)) :=
  if curr.1 = NewAttr then some (done ++ curr :: rest)
  else if curr.2 = 1 then some (done ++ (NewAttr, curr.2) :: rest)
  else
    let viaPrev : Option (List (T × Nat)) :=
      if startIndex = lowerBound then
        match done.getLast? with
        | some prev =>
          if NewAttr = prev.1 then
            some (done.dropLast ++ (prev.1, addS prev.2 1) :: (decremented curr ++ rest))
          else none
        | none => none
      else none
    match viaPrev with
    | some l => some l
    | none =>
      if startIndex = subS upperBound 1 then
        match rest with
        | next :: rest2 =>
          if NewAttr = next.1 then
            some (done ++ (decremented curr ++ (next.1, addS next.2 1) :: rest2))
          else none
        | [] => none
      else none

/-- The `for` loop of the single-cell path of `_merge`: `done` are the runs before index `i`,
the list argument the runs from index `i` on, `lowerBound` as in the source (at the head of an
iteration `upperBound` equals `lowerBound`). `some l`: `_merge` returned from inside the loop
with run list `l`; `none`: the loop ended and `_merge` goes on. -/
def _merge.singleCell [DecidableEq T] (NewAttr : T) (startIndex : Nat) :
    List (T × Nat) → List (T × Nat) → Nat → Option (List (T × Nat))
  | _, [], _ => none
  | done, curr :: rest, lowerBound =>
    let upperBound := addS lowerBound curr.2
    let early :=
      if startIndex ≥ lowerBound ∧ startIndex < upperBound then
        _merge.singleCellAt NewAttr startIndex done curr rest lowerBound upperBound
      else none
    match early with
    | some l => some l
    | none =>
      if upperBound > startIndex then none
      else _merge.singleCell NewAttr startIndex (done ++ [curr]) rest upperBound

/-- The loop `while (existingCoverage < startIndex)` of `_merge`: arguments are the runs from
`existingPos` on, `existingCoverage` and `newRun`; the result is these three after the loop. -/
def _merge.copyPrefix (startIndex : Nat) :
    List (T × Nat) → Nat → List (T × Nat) →
      Except Failure (List (T × Nat) × Nat × List (T × Nat))
  | [], existingCoverage, newRun =>
    if existingCoverage < startIndex then .error .undefined else .ok ([], existingCoverage, newRun)
  | r :: rest, existingCoverage, newRun =>
    if existingCoverage < startIndex then
      _merge.copyPrefix startIndex rest (addS existingCoverage r.2) (newRun ++ [r])
    else .ok (r :: rest, existingCoverage, newRun)

/-- The loop `while (existingCoverage <= endIndex)` of `_merge`: arguments are the runs from
`existingPos` on, the run before `existingPos` and `existingCoverage`. -/
def _merge.skip (endIndex : Nat) :
    List (T × Nat) → Option (T × Nat) → Nat →
      Except Failure (List (T × Nat) × Option (T × Nat) × Nat)
  | [], prev, existingCoverage =>
    if existingCoverage ≤ endIndex then .error .FAIL_FAST else .ok ([], prev, existingCoverage)
  | r :: rest, prev, existingCoverage =>
    if existingCoverage ≤ endIndex then
      _merge.skip endIndex rest (some r) (addS existingCoverage r.2)
    else .ok (r :: rest, prev, existingCoverage)

/-- The block `if (startIndex != 0) { ... }` of `_merge` followed by the bulk copy of the
remaining incoming items. Result: the runs from `existingPos` on, the run before `existingPos`,
`existingCoverage`, and `newRun`. -/
def _merge.head [DecidableEq T] (existing src : List (T × Nat)) (startIndex : Nat) :
    Except Failure (List (T × Nat) × Option (T × Nat) × Nat × List (T × Nat)) :=
  if startIndex ≠ 0 then
    match _merge.copyPrefix startIndex existing 0 [] with
    | .error e => .error e
    | .ok (existingPos, existingCoverage, newRun) =>
      match newRun.getLast?, src with
      | some back, incoming :: incomingRest =>
        let length := back.2
        let length :=
          if existingCoverage > startIndex then subS length (existingCoverage - startIndex)
          else length
        if back.1 = incoming.1 then
          .ok (existingPos, some back, existingCoverage,
            setBack newRun (back.1, addS length incoming.2) ++ incomingRest)
        else
          .ok (existingPos, some back, existingCoverage,
            setBack newRun (back.1, length) ++ src)
      | _, _ => .error .undefined
  else .ok (existing, none, 0, src)

/-- The block after the skip loop of `_merge`: recovers the part of a run that was skipped or
fuses the next run, then copies what is left of the existing runs. -/
def _merge.tail [DecidableEq T] (newRun existingPos : List (T × Nat)) (prev : Option (T × Nat))
    (existingCoverage endIndex1 : Nat) : Except Failure (List (T × Nat)) :=
  if existingPos ≠ [] ∨ existingCoverage ≠ endIndex1 then
    if existingCoverage > endIndex1 then
      match prev, newRun.getLast? with
      | some skipped, some back =>
        if back.1 = skipped.1 then
          .ok (setBack newRun (back.1, addS back.2 (existingCoverage - endIndex1)) ++ existingPos)
        else
          .ok (newRun ++ (skipped.1, existingCoverage - endIndex1) :: existingPos)
      | _, _ => .error .undefined
    else
      match newRun.getLast?, existingPos with
      | some back, next :: rest =>
        if back.1 = next.1 then .ok (setBack newRun (back.1, addS back.2 next.2) ++ rest)
        else .ok (newRun ++ existingPos)
      | _, _ => .error .undefined
  else .ok newRun

/-- The general rebuild of `_merge` (from `const S cNewRun` to the end). -/
def _merge.general [DecidableEq T] (s : rle T) (src : List (T × Nat))
    (startIndex coverLength : Nat) : Except Failure (rle T) :=
  let total := newItemsTotalCoverage src
  let grow := if total > coverLength then total - coverLength else 0
  let shrink := if coverLength > total then coverLength - total else 0
  match _merge.head s._list src startIndex with
  | .error e => .error e
  | .ok (existingPos, prev, existingCoverage, newRun) =>
    let endIndex := subS (addS (addS startIndex shrink) (total - grow)) 1
    match _merge.skip endIndex existingPos prev existingCoverage with
    | .error e => .error e
    | .ok (existingPos, prev, existingCoverage) =>
      match _merge.tail newRun existingPos prev existingCoverage (addS endIndex 1) with
      | .error e => .error e
      | .ok newRun => .ok { s with _list := newRun }

/-- The fast paths of `_merge` inside `if (coverLength == newItemsTotalCoverage)`.
`some l`: `_merge` returned there, leaving run list `l`; `none`: it goes on to the rebuild. -/
def _merge.fast [DecidableEq T] (s : rle T) (src : List (T × Nat)) (startIndex : Nat) :
    Option (List (T × Nat)) :=
  let single : Option (List (T × Nat)) :=
    match src with
    | [item] =>
      let NewAttr := item.1
      if s._list.length = 1 ∧ (s._list.head?.map Prod.fst) = some NewAttr then some s._list
      else if newItemsTotalCoverage src = 1 then
        _merge.singleCell NewAttr startIndex [] s._list 0
      else none
    | _ => none
  match single with
  | some l => some l
  | none =>
    if startIndex = 0 ∧ newItemsTotalCoverage src = s._size then some src else none

/-- Member `_merge(first, last, startIndex, givenCoverLength)`; `src` is the range
`[first, last)` of (value, length) items. -/
def rle._merge [DecidableEq T] (s : rle T) (src : List (T × Nat))
    (startIndex givenCoverLength : Nat) : Except Failure (rle T) :=
  let coverLength := if givenCoverLength = npos then subS s._size startIndex else givenCoverLength
  let early :=
    if coverLength = newItemsTotalCoverage src then _merge.fast s src startIndex else none
  match early with
  | some l => .ok { s with _list := l }
  | none => _merge.general s src startIndex coverLength

/-- Member `replace(pos, length, first, last)`. -/
def rle.replace [DecidableEq T] (s : rle T) (pos length : Nat) (src : List (T × Nat)) :
    Except Failure (rle T) :=
  s._merge src pos length

/-- Member `replace(pos, length, repeat, value)`; the item handed on is `{ value, length }`. -/
def rle.replaceRepeat [DecidableEq T] (s : rle T) (pos length _repeat : Nat) (value : T) :
    Except Failure (rle T) :=
  s._merge [(value, length)] pos length

/-- Member `fill(value, start)`. -/
def rle.fill [DecidableEq T] (s : rle T) (value : T) (start : Nat) : Except Failure (rle T) :=
  let length := subS s._size start
  s.replaceRepeat start length length value

/-- The constructor `rle(size, value)`. -/
def rle.mk1 [DecidableEq T] (size : Nat) (value : T) : Except Failure (rle T) :=
  rle.fill ⟨[], size⟩ value 0

/-- Member `resize(newSize)`. -/
def rle.resize (s : rle T) (newSize : Nat) : Except Failure (rle T) :=
  if 0 = newSize then .error .E_INVALIDARG
  else if newSize > s._size then
    match s._list.getLast? with
    | none => .error .undefined
    | some run => .ok ⟨setBack s._list (run.1, subS (addS run.2 newSize) s._size), newSize⟩
  else
    match s._at (newSize - 1) with
    | .error e => .error e
    | .ok (run, applies) =>
      match s._list[run]? with
      | none => .error .undefined
      | some r =>
        .ok ⟨s._list.take run ++ [(r.1, addS (subS r.2 applies) 1)], newSize⟩

/-- The uncompressed content of a run list. -/
def decompress (l : List (T × Nat)) : List T :=
  l.flatMap fun run => List.replicate run.2 run.1

/-- The sum of the run lengths of a run list. -/
def totalLength (l : List (T × Nat)) : Nat := (l.map Prod.snd).sum

/-- The algorithm `std::equal(first1, last1, first2)`: the items of the first range are compared
in turn with the items from `first2` on, until one differs; the second range is read without
a check of its end, and reading past it has no defined behaviour. -/
def std_equal [DecidableEq T] : List (T × Nat) → List (T × Nat) → Except Failure Bool
  | [], _ => .ok true
  | _ :: _, [] => .error .undefined
  | x :: xs, y :: ys => if x = y then std_equal xs ys else .ok false

/-- Member `operator==`. -/
def rle.eq [DecidableEq T] (s other : rle T) : Except Failure Bool :=
  if s._size = other._size then std_equal s._list other._list else .ok false

/-- Member `operator!=`. -/
def rle.ne [DecidableEq T] (s other : rle T) : Except Failure Bool :=
  match s.eq other with
  | .error e => .error e
  | .ok b => .ok (!b)

/-! ## The iterator over the cells of a store -/

/-- The conversion of a value of `S` to `difference_type` (`ptrdiff_t`, 64 bits). -/
def toDifference (x : Nat) : Int := if x < 2 ^ 63 then (x : Int) else (x : Int) - 2 ^ 64

/-- The class `rle_const_iterator`: `_it` is the index in the run list of the run it points
to (the number of runs for an iterator at `_list.end()`), `_usage` the position inside that
run, counted from one. -/
structure rle_const_iterator where
  _it : Nat
  _usage : Nat
deriving DecidableEq, Repr

/-- The loop `while (move > 0)` of the positive direction of `operator+=`; the list argument
holds the runs from `_it` on. -/
def rle_const_iterator.forward :
    List (T × Nat) → Nat → Nat → Int → Except Failure rle_const_iterator
  | [], _it, _usage, move =>
    if move > 0 then .error .undefined else .ok ⟨_it, _usage⟩
  | run :: rest, _it, _usage, move =>
    if move > 0 then
      let space := toDifference (subS run.2 _usage)
      if space ≥ move then .ok ⟨_it, addS _usage move.toNat⟩
      else rle_const_iterator.forward rest (_it + 1) 1 (move - (space + 1))
    else .ok ⟨_it, _usage⟩

/-- The loop `while (move > 0)` of the negative direction of `operator+=`; the list argument
holds the runs before `_it`, the nearest first. -/
def rle_const_iterator.backward :
    List (T × Nat) → Nat → Nat → Int → Except Failure rle_const_iterator
  | [], _it, _usage, move =>
    if move > 0 then
      let space := toDifference (subS _usage 1)
      if space ≥ move then .ok ⟨_it, subS _usage move.toNat⟩
      else .error .undefined
    else .ok ⟨_it, _usage⟩
  | run :: before, _it, _usage, move =>
    if move > 0 then
      let space := toDifference (subS _usage 1)
      if space ≥ move then .ok ⟨_it, subS _usage move.toNat⟩
      else rle_const_iterator.backward before (_it - 1) run.2 (move - toDifference _usage)
    else .ok ⟨_it, _usage⟩

/-- Member `operator+=(offset)` of an iterator into the run list `l`. -/
def rle_const_iterator.addAssign (l : List (T × Nat)) (self : rle_const_iterator)
    (offset : Int) : Except Failure rle_const_iterator :=
  if offset < 0 then
    rle_const_iterator.backward (l.take self._it).reverse self._it self._usage (-offset)
  else rle_const_iterator.forward (l.drop self._it) self._it self._usage offset

/-- Member `operator+(offset)`: `operator+=` on a copy. -/
def rle_const_iterator.add (l : List (T × Nat)) (self : rle_const_iterator) (offset : Int) :
    Except Failure rle_const_iterator :=
  rle_const_iterator.addAssign l self offset

/-- The loop `while (_it > tmp._it)` of `operator-(right)`: the state is `tmp._it`,
`tmp._usage` and `accumulation`. Every round moves `tmp._it` one run to the right, so the
loop ends after `_it - tmp._it` rounds, the first argument. -/
def rle_const_iterator.sub.rightward (l : List (T × Nat)) (_it : Nat) :
    Nat → Nat → Nat → Int → Except Failure (Nat × Nat × Int)
  | 0, tmpIt, tmpUsage, accumulation => .ok (tmpIt, tmpUsage, accumulation)
  | rounds + 1, tmpIt, tmpUsage, accumulation =>
    if _it > tmpIt then
      match l[tmpIt]? with
      | none => .error .undefined
      | some run =>
        rle_const_iterator.sub.rightward l _it rounds (tmpIt + 1) 1
          (accumulation + toDifference (addS (subS run.2 tmpUsage) 1))
    else .ok (tmpIt, tmpUsage, accumulation)

/-- The loop `while (_it < tmp._it)` of `operator-(right)`, which subtracts `_usage` of the
left operand in every round. Every round moves `tmp._it` one run to the left, so the loop
ends after `tmp._it - _it` rounds, the first argument. -/
def rle_const_iterator.sub.leftward (l : List (T × Nat)) (_it _usage : Nat) :
    Nat → Nat → Nat → Int → Except Failure (Nat × Nat × Int)
  | 0, tmpIt, tmpUsage, accumulation => .ok (tmpIt, tmpUsage, accumulation)
  | rounds + 1, tmpIt, tmpUsage, accumulation =>
    if _it < tmpIt then
      match l[tmpIt - 1]? with
      | none => .error .undefined
      | some run =>
        rle_const_iterator.sub.leftward l _it _usage rounds (tmpIt - 1) run.2
          (accumulation - toDifference _usage)
    else .ok (tmpIt, tmpUsage, accumulation)

/-- Member `operator-(right)`: the difference of two iterators into the run list `l`. -/
def rle_const_iterator.sub (l : List (T × Nat)) (self right : rle_const_iterator) :
    Except Failure Int :=
  match rle_const_iterator.sub.rightward l self._it (self._it - right._it)
      right._it right._usage 0 with
  | .error e => .error e
  | .ok (tmpIt, tmpUsage, accumulation) =>
    match rle_const_iterator.sub.leftward l self._it self._usage (tmpIt - self._it)
        tmpIt tmpUsage accumulation with
    | .error e => .error e
    | .ok (_, tmpUsage, accumulation) =>
      .ok (accumulation + toDifference (subS self._usage tmpUsage))

/-- Member `begin()`: the iterator at the first position of the first run. -/
def rle.begin (_s : rle T) : rle_const_iterator := ⟨0, 1⟩

/-! ## Definitions used in the statements and proofs -/

/-- Concatenation of two run lists that fuses the last run of the first with the first run of
the second when their values are equal. -/
def join [DecidableEq T] (l₁ l₂ : List (T × Nat)) : List (T × Nat) :=
  match l₁.getLast?, l₂ with
  | some b, x :: rest => if b.1 = x.1 then setBack l₁ (b.1, b.2 + x.2) ++ rest else l₁ ++ l₂
  | _, _ => l₁ ++ l₂

/-- The concatenation `join` with the fused length summed in `S`, as `_merge` sums it. -/
def joinS [DecidableEq T] (l₁ l₂ : List (T × Nat)) : List (T × Nat) :=
  match l₁.getLast?, l₂ with
  | some b, x :: rest => if b.1 = x.1 then setBack l₁ (b.1, addS b.2 x.2) ++ rest else l₁ ++ l₂
  | _, _ => l₁ ++ l₂

/-- The part of the run `last` that lies behind the covered region, `k` cells long. -/
def remainder (last : T × Nat) (k : Nat) : List (T × Nat) :=
  if k > 0 then [(last.1, k)] else []

/-- No two adjacent runs have equal value. -/
def Canonical : List (T × Nat) → Prop
  | [] => True
  | [_] => True
  | a :: b :: rest => a.1 ≠ b.1 ∧ Canonical (b :: rest)

/-- Canonical form can be checked run by run. -/
def decCanonical [DecidableEq T] : (l : List (T × Nat)) → Decidable (Canonical l)
  | [] => isTrue trivial
  | [_] => isTrue trivial
  | a :: b :: rest =>
    have : Decidable (Canonical (b :: rest)) := decCanonical (b :: rest)
    inferInstanceAs (Decidable (a.1 ≠ b.1 ∧ Canonical (b :: rest)))

instance [DecidableEq T] (l : List (T × Nat)) : Decidable (Canonical l) := decCanonical l

/-- Whether the cell `pos` is a whole run of length one whose value is not `v` while the run
before it or the run after it has the value `v`. The list argument holds the runs still to be
looked at, `prev` is the run before them and `lowerBound` the number of cells before them. -/
def loneRunBeside [DecidableEq T] (v : T) (pos : Nat) :
    Option (T × Nat) → List (T × Nat) → Nat → Bool
  | _, [], _ => false
  | prev, curr :: rest, lowerBound =>
    if lowerBound ≤ pos ∧ pos < lowerBound + curr.2 then
      decide (curr.2 = 1 ∧ curr.1 ≠ v ∧
        (prev.map Prod.fst = some v ∨ rest.head?.map Prod.fst = some v))
    else loneRunBeside v pos (some curr) rest (lowerBound + curr.2)

/-- Whether writing `v` to the cell `pos` of the store overwrites a whole run of length one of
another value that has a neighbouring run of value `v`. -/
def rle.loneRunBeside [DecidableEq T] (s : rle T) (pos : Nat) (v : T) : Bool :=
  til.loneRunBeside v pos none s._list 0

/-- Every run has length at least one. -/
def Positive (l : List (T × Nat)) : Prop := ∀ r ∈ l, 1 ≤ r.2

instance (l : List (T × Nat)) : Decidable (Positive l) :=
  inferInstanceAs (Decidable (∀ r ∈ l, 1 ≤ r.2))

/-- Values of the worked examples. -/
inductive Color where
  | R | G | B | Y | N
deriving DecidableEq, Repr

/-- The store `[R x3, G x5, B x2]` of size 10 of the worked examples. -/
def rgb : rle Color := ⟨[(.R, 3), (.G, 5), (.B, 2)], 10⟩

end til

namespace TerminalApp

/-! ## Pane (src/cascadia/TerminalApp/Pane.cpp)

`float` values are rational numbers; the arithmetic of this section is exact, the section
"The layout computed in `float`" repeats the layout with every result rounded to binary32.
A pane is its member variables together with its two children, which the source sets and clears together. The hosted `TermControl` and the
declarations of `Pane.h` are not among the sources; what `Pane.cpp` uses of them is modelled
below. -/

/-- Ways in which a call on a pane stops without returning. -/
inductive PaneFailure where
  | E_FAIL
  | nullDeref
  | bad_optional_access
  | undefined
deriving DecidableEq, Repr

/-- The constant `PaneSeparatorSize`. -/
def PaneSeparatorSize : ℚ := 4

/-- The constant `Half`. -/
def Half : ℚ := 1 / 2

/-- The type `Windows::Foundation::Size`. -/
structure Size where
  Width : ℚ
  Height : ℚ
deriving DecidableEq

/-- Modelled from the spec: the enumeration `SplitState` of `Pane.h`, "one of
`{None, Vertical, Horizontal}`". -/
inductive SplitState where
  | None
  | Vertical
  | Horizontal
deriving DecidableEq, Repr

/-- The type `GUID` of a profile key. -/
abbrev GUID := Nat

/-- Modelled from the spec: the hosted terminal surface `TermControl`, with the capabilities
the pane consumes: `minimumSize()`, `characterCellSize()`,
`snapDimensionToGrid(alongWidth, proposedSize)` and `isFocused()` (in the source
`FocusState() != FocusState::Unfocused`); `id` tells controls apart. -/
structure TermControl where
  id : Nat
  MinimumSize : Size
  CharacterDimensions : Size
  SnapDimensionToGrid : Bool → ℚ → ℚ
  focused : Bool

/-- The member variables of a `Pane` other than its children; `_rootActualSize` stands for
`_root.ActualWidth()` and `_root.ActualHeight()`. -/
structure PaneState where
  _control : Option TermControl
  _profile : Option GUID
  _lastFocused : Bool
  _splitState : SplitState
  _desiredSplitPosition : ℚ
  _rootActualSize : Size

/-- The class `Pane`: `childless` when `_firstChild` and `_secondChild` are null. -/
inductive Pane where
  | childless (m : PaneState)
  | parent (m : PaneState) (_firstChild _secondChild : Pane)

/-- The member variables of a pane. -/
def Pane.m : Pane → PaneState
  | .childless m => m
  | .parent m _ _ => m

/-- Modelled from the spec: the helper `SnapDirectionIsParallelToSplit` of `Pane.h`; the
queried dimension is parallel when it "runs along the separator" and perpendicular when it
"crosses it, e.g. width of a vertical split". -/
def SnapDirectionIsParallelToSplit (snapToWidth : Bool) (splitState : SplitState) : Bool :=
  (splitState = .Vertical && !snapToWidth) || (splitState = .Horizontal && snapToWidth)

/-- Modelled from the spec: the constructor `Pane(profile, control, rootPane, lastFocused)`
with the member initialisers of `Pane.h`: a constructed pane is a leaf (`splitState` is
`None` "iff the node is a leaf") that is not flagged unless `lastFocused` is passed; its
split position is not read while it is a leaf and its grid has no size before layout. -/
def Pane.ctor (profile : GUID) (control : TermControl) (lastFocused : Bool) : Pane :=
  .childless ⟨some control, some profile, lastFocused, .None, 0, ⟨0, 0⟩⟩

/-- Member `_IsLeaf()`. -/
def Pane._IsLeaf (p : Pane) : Bool := p.m._splitState = .None

/-- Member `_HasFocusedChild()`. -/
def Pane._HasFocusedChild : Pane → Bool
  | .childless m => (match m._control with | some c => c.focused | none => false)
  | .parent m a b =>
    (match m._control with | some c => c.focused | none => false)
      || a._HasFocusedChild || b._HasFocusedChild

/-- Member `_GetMinSize()`, with exact sums (`_GetMinSize32` rounds them to `float`). -/
def Pane._GetMinSize : Pane → Except PaneFailure Size
  | .childless m =>
    if m._splitState = .None then
      match m._control with
      | some c => .ok c.MinimumSize
      | none => .error .nullDeref
    else .error .nullDeref
  | .parent m a b =>
    if m._splitState = .None then
      match m._control with
      | some c => .ok c.MinimumSize
      | none => .error .nullDeref
    else
      match a._GetMinSize with
      | .error e => .error e
      | .ok firstSize =>
        match b._GetMinSize with
        | .error e => .error e
        | .ok secondSize =>
          let minWidth := if m._splitState = .Vertical then
              firstSize.Width + PaneSeparatorSize + secondSize.Width
            else max firstSize.Width secondSize.Width
          let minHeight := if m._splitState = .Horizontal then
              firstSize.Height + PaneSeparatorSize + secondSize.Height
            else max firstSize.Height secondSize.Height
          .ok ⟨minWidth, minHeight⟩

/-- The type `SnapSizeBounds` as `Pane.cpp` uses it: the nearest snap sizes below and above
a requested size. -/
structure SnapSizeBounds where
  lower : ℚ
  higher : ℚ
deriving DecidableEq

/-- The type `ChildrenSnapBounds` as `Pane.cpp` uses it: the snap bounds of the two
children. -/
structure ChildrenSnapBounds where
  first : SnapSizeBounds
  second : SnapSizeBounds
deriving DecidableEq

/-- The class `Pane::LayoutSizeNode`; a null `unique_ptr` is `none`. -/
inductive LayoutSizeNode where
  | mk (size : ℚ) (isMinimumSize : Bool)
      (firstChild secondChild nextFirstChild nextSecondChild : Option LayoutSizeNode)

/-- Field `size`. -/
def LayoutSizeNode.size : LayoutSizeNode → ℚ
  | .mk s _ _ _ _ _ => s

/-- Field `isMinimumSize`. -/
def LayoutSizeNode.isMinimumSize : LayoutSizeNode → Bool
  | .mk _ b _ _ _ _ => b

/-- Field `firstChild`. -/
def LayoutSizeNode.firstChild : LayoutSizeNode → Option LayoutSizeNode
  | .mk _ _ f _ _ _ => f

/-- Field `secondChild`. -/
def LayoutSizeNode.secondChild : LayoutSizeNode → Option LayoutSizeNode
  | .mk _ _ _ s _ _ => s

/-- Field `nextFirstChild`. -/
def LayoutSizeNode.nextFirstChild : LayoutSizeNode → Option LayoutSizeNode
  | .mk _ _ _ _ nf _ => nf

/-- Field `nextSecondChild`. -/
def LayoutSizeNode.nextSecondChild : LayoutSizeNode → Option LayoutSizeNode
  | .mk _ _ _ _ _ ns => ns

/-- Member `_GetMinSizeTree(snapToWidth)`. -/
def Pane._GetMinSizeTree : Pane → Bool → Except PaneFailure LayoutSizeNode
  | .childless m, snapToWidth =>
    match (Pane.childless m)._GetMinSize with
    | .error e => .error e
    | .ok size =>
      if m._splitState = .None then
        .ok (.mk (if snapToWidth then size.Width else size.Height) true none none none none)
      else .error .nullDeref
  | .parent m a b, snapToWidth =>
    match (Pane.parent m a b)._GetMinSize with
    | .error e => .error e
    | .ok size =>
      if m._splitState = .None then
        .ok (.mk (if snapToWidth then size.Width else size.Height) true none none none none)
      else
        match a._GetMinSizeTree snapToWidth with
        | .error e => .error e
        | .ok first =>
          match b._GetMinSizeTree snapToWidth with
          | .error e => .error e
          | .ok second =>
            .ok (.mk (if snapToWidth then size.Width else size.Height) true (some first) (some second) none none)

/-- The leaf branch of `_GetProposedSnapSizes(snapToWidth, dimension)`. -/
def PaneState.leafProposedSnapSizes (m : PaneState) (snapToWidth : Bool) (dimension : ℚ) :
    Except PaneFailure SnapSizeBounds :=
  match m._control with
  | none => .error .nullDeref
  | some control =>
    let minSize := control.MinimumSize
    let minDimension := if snapToWidth then minSize.Width else minSize.Height
    if dimension ≤ minDimension then .ok ⟨minDimension, minDimension⟩
    else
      let lower := control.SnapDimensionToGrid snapToWidth dimension
      if lower = dimension then .ok ⟨lower, lower⟩
      else
        let cellSize := control.CharacterDimensions
        let higher := lower + (if snapToWidth then cellSize.Width else cellSize.Height)
        .ok ⟨lower, higher⟩

/-- The leaf branch of `_SnapSizeUpwards(snapToWidth, sizeNode)`, with the final
`sizeNode.isMinimumSize = false`. -/
def PaneState.leafSnapSizeUpwards (m : PaneState) (snapToWidth : Bool)
    (sizeNode : LayoutSizeNode) : Except PaneFailure LayoutSizeNode :=
  match sizeNode with
  | .mk size isMinimumSize f s nf ns =>
    if isMinimumSize then
      match m.leafProposedSnapSizes snapToWidth (size + 1) with
      | .error e => .error e
      | .ok bounds => .ok (.mk bounds.higher false f s nf ns)
    else
      match m._control with
      | none => .error .nullDeref
      | some control =>
        let cellSize := control.CharacterDimensions
        .ok (.mk (size + (if snapToWidth then cellSize.Width else cellSize.Height)) false
          f s nf ns)

/-- The size `_SnapSizeUpwards` gives a node from the sizes of its children: the larger one
along the separator, their sum with the separator across it. -/
def PaneState.sizeOfChildren (m : PaneState) (snapToWidth : Bool) (first second : ℚ) : ℚ :=
  if SnapDirectionIsParallelToSplit snapToWidth m._splitState then max first second
  else first + PaneSeparatorSize + second

/-- The decision `advanceFirst` of `_SnapSizeUpwards`. -/
def PaneState.advanceFirst (m : PaneState) (snapToWidth : Bool)
    (firstSize secondSize nextFirstSize nextSecondSize : ℚ) : Bool :=
  if SnapDirectionIsParallelToSplit snapToWidth m._splitState then
    decide (nextFirstSize < nextSecondSize)
  else
    let deviation1 := nextFirstSize - (nextFirstSize + secondSize) * m._desiredSplitPosition
    let deviation2 := -1 * (firstSize - (firstSize + nextSecondSize) * m._desiredSplitPosition)
    decide (deviation1 ≤ deviation2)

/-- Member `_SnapSizeUpwards(snapToWidth, sizeNode)`, with exact sums (`_SnapSizeUpwards32`
rounds them to `float`); the result is the node it leaves. -/
def Pane._SnapSizeUpwards : Pane → Bool → LayoutSizeNode → Except PaneFailure LayoutSizeNode
  | .childless m, snapToWidth, sizeNode =>
    if m._splitState = .None then m.leafSnapSizeUpwards snapToWidth sizeNode
    else .error .nullDeref
  | .parent m a b, snapToWidth, sizeNode =>
    if m._splitState = .None then m.leafSnapSizeUpwards snapToWidth sizeNode
    else
      match sizeNode.firstChild, sizeNode.secondChild with
      | some firstChild, some secondChild =>
        let nextFirst : Except PaneFailure LayoutSizeNode :=
          match sizeNode.nextFirstChild with
          | some n => .ok n
          | none => a._SnapSizeUpwards snapToWidth firstChild
        let nextSecond : Except PaneFailure LayoutSizeNode :=
          match sizeNode.nextSecondChild with
          | some n => .ok n
          | none => b._SnapSizeUpwards snapToWidth secondChild
        match nextFirst, nextSecond with
        | .ok nextFirstChild, .ok nextSecondChild =>
          if m.advanceFirst snapToWidth firstChild.size secondChild.size
              nextFirstChild.size nextSecondChild.size then
            match a._SnapSizeUpwards snapToWidth nextFirstChild with
            | .error e => .error e
            | .ok advanced =>
              .ok (.mk (m.sizeOfChildren snapToWidth nextFirstChild.size secondChild.size) false
                (some nextFirstChild) (some secondChild) (some advanced) (some nextSecondChild))
          else
            match b._SnapSizeUpwards snapToWidth nextSecondChild with
            | .error e => .error e
            | .ok advanced =>
              .ok (.mk (m.sizeOfChildren snapToWidth firstChild.size nextSecondChild.size) false
                (some firstChild) (some nextSecondChild) (some nextFirstChild) (some advanced))
        | .error e, _ => .error e
        | _, .error e => .error e
      | _, _ => .error .nullDeref

/-- The bounds `_CalcSnappedPaneDimensions` returns from the size tree below and the size tree
at or above the full size. -/
def childrenBounds (lastSizeTree sizeTree : LayoutSizeNode) :
    Except PaneFailure ChildrenSnapBounds :=
  match lastSizeTree.firstChild, lastSizeTree.secondChild,
    sizeTree.firstChild, sizeTree.secondChild with
  | some lf, some ls, some f, some s => .ok ⟨⟨lf.size, f.size⟩, ⟨ls.size, s.size⟩⟩
  | _, _, _, _ => .error .nullDeref

/-- The loop `while (sizeTree.size < fullSize)` of `_CalcSnappedPaneDimensions` with the
returns behind it; `none` when the loop has not ended after `fuel` rounds. -/
def Pane._CalcSnappedPaneDimensions.loop (p : Pane) (snapToWidth : Bool) (fullSize : ℚ) :
    Nat → LayoutSizeNode → LayoutSizeNode → Option (Except PaneFailure ChildrenSnapBounds)
  | 0, sizeTree, lastSizeTree =>
    if sizeTree.size < fullSize then none
    else some (childrenBounds lastSizeTree sizeTree)
  | fuel + 1, sizeTree, lastSizeTree =>
    if sizeTree.size < fullSize then
      match p._SnapSizeUpwards snapToWidth sizeTree with
      | .error e => some (.error e)
      | .ok snapped =>
        if snapped.size = fullSize then some (childrenBounds snapped snapped)
        else Pane._CalcSnappedPaneDimensions.loop p snapToWidth fullSize fuel snapped sizeTree
    else some (childrenBounds lastSizeTree sizeTree)

/-- Member `_CalcSnappedPaneDimensions(snapToWidth, fullSize)`, with exact sizes
(`_CalcSnappedPaneDimensions32` has them in `float`); `none` when its loop has not ended
after `fuel` rounds. -/
def Pane._CalcSnappedPaneDimensions (p : Pane) (fuel : Nat) (snapToWidth : Bool)
    (fullSize : ℚ) : Option (Except PaneFailure ChildrenSnapBounds) :=
  if p._IsLeaf then some (.error .E_FAIL)
  else
    match p._GetMinSizeTree snapToWidth with
    | .error e => some (.error e)
    | .ok sizeTree =>
      Pane._CalcSnappedPaneDimensions.loop p snapToWidth fullSize fuel sizeTree sizeTree

/-- Member `_GetPaneSizes(fullSize)`, with exact differences (`_GetPaneSizes32` rounds them
to `float`). -/
def Pane._GetPaneSizes (p : Pane) (fuel : Nat) (fullSize : ℚ) :
    Option (Except PaneFailure (ℚ × ℚ)) :=
  let snapToWidth : Bool := p.m._splitState = .Vertical
  match p._CalcSnappedPaneDimensions fuel snapToWidth fullSize with
  | none => none
  | some (.error e) => some (.error e)
  | some (.ok snappedSizes) =>
    some (.ok (snappedSizes.first.lower,
      fullSize - PaneSeparatorSize - snappedSizes.first.lower))

/-- Member `_CreateRowColDefinitions(rootSize)`. The sizes it gets from `_GetPaneSizes` go
into the row and column definitions of the grid, which is not part of the state of the pane;
what is left of the call is whether it returns. -/
def Pane._CreateRowColDefinitions (p : Pane) (fuel : Nat) (rootSize : Size) :
    Option (Except PaneFailure Unit) :=
  if p.m._splitState = .Vertical then
    match p._GetPaneSizes fuel rootSize.Width with
    | none => none
    | some (.error e) => some (.error e)
    | some (.ok _) => some (.ok ())
  else if p.m._splitState = .Horizontal then
    match p._GetPaneSizes fuel rootSize.Height with
    | none => none
    | some (.error e) => some (.error e)
    | some (.ok _) => some (.ok ())
  else some (.ok ())

/-- Member `_CreateSplitContent()`; the separator it creates belongs to the grid. -/
def Pane._CreateSplitContent (p : Pane) (fuel : Nat) : Option (Except PaneFailure Unit) :=
  p._CreateRowColDefinitions fuel p.m._rootActualSize

/-- Member `_Split(splitType, profile, control)`. -/
def Pane._Split (p : Pane) (fuel : Nat) (splitType : SplitState) (profile : GUID)
    (control : TermControl) : Option (Except PaneFailure Pane) :=
  match p.m._control with
  | none => some (.error .nullDeref)
  | some ownControl =>
    match p.m._profile with
    | none => some (.error .bad_optional_access)
    | some ownProfile =>
      let _firstChild := Pane.ctor ownProfile ownControl false
      let _secondChild := Pane.ctor profile control false
      let m : PaneState :=
        { p.m with
          _splitState := splitType
          _desiredSplitPosition := Half
          _profile := none
          _control := none }
      match (Pane.parent m _firstChild _secondChild)._CreateSplitContent fuel with
      | none => none
      | some (.error e) => some (.error e)
      | some (.ok _) =>
        some (.ok (.parent { m with _lastFocused := false } _firstChild _secondChild))

/-- Member `Split(splitType, profile, control)`. -/
def Pane.Split (fuel : Nat) :
    Pane → SplitState → GUID → TermControl → Option (Except PaneFailure Pane)
  | .childless m, splitType, profile, control =>
    if m._splitState ≠ .None then some (.error .nullDeref)
    else (Pane.childless m)._Split fuel splitType profile control
  | .parent m a b, splitType, profile, control =>
    if m._splitState ≠ .None then
      if a._HasFocusedChild then
        match Pane.Split fuel a splitType profile control with
        | none => none
        | some (.error e) => some (.error e)
        | some (.ok a') => some (.ok (.parent m a' b))
      else if b._HasFocusedChild then
        match Pane.Split fuel b splitType profile control with
        | none => none
        | some (.error e) => some (.error e)
        | some (.ok b') => some (.ok (.parent m a b'))
      else some (.ok (.parent m a b))
    else (Pane.parent m a b)._Split fuel splitType profile control

/-- The test `_control && _control.FocusState() != FocusState::Unfocused`. -/
def PaneState.controlFocused (m : PaneState) : Bool :=
  match m._control with
  | some c => c.focused
  | none => false

/-- Member `UpdateFocus()`. -/
def Pane.UpdateFocus : Pane → Except PaneFailure Pane
  | .childless m =>
    if m._splitState = .None then
      .ok (.childless { m with _lastFocused := m.controlFocused })
    else .error .nullDeref
  | .parent m a b =>
    if m._splitState = .None then
      .ok (.parent { m with _lastFocused := m.controlFocused } a b)
    else
      match a.UpdateFocus with
      | .error e => .error e
      | .ok a' =>
        match b.UpdateFocus with
        | .error e => .error e
        | .ok b' => .ok (.parent { m with _lastFocused := false } a' b')

/-- Member `_FocusFirstChild()`. The request `Focus(FocusState::Programmatic)` goes to the
control, whose focus is not part of the state of the pane; what is left of the call is
whether it returns. -/
def Pane._FocusFirstChild : Pane → Except PaneFailure Unit
  | .childless m =>
    if m._splitState = .None then
      match m._control with
      | some _ => .ok ()
      | none => .error .nullDeref
    else .error .nullDeref
  | .parent m a _ =>
    if m._splitState = .None then
      match m._control with
      | some _ => .ok ()
      | none => .error .nullDeref
    else a._FocusFirstChild

/-- The body of `_CloseChild(closeFirst)` on a pane that is not a leaf, from the choice of
`closedChild` and `remainingChild` on. Event handlers and the grid are not part of the state
of the pane; registering or revoking a handler on a control that is null stops the call. -/
def Pane._CloseChild.body (m : PaneState) (_firstChild _secondChild closedChild
    remainingChild : Pane) : Except PaneFailure Pane :=
  if remainingChild._IsLeaf then
    match remainingChild.m._control with
    | none => .error .nullDeref
    | some control =>
      match closedChild.m._control with
      | none => .error .nullDeref
      | some _ =>
        .ok (.childless
          { m with
            _control := some control
            _profile := remainingChild.m._profile
            _lastFocused := _firstChild.m._lastFocused || _secondChild.m._lastFocused
            _splitState := .None })
  else
    match remainingChild with
    | .childless _ => .error .nullDeref
    | .parent r ra rb =>
      match closedChild.m._control with
      | none => .error .nullDeref
      | some _ =>
        if closedChild.m._lastFocused then
          match (Pane.parent { m with _splitState := r._splitState } ra rb)._FocusFirstChild with
          | .error e => .error e
          | .ok _ => .ok (.parent { m with _splitState := r._splitState } ra rb)
        else .ok (.parent { m with _splitState := r._splitState } ra rb)

/-- Member `_CloseChild(closeFirst)`. -/
def Pane._CloseChild : Pane → Bool → Except PaneFailure Pane
  | .childless m, _ =>
    if m._splitState = .None then .ok (.childless m) else .error .nullDeref
  | .parent m a b, closeFirst =>
    if m._splitState = .None then .ok (.parent m a b)
    else
      Pane._CloseChild.body m a b (if closeFirst then a else b) (if closeFirst then b else a)

/-- The function `std::clamp(v, lo, hi)`, whose behaviour is undefined when `hi < lo`. -/
def std_clamp (v lo hi : ℚ) : Except PaneFailure ℚ :=
  if hi < lo then .error .undefined
  else .ok (if v < lo then lo else if hi < v then hi else v)

/-- The pane with `_desiredSplitPosition` set to `position`. -/
def Pane.setSplitPosition (position : ℚ) : Pane → Pane
  | .childless m => .childless { m with _desiredSplitPosition := position }
  | .parent m a b => .parent { m with _desiredSplitPosition := position } a b

/-- The data model of a pane tree: a pane has children exactly when its `_splitState` is
not `None`, and a pane without children hosts a control. -/
def Pane.WellFormed : Pane → Prop
  | .childless m => m._splitState = .None ∧ m._control.isSome = true
  | .parent m a b => m._splitState ≠ .None ∧ a.WellFormed ∧ b.WellFormed

/-- Every control hosted by a leaf of the tree satisfies `P`. -/
def Pane.EveryControl (P : TermControl → Prop) : Pane → Prop
  | .childless m => ∀ c, m._control = some c → P c
  | .parent _ a b => a.EveryControl P ∧ b.EveryControl P

/-- The minimum size of a control along the chosen dimension. -/
def TermControl.minDimension (c : TermControl) (snapToWidth : Bool) : ℚ :=
  if snapToWidth then c.MinimumSize.Width else c.MinimumSize.Height

/-- The cell size of a control along the chosen dimension. -/
def TermControl.cellDimension (c : TermControl) (snapToWidth : Bool) : ℚ :=
  if snapToWidth then c.CharacterDimensions.Width else c.CharacterDimensions.Height

/-- The cell of the control has a positive size along the chosen dimension. -/
def PositiveCell (snapToWidth : Bool) (c : TermControl) : Prop :=
  0 < c.cellDimension snapToWidth

/-- The contract of `SnapDimensionToGrid`: above the minimum size the control snaps down to
the largest `minSize + k * cellSize` that does not exceed the proposed size. -/
def SnapsDown (snapToWidth : Bool) (c : TermControl) : Prop :=
  ∀ d, c.minDimension snapToWidth < d →
    ∃ k : ℕ, c.SnapDimensionToGrid snapToWidth d
        = c.minDimension snapToWidth + k * c.cellDimension snapToWidth ∧
      c.SnapDimensionToGrid snapToWidth d ≤ d ∧
      d < c.SnapDimensionToGrid snapToWidth d + c.cellDimension snapToWidth

/-- The size a leaf gets by its first snap upwards from the minimum size. -/
def TermControl.firstSnap (c : TermControl) (snapToWidth : Bool) : ℚ :=
  if c.SnapDimensionToGrid snapToWidth (c.minDimension snapToWidth + 1)
      = c.minDimension snapToWidth + 1 then
    c.SnapDimensionToGrid snapToWidth (c.minDimension snapToWidth + 1)
  else
    c.SnapDimensionToGrid snapToWidth (c.minDimension snapToWidth + 1)
      + c.cellDimension snapToWidth

/-- The size of a leaf after `k` snaps upwards from the minimum size. -/
def leafSizeAfter (c : TermControl) (snapToWidth : Bool) : ℕ → ℚ
  | 0 => c.minDimension snapToWidth
  | k + 1 => c.firstSnap snapToWidth + k * c.cellDimension snapToWidth

/-- How many of the first `k` snaps upwards of a node advance its first child, given the
sizes `F i` and `S i` of the children after `i` snaps of their own. -/
def advances (m : PaneState) (snapToWidth : Bool) (F S : ℕ → ℚ) : ℕ → ℕ
  | 0 => 0
  | k + 1 =>
    if m.advanceFirst snapToWidth (F (advances m snapToWidth F S k))
        (S (k - advances m snapToWidth F S k)) (F (advances m snapToWidth F S k + 1))
        (S (k - advances m snapToWidth F S k + 1)) then
      advances m snapToWidth F S k + 1
    else advances m snapToWidth F S k

/-- The size of the node of a pane after `k` snaps upwards from the minimum-size tree. -/
def Pane.sizeAfter : Pane → Bool → ℕ → ℚ
  | .childless m, snapToWidth, k =>
    match m._control with
    | some c => leafSizeAfter c snapToWidth k
    | none => 0
  | .parent m a b, snapToWidth, k =>
    m.sizeOfChildren snapToWidth
      (a.sizeAfter snapToWidth
        (advances m snapToWidth (a.sizeAfter snapToWidth) (b.sizeAfter snapToWidth) k))
      (b.sizeAfter snapToWidth
        (k - advances m snapToWidth (a.sizeAfter snapToWidth) (b.sizeAfter snapToWidth) k))

/-- The size tree of a pane after `k` snaps upwards from the minimum-size tree. -/
def Pane.treeAfter : Pane → Bool → ℕ → LayoutSizeNode
  | .childless m, snapToWidth, k =>
    .mk ((Pane.childless m).sizeAfter snapToWidth k) (decide (k = 0)) none none none none
  | .parent m a b, snapToWidth, k =>
    .mk ((Pane.parent m a b).sizeAfter snapToWidth k) (decide (k = 0))
      (some (a.treeAfter snapToWidth
        (advances m snapToWidth (a.sizeAfter snapToWidth) (b.sizeAfter snapToWidth) k)))
      (some (b.treeAfter snapToWidth
        (k - advances m snapToWidth (a.sizeAfter snapToWidth) (b.sizeAfter snapToWidth) k)))
      (if k = 0 then none else some (a.treeAfter snapToWidth
        (advances m snapToWidth (a.sizeAfter snapToWidth) (b.sizeAfter snapToWidth) k + 1)))
      (if k = 0 then none else some (b.treeAfter snapToWidth
        (k - advances m snapToWidth (a.sizeAfter snapToWidth) (b.sizeAfter snapToWidth) k
          + 1)))

/-- Along the tree of the pane no node of the size tree `t'` is smaller than the node at the
same place of the size tree `t`: the node itself, and `firstChild` and `secondChild` along
the children of the pane. -/
def Pane.NoSmaller : Pane → LayoutSizeNode → LayoutSizeNode → Prop
  | .childless _, t, t' => t.size ≤ t'.size
  | .parent _ a b, t, t' =>
    t.size ≤ t'.size ∧
    (∃ x y, t.firstChild = some x ∧ t'.firstChild = some y ∧ a.NoSmaller x y) ∧
    (∃ x y, t.secondChild = some x ∧ t'.secondChild = some y ∧ b.NoSmaller x y)

/-- The index of the tree whose children give the lower bounds of
`_CalcSnappedPaneDimensions`, for the first index `K` of the walk whose size reaches
`fullSize`: `K` itself when the loop is not entered or ends on an exact match, the index
before it otherwise. -/
def lowerIndex (f : ℕ → ℚ) (fullSize : ℚ) (K : ℕ) : ℕ :=
  if K = 0 ∨ f K = fullSize then K else K - 1

/-- The nodes of a tree: the pane itself and the nodes of both children. -/
def Pane.nodes : Pane → List Pane
  | .childless m => [.childless m]
  | .parent m a b => .parent m a b :: (a.nodes ++ b.nodes)

/-- The pane has no children. -/
def Pane.hasNoChildren : Pane → Bool
  | .childless _ => true
  | .parent _ _ _ => false

/-- The tree after a call `f` on the node at the end of `path` (`true` leads to the first
child, `false` to the second); a path that leaves the tree reaches no node and changes
nothing. -/
def Pane.applyAt (f : Pane → Except PaneFailure Pane) :
    Pane → List Bool → Except PaneFailure Pane
  | p, [] => f p
  | .childless m, _ :: _ => .ok (.childless m)
  | .parent m a b, true :: path =>
    match a.applyAt f path with
    | .error e => .error e
    | .ok a' => .ok (.parent m a' b)
  | .parent m a b, false :: path =>
    match b.applyAt f path with
    | .error e => .error e
    | .ok b' => .ok (.parent m a b')

/-- The tree when the focus of the controls changes: the control with identity `i` reports
itself focused exactly when `focus i` is true. -/
def Pane.withFocus (focus : Nat → Bool) : Pane → Pane
  | .childless m =>
    .childless { m with _control := m._control.map (fun c => { c with focused := focus c.id }) }
  | .parent m a b =>
    .parent { m with _control := m._control.map (fun c => { c with focused := focus c.id }) }
      (a.withFocus focus) (b.withFocus focus)

/-- The trees that come from a single leaf by calls of `Split` with the split type `Vertical`
or `Horizontal`, of `_CloseChild` on any node, and of `UpdateFocus`, while the focus of the
controls changes in any way. -/
inductive Pane.Reachable : Pane → Prop where
  | leaf (profile : GUID) (control : TermControl) (lastFocused : Bool) :
    Pane.Reachable (Pane.ctor profile control lastFocused)
  | split {p q : Pane} (fuel : Nat) (splitType : SplitState) (profile : GUID)
    (control : TermControl) : Pane.Reachable p → splitType ≠ .None →
    Pane.Split fuel p splitType profile control = some (.ok q) → Pane.Reachable q
  | closeChild {p q : Pane} (path : List Bool) (closeFirst : Bool) : Pane.Reachable p →
    p.applyAt (fun n => n._CloseChild closeFirst) path = .ok q → Pane.Reachable q
  | updateFocus {p q : Pane} : Pane.Reachable p → p.UpdateFocus = .ok q → Pane.Reachable q
  | refocus {p : Pane} (focus : Nat → Bool) : Pane.Reachable p →
    Pane.Reachable (p.withFocus focus)

/-- The number of leaves whose `_lastFocused` is set. -/
def Pane.flaggedLeaves : Pane → Nat
  | .childless m => if m._lastFocused then 1 else 0
  | .parent _ a b => a.flaggedLeaves + b.flaggedLeaves

/-- The number of nodes with children whose `_lastFocused` is set. -/
def Pane.flaggedInternal : Pane → Nat
  | .childless _ => 0
  | .parent m a b => (if m._lastFocused then 1 else 0) + a.flaggedInternal + b.flaggedInternal

/-- The number of leaves whose control reports itself focused. -/
def Pane.focusedLeaves : Pane → Nat
  | .childless m => if m.controlFocused then 1 else 0
  | .parent _ a b => a.focusedLeaves + b.focusedLeaves

/-- At most one leaf has `_lastFocused` set and no node with children has it. -/
def Pane.FocusFlagged (p : Pane) : Prop :=
  p.flaggedLeaves ≤ 1 ∧ p.flaggedInternal = 0

/-- A control that snaps a proposed size down to its grid of cells. -/
def gridControl (id : Nat) (minSize cellSize : Size) (focused : Bool) : TermControl :=
  ⟨id, minSize, cellSize,
    fun snapToWidth d =>
      if snapToWidth then minSize.Width + cellSize.Width * ⌊(d - minSize.Width) / cellSize.Width⌋
      else minSize.Height + cellSize.Height * ⌊(d - minSize.Height) / cellSize.Height⌋,
    focused⟩

/-- Example control: minimum size 10 x 10 with cells of 10 x 20. -/
def exampleControl (id : Nat) : TermControl := gridControl id ⟨10, 10⟩ ⟨10, 20⟩ false

/-- Example leaf: a pane of 10 x 10 that hosts `exampleControl 1`. -/
def exampleLeaf : Pane :=
  .childless ⟨some (exampleControl 1), some 1, true, .None, 0, ⟨10, 10⟩⟩

/-- Example tree: what `Split(Vertical, 2, control)` makes of a new leaf. -/
def splitOnce : Pane :=
  .parent ⟨none, none, false, .Vertical, Half, ⟨0, 0⟩⟩
    (Pane.ctor 1 (exampleControl 1) false) (Pane.ctor 2 (exampleControl 2) false)

/-- Example tree: a vertical split in the middle of two leaves. -/
def twoLeaves : Pane :=
  .parent ⟨none, none, false, .Vertical, Half, ⟨100, 50⟩⟩
    (Pane.ctor 1 (exampleControl 1) false) (Pane.ctor 2 (exampleControl 2) false)

/-- Example tree: a horizontal split whose first child is a leaf and whose second child is
the vertical split `twoLeaves`. -/
def leafAndSplit : Pane :=
  .parent ⟨none, none, false, .Horizontal, 1 / 4, ⟨100, 50⟩⟩
    (Pane.ctor 3 (exampleControl 3) false) twoLeaves

/-- Example tree: a horizontal split of two vertical splits. -/
def twoSplits : Pane :=
  .parent ⟨none, none, false, .Horizontal, 1 / 4, ⟨100, 50⟩⟩ twoLeaves twoLeaves

/-! ## The layout computed in `float`

The layout functions above take a `float` as an exact number, as the claims that are stated
on them do. The functions below are the same members with every sum, difference, product and
quotient rounded to binary32 (to the nearest value, to the even one of two equally near),
operation by operation, as the source computes them; comparisons, `std::max` and the
negation are exact, and so is the conversion of the `int` constants 1, -1 and
`PaneSeparatorSize`. Infinities and NaN are not modelled: a number beyond the largest finite
`float` is rounded to the grid of the last binade like the others. A size or ratio that a
function takes as argument is any number; the values of `float` are those that `F32.round`
leaves as they are (`IsFloat`). -/

namespace F32

/-- The power of two at the start of the binade of `x`: `p`, doubled as long as the double
does not exceed `x`, at most `fuel` times. -/
def binade (x : ℚ) : Nat → ℚ → ℚ
  | 0, p => p
  | fuel + 1, p => if 2 * p ≤ x then binade x fuel (2 * p) else p

/-- The least positive normal number of binary32, `2 ^ (-126)`. -/
def leastNormal : ℚ := 1 / 2 ^ 126

/-- The integer nearest to `t`, the even one of the two when `t` lies half way. -/
def nearestEven (t : ℚ) : ℤ :=
  if t - ⌊t⌋ < 1 / 2 then ⌊t⌋
  else if 1 / 2 < t - ⌊t⌋ then ⌊t⌋ + 1
  else if ⌊t⌋ % 2 = 0 then ⌊t⌋ else ⌊t⌋ + 1

/-- Rounding of a number that is not negative: to the nearest multiple of the spacing of its
binade, which is `2 ^ (-23)` times the power of two at the start of the binade, from
`2 ^ (-126)` (below it the numbers are subnormal) to `2 ^ 127`. -/
def roundPos (x : ℚ) : ℚ :=
  let quantum := binade x 253 leastNormal / 2 ^ 23
  nearestEven (x / quantum) * quantum

/-- The value of `float` that an exact result is rounded to. -/
def round (x : ℚ) : ℚ := if x < 0 then -roundPos (-x) else roundPos x

/-- The sum of two `float`s. -/
def add (a b : ℚ) : ℚ := round (a + b)

/-- The difference of two `float`s. -/
def sub (a b : ℚ) : ℚ := round (a - b)

/-- The product of two `float`s. -/
def mul (a b : ℚ) : ℚ := round (a * b)

/-- The quotient of two `float`s, for a divisor other than zero. -/
def div (a b : ℚ) : ℚ := round (a / b)

end F32

/-- A number that is a value of `float`. -/
def IsFloat (x : ℚ) : Prop := F32.round x = x

instance (x : ℚ) : Decidable (IsFloat x) := inferInstanceAs (Decidable (F32.round x = x))

/-- Member `_GetMinSize()`, computed in `float`. -/
def Pane._GetMinSize32 : Pane → Except PaneFailure Size
  | .childless m =>
    if m._splitState = .None then
      match m._control with
      | some c => .ok c.MinimumSize
      | none => .error .nullDeref
    else .error .nullDeref
  | .parent m a b =>
    if m._splitState = .None then
      match m._control with
      | some c => .ok c.MinimumSize
      | none => .error .nullDeref
    else
      match a._GetMinSize32 with
      | .error e => .error e
      | .ok firstSize =>
        match b._GetMinSize32 with
        | .error e => .error e
        | .ok secondSize =>
          let minWidth := if m._splitState = .Vertical then
              F32.add (F32.add firstSize.Width PaneSeparatorSize) secondSize.Width
            else max firstSize.Width secondSize.Width
          let minHeight := if m._splitState = .Horizontal then
              F32.add (F32.add firstSize.Height PaneSeparatorSize) secondSize.Height
            else max firstSize.Height secondSize.Height
          .ok ⟨minWidth, minHeight⟩

/-- Member `_GetMinSizeTree(snapToWidth)`, computed in `float`. -/
def Pane._GetMinSizeTree32 : Pane → Bool → Except PaneFailure LayoutSizeNode
  | .childless m, snapToWidth =>
    match (Pane.childless m)._GetMinSize32 with
    | .error e => .error e
    | .ok size =>
      if m._splitState = .None then
        .ok (.mk (if snapToWidth then size.Width else size.Height) true none none none none)
      else .error .nullDeref
  | .parent m a b, snapToWidth =>
    match (Pane.parent m a b)._GetMinSize32 with
    | .error e => .error e
    | .ok size =>
      if m._splitState = .None then
        .ok (.mk (if snapToWidth then size.Width else size.Height) true none none none none)
      else
        match a._GetMinSizeTree32 snapToWidth with
        | .error e => .error e
        | .ok first =>
          match b._GetMinSizeTree32 snapToWidth with
          | .error e => .error e
          | .ok second =>
            .ok (.mk (if snapToWidth then size.Width else size.Height) true (some first)
              (some second) none none)

/-- The leaf branch of `_GetProposedSnapSizes(snapToWidth, dimension)`, computed in
`float`. -/
def PaneState.leafProposedSnapSizes32 (m : PaneState) (snapToWidth : Bool) (dimension : ℚ) :
    Except PaneFailure SnapSizeBounds :=
  match m._control with
  | none => .error .nullDeref
  | some control =>
    let minSize := control.MinimumSize
    let minDimension := if snapToWidth then minSize.Width else minSize.Height
    if dimension ≤ minDimension then .ok ⟨minDimension, minDimension⟩
    else
      let lower := control.SnapDimensionToGrid snapToWidth dimension
      if lower = dimension then .ok ⟨lower, lower⟩
      else
        let cellSize := control.CharacterDimensions
        let higher := F32.add lower (if snapToWidth then cellSize.Width else cellSize.Height)
        .ok ⟨lower, higher⟩

/-- The leaf branch of `_SnapSizeUpwards(snapToWidth, sizeNode)`, computed in `float`, with
the final `sizeNode.isMinimumSize = false`. -/
def PaneState.leafSnapSizeUpwards32 (m : PaneState) (snapToWidth : Bool)
    (sizeNode : LayoutSizeNode) : Except PaneFailure LayoutSizeNode :=
  match sizeNode with
  | .mk size isMinimumSize f s nf ns =>
    if isMinimumSize then
      match m.leafProposedSnapSizes32 snapToWidth (F32.add size 1) with
      | .error e => .error e
      | .ok bounds => .ok (.mk bounds.higher false f s nf ns)
    else
      match m._control with
      | none => .error .nullDeref
      | some control =>
        let cellSize := control.CharacterDimensions
        .ok (.mk (F32.add size (if snapToWidth then cellSize.Width else cellSize.Height))
          false f s nf ns)

/-- The size `_SnapSizeUpwards` gives a node from the sizes of its children, computed in
`float`: the larger one along the separator, their sum with the separator across it. -/
def PaneState.sizeOfChildren32 (m : PaneState) (snapToWidth : Bool) (first second : ℚ) : ℚ :=
  if SnapDirectionIsParallelToSplit snapToWidth m._splitState then max first second
  else F32.add (F32.add first PaneSeparatorSize) second

/-- The decision `advanceFirst` of `_SnapSizeUpwards`, computed in `float`. -/
def PaneState.advanceFirst32 (m : PaneState) (snapToWidth : Bool)
    (firstSize secondSize nextFirstSize nextSecondSize : ℚ) : Bool :=
  if SnapDirectionIsParallelToSplit snapToWidth m._splitState then
    decide (nextFirstSize < nextSecondSize)
  else
    let deviation1 := F32.sub nextFirstSize
      (F32.mul (F32.add nextFirstSize secondSize) m._desiredSplitPosition)
    let deviation2 := -1 * F32.sub firstSize
      (F32.mul (F32.add firstSize nextSecondSize) m._desiredSplitPosition)
    decide (deviation1 ≤ deviation2)

/-- Member `_SnapSizeUpwards(snapToWidth, sizeNode)`, computed in `float`; the result is the
node it leaves. -/
def Pane._SnapSizeUpwards32 : Pane → Bool → LayoutSizeNode → Except PaneFailure LayoutSizeNode
  | .childless m, snapToWidth, sizeNode =>
    if m._splitState = .None then m.leafSnapSizeUpwards32 snapToWidth sizeNode
    else .error .nullDeref
  | .parent m a b, snapToWidth, sizeNode =>
    if m._splitState = .None then m.leafSnapSizeUpwards32 snapToWidth sizeNode
    else
      match sizeNode.firstChild, sizeNode.secondChild with
      | some firstChild, some secondChild =>
        let nextFirst : Except PaneFailure LayoutSizeNode :=
          match sizeNode.nextFirstChild with
          | some n => .ok n
          | none => a._SnapSizeUpwards32 snapToWidth firstChild
        let nextSecond : Except PaneFailure LayoutSizeNode :=
          match sizeNode.nextSecondChild with
          | some n => .ok n
          | none => b._SnapSizeUpwards32 snapToWidth secondChild
        match nextFirst, nextSecond with
        | .ok nextFirstChild, .ok nextSecondChild =>
          if m.advanceFirst32 snapToWidth firstChild.size secondChild.size
              nextFirstChild.size nextSecondChild.size then
            match a._SnapSizeUpwards32 snapToWidth nextFirstChild with
            | .error e => .error e
            | .ok advanced =>
              .ok (.mk (m.sizeOfChildren32 snapToWidth nextFirstChild.size secondChild.size)
                false (some nextFirstChild) (some secondChild) (some advanced)
                (some nextSecondChild))
          else
            match b._SnapSizeUpwards32 snapToWidth nextSecondChild with
            | .error e => .error e
            | .ok advanced =>
              .ok (.mk (m.sizeOfChildren32 snapToWidth firstChild.size nextSecondChild.size)
                false (some firstChild) (some nextSecondChild) (some nextFirstChild)
                (some advanced))
        | .error e, _ => .error e
        | _, .error e => .error e
      | _, _ => .error .nullDeref

/-- The loop `while (sizeTree.size < fullSize)` of `_CalcSnappedPaneDimensions` with the
returns behind it, computed in `float`; `none` when the loop has not ended after `fuel`
rounds. -/
def Pane._CalcSnappedPaneDimensions32.loop (p : Pane) (snapToWidth : Bool) (fullSize : ℚ) :
    Nat → LayoutSizeNode → LayoutSizeNode → Option (Except PaneFailure ChildrenSnapBounds)
  | 0, sizeTree, lastSizeTree =>
    if sizeTree.size < fullSize then none
    else some (childrenBounds lastSizeTree sizeTree)
  | fuel + 1, sizeTree, lastSizeTree =>
    if sizeTree.size < fullSize then
      match p._SnapSizeUpwards32 snapToWidth sizeTree with
      | .error e => some (.error e)
      | .ok snapped =>
        if snapped.size = fullSize then some (childrenBounds snapped snapped)
        else Pane._CalcSnappedPaneDimensions32.loop p snapToWidth fullSize fuel snapped sizeTree
    else some (childrenBounds lastSizeTree sizeTree)

/-- Member `_CalcSnappedPaneDimensions(snapToWidth, fullSize)`, computed in `float`; `none`
when its loop has not ended after `fuel` rounds. -/
def Pane._CalcSnappedPaneDimensions32 (p : Pane) (fuel : Nat) (snapToWidth : Bool)
    (fullSize : ℚ) : Option (Except PaneFailure ChildrenSnapBounds) :=
  if p._IsLeaf then some (.error .E_FAIL)
  else
    match p._GetMinSizeTree32 snapToWidth with
    | .error e => some (.error e)
    | .ok sizeTree =>
      Pane._CalcSnappedPaneDimensions32.loop p snapToWidth fullSize fuel sizeTree sizeTree

/-- Member `_GetPaneSizes(fullSize)`, computed in `float`. -/
def Pane._GetPaneSizes32 (p : Pane) (fuel : Nat) (fullSize : ℚ) :
    Option (Except PaneFailure (ℚ × ℚ)) :=
  let snapToWidth : Bool := p.m._splitState = .Vertical
  match p._CalcSnappedPaneDimensions32 fuel snapToWidth fullSize with
  | none => none
  | some (.error e) => some (.error e)
  | some (.ok snappedSizes) =>
    some (.ok (snappedSizes.first.lower,
      F32.sub (F32.sub fullSize PaneSeparatorSize) snappedSizes.first.lower))

/-- Member `_ClampSplitPosition(snapToWidth, requestedValue, totalSize)`, computed in
`float`. The quotient by zero is an infinity or a NaN, which are not modelled. -/
def Pane._ClampSplitPosition32 : Pane → Bool → ℚ → ℚ → Except PaneFailure ℚ
  | .childless _, _, _, _ => .error .nullDeref
  | .parent _ a b, snapToWidth, requestedValue, totalSize =>
    match a._GetMinSize32 with
    | .error e => .error e
    | .ok firstMinSize =>
      match b._GetMinSize32 with
      | .error e => .error e
      | .ok secondMinSize =>
        let firstMinDimension := if snapToWidth then firstMinSize.Width else firstMinSize.Height
        let secondMinDimension :=
          if snapToWidth then secondMinSize.Width else secondMinSize.Height
        if F32.sub totalSize PaneSeparatorSize = 0 then .error .undefined
        else
          let minSplitPosition :=
            F32.div firstMinDimension (F32.sub totalSize PaneSeparatorSize)
          let maxSplitPosition :=
            F32.sub 1 (F32.div secondMinDimension (F32.sub totalSize PaneSeparatorSize))
          std_clamp requestedValue minSplitPosition maxSplitPosition

/-! ## Definitions used in the statements and proofs about the layout in `float` -/

/-- The control as the layout in `float` takes it: its minimum size is a value of `float`,
its cell size is not negative, and above the minimum size `SnapDimensionToGrid` takes a
`float` to a `float` that lies between the minimum size and the proposed size. -/
def FloatGrid (snapToWidth : Bool) (c : TermControl) : Prop :=
  IsFloat (c.minDimension snapToWidth) ∧ 0 ≤ c.cellDimension snapToWidth ∧
    ∀ d, IsFloat d → c.minDimension snapToWidth < d →
      IsFloat (c.SnapDimensionToGrid snapToWidth d) ∧
      c.minDimension snapToWidth ≤ c.SnapDimensionToGrid snapToWidth d ∧
      c.SnapDimensionToGrid snapToWidth d ≤ d

/-- The size a leaf gets in `float` by its first snap upwards from the minimum size. -/
def TermControl.firstSnap32 (c : TermControl) (snapToWidth : Bool) : ℚ :=
  if F32.add (c.minDimension snapToWidth) 1 ≤ c.minDimension snapToWidth then
    c.minDimension snapToWidth
  else if c.SnapDimensionToGrid snapToWidth (F32.add (c.minDimension snapToWidth) 1)
      = F32.add (c.minDimension snapToWidth) 1 then
    c.SnapDimensionToGrid snapToWidth (F32.add (c.minDimension snapToWidth) 1)
  else
    F32.add (c.SnapDimensionToGrid snapToWidth (F32.add (c.minDimension snapToWidth) 1))
      (c.cellDimension snapToWidth)

/-- The size of a leaf in `float` after `k` snaps upwards from the minimum size. -/
def leafSizeAfter32 (c : TermControl) (snapToWidth : Bool) : ℕ → ℚ
  | 0 => c.minDimension snapToWidth
  | 1 => c.firstSnap32 snapToWidth
  | k + 2 => F32.add (leafSizeAfter32 c snapToWidth (k + 1)) (c.cellDimension snapToWidth)

/-- How many of the first `k` snaps upwards of a node advance its first child in `float`,
given the sizes `F i` and `S i` of the children after `i` snaps of their own. -/
def advances32 (m : PaneState) (snapToWidth : Bool) (F S : ℕ → ℚ) : ℕ → ℕ
  | 0 => 0
  | k + 1 =>
    if m.advanceFirst32 snapToWidth (F (advances32 m snapToWidth F S k))
        (S (k - advances32 m snapToWidth F S k)) (F (advances32 m snapToWidth F S k + 1))
        (S (k - advances32 m snapToWidth F S k + 1)) then
      advances32 m snapToWidth F S k + 1
    else advances32 m snapToWidth F S k

/-- The size of the node of a pane in `float` after `k` snaps upwards from the minimum-size
tree. -/
def Pane.sizeAfter32 : Pane → Bool → ℕ → ℚ
  | .childless m, snapToWidth, k =>
    match m._control with
    | some c => leafSizeAfter32 c snapToWidth k
    | none => 0
  | .parent m a b, snapToWidth, k =>
    m.sizeOfChildren32 snapToWidth
      (a.sizeAfter32 snapToWidth
        (advances32 m snapToWidth (a.sizeAfter32 snapToWidth) (b.sizeAfter32 snapToWidth) k))
      (b.sizeAfter32 snapToWidth
        (k - advances32 m snapToWidth (a.sizeAfter32 snapToWidth)
          (b.sizeAfter32 snapToWidth) k))

/-- The size tree of a pane in `float` after `k` snaps upwards from the minimum-size tree. -/
def Pane.treeAfter32 : Pane → Bool → ℕ → LayoutSizeNode
  | .childless m, snapToWidth, k =>
    .mk ((Pane.childless m).sizeAfter32 snapToWidth k) (decide (k = 0)) none none none none
  | .parent m a b, snapToWidth, k =>
    .mk ((Pane.parent m a b).sizeAfter32 snapToWidth k) (decide (k = 0))
      (some (a.treeAfter32 snapToWidth
        (advances32 m snapToWidth (a.sizeAfter32 snapToWidth) (b.sizeAfter32 snapToWidth) k)))
      (some (b.treeAfter32 snapToWidth
        (k - advances32 m snapToWidth (a.sizeAfter32 snapToWidth)
          (b.sizeAfter32 snapToWidth) k)))
      (if k = 0 then none else some (a.treeAfter32 snapToWidth
        (advances32 m snapToWidth (a.sizeAfter32 snapToWidth) (b.sizeAfter32 snapToWidth) k
          + 1)))
      (if k = 0 then none else some (b.treeAfter32 snapToWidth
        (k - advances32 m snapToWidth (a.sizeAfter32 snapToWidth)
          (b.sizeAfter32 snapToWidth) k + 1)))

/-- The size tree in `float` after `k` steps of the upward-snap walk: `_GetMinSizeTree`
followed by `k` calls of `_SnapSizeUpwards`, as the loop of `_CalcSnappedPaneDimensions`
makes them. -/
def Pane.snapWalk32 (p : Pane) (snapToWidth : Bool) : ℕ → Except PaneFailure LayoutSizeNode
  | 0 => p._GetMinSizeTree32 snapToWidth
  | k + 1 =>
    match p.snapWalk32 snapToWidth k with
    | .error e => .error e
    | .ok sizeNode => p._SnapSizeUpwards32 snapToWidth sizeNode

/-- A control that snaps a proposed size down to its grid of cells and returns the result as
a `float`. -/
def gridControl32 (id : Nat) (minSize cellSize : Size) (focused : Bool) : TermControl :=
  ⟨id, minSize, cellSize,
    fun snapToWidth d =>
      if snapToWidth then
        F32.round (minSize.Width + cellSize.Width * ⌊(d - minSize.Width) / cellSize.Width⌋)
      else
        F32.round (minSize.Height + cellSize.Height * ⌊(d - minSize.Height) / cellSize.Height⌋),
    focused⟩

/-- Example tree: a vertical split in the middle of two leaves whose controls have the
minimum size 10 x 10 and cells of 10 x 20. -/
def floatLeaves : Pane :=
  .parent ⟨none, none, false, .Vertical, Half, ⟨100, 50⟩⟩
    (Pane.ctor 1 (gridControl32 1 ⟨10, 10⟩ ⟨10, 20⟩ false) false)
    (Pane.ctor 2 (gridControl32 2 ⟨10, 10⟩ ⟨10, 20⟩ false) false)

/-- Example leaf: a new pane whose control has the minimum size 16 x 16 and cells of
`2 ^ (-21)` of a pixel. -/
def tinyCellLeaf : Pane :=
  Pane.ctor 1 (gridControl32 1 ⟨16, 16⟩ ⟨1 / 2 ^ 21, 1 / 2 ^ 21⟩ false) false

/-- Example tree: a vertical split in the middle of two leaves with cells of `2 ^ (-21)` of
a pixel. -/
def tinyCellLeaves : Pane :=
  .parent ⟨none, none, false, .Vertical, Half, ⟨100, 50⟩⟩ tinyCellLeaf
    (Pane.ctor 2 (gridControl32 2 ⟨16, 16⟩ ⟨1 / 2 ^ 21, 1 / 2 ^ 21⟩ false) false)

/-- Example tree: a vertical split of two leaves whose controls have the minimum widths 1
and 2. -/
def thirdsLeaves : Pane :=
  .parent ⟨none, none, false, .Vertical, Half, ⟨7, 50⟩⟩
    (Pane.ctor 1 (gridControl32 1 ⟨1, 10⟩ ⟨1, 1⟩ false) false)
    (Pane.ctor 2 (gridControl32 2 ⟨2, 10⟩ ⟨1, 1⟩ false) false)

/-- The `float` nearest to 0.05, the step of a resize. -/
def float0_05 : ℚ := 13421773 / 268435456

/-- The `float` nearest to 7.2. -/
def float7_2 : ℚ := 7549747 / 1048576

/-- The `float` nearest to 8.4. -/
def float8_4 : ℚ := 4404019 / 524288

/-- Example tree: a vertical split in the middle of two leaves whose controls have the
minimum widths 7.2 and 8.4 as `float`s. -/
def fractionalLeaves : Pane :=
  .parent ⟨none, none, false, .Vertical, Half, ⟨100, 50⟩⟩
    (Pane.ctor 1 (gridControl32 1 ⟨float7_2, 10⟩ ⟨1, 1⟩ false) false)
    (Pane.ctor 2 (gridControl32 2 ⟨float8_4, 10⟩ ⟨1, 1⟩ false) false)

end TerminalApp
namespace til
variable {T : Type}

/-! ## Arithmetic in `S` -/

theorem subS_eq (a b : Nat) (hb : b ≤ a) (ha : a ≤ npos) : subS a b = a - b := by
  unfold subS npos at *
  omega

theorem addS_eq (a b : Nat) (h : a + b ≤ npos) : addS a b = a + b := by
  unfold addS npos at *
  omega

/-! ## Content of a run list -/

@[simp] theorem decompress_nil : decompress ([] : List (T × Nat)) = [] := rfl

@[simp] theorem decompress_cons (r : T × Nat) (l : List (T × Nat)) :
    decompress (r :: l) = List.replicate r.2 r.1 ++ decompress l := by
  simp [decompress]

@[simp] theorem decompress_append (l₁ l₂ : List (T × Nat)) :
    decompress (l₁ ++ l₂) = decompress l₁ ++ decompress l₂ := by
  simp [decompress]

@[simp] theorem totalLength_nil : totalLength ([] : List (T × Nat)) = 0 := rfl

@[simp] theorem totalLength_cons (r : T × Nat) (l : List (T × Nat)) :
    totalLength (r :: l) = r.2 + totalLength l := by
  simp [totalLength]

@[simp] theorem totalLength_append (l₁ l₂ : List (T × Nat)) :
    totalLength (l₁ ++ l₂) = totalLength l₁ + totalLength l₂ := by
  simp [totalLength]

@[simp] theorem length_decompress (l : List (T × Nat)) :
    (decompress l).length = totalLength l := by
  induction l with
  | nil => rfl
  | cons r l ih => simp [ih]

theorem totalLength_le_of_mem (l : List (T × Nat)) (r : T × Nat) (h : r ∈ l) :
    r.2 ≤ totalLength l := by
  induction l with
  | nil => simp at h
  | cons x l ih =>
    rcases List.mem_cons.mp h with h | h
    · subst h; simp
    · have := ih h; simp; omega

/-- The coverage summed in `S` is the sum of the lengths when that sum is representable. -/
theorem newItemsTotalCoverage_eq (src : List (T × Nat)) (h : totalLength src ≤ npos) :
    newItemsTotalCoverage src = totalLength src := by
  have h : ∀ (l : List (T × Nat)) (a : Nat), a + totalLength l ≤ npos →
      l.foldl (fun value item => addS value item.2) a = a + totalLength l := by
    intro l
    induction l with
    | nil => intro a _; simp
    | cons r l ih =>
      intro a ha
      simp only [totalLength_cons] at ha
      simp only [List.foldl_cons, totalLength_cons]
      rw [addS_eq _ _ (by omega), ih _ (by omega)]
      omega
  simpa [newItemsTotalCoverage] using h src 0 (by omega)

/-- Cutting the content inside (or at an end of) the run `r`: the part before the cut. -/
theorem take_decompress_split (init : List (T × Nat)) (r : T × Nat) (rest : List (T × Nat))
    (n : Nat) (h1 : totalLength init ≤ n) (h2 : n ≤ totalLength init + r.2) :
    (decompress (init ++ r :: rest)).take n
      = decompress init ++ List.replicate (n - totalLength init) r.1 := by
  rw [decompress_append, List.take_append_eq_append_take, length_decompress,
    List.take_of_length_le (by simp; exact h1), decompress_cons,
    List.take_append_eq_append_take, List.take_replicate]
  have h0 : n - totalLength init - r.2 = 0 := by omega
  have h3 : min (n - totalLength init) r.2 = n - totalLength init := by omega
  simp [h0, h3]

/-- Cutting the content inside (or at an end of) the run `r`: the part after the cut. -/
theorem drop_decompress_split (init : List (T × Nat)) (r : T × Nat) (rest : List (T × Nat))
    (n : Nat) (h1 : totalLength init ≤ n) (h2 : n ≤ totalLength init + r.2) :
    (decompress (init ++ r :: rest)).drop n
      = List.replicate (totalLength init + r.2 - n) r.1 ++ decompress rest := by
  rw [decompress_append, List.drop_append_eq_append_drop, length_decompress,
    List.drop_of_length_le (by simp; exact h1), decompress_cons,
    List.drop_append_eq_append_drop, List.drop_replicate]
  have h0 : n - totalLength init - r.2 = 0 := by omega
  have h3 : r.2 - (n - totalLength init) = totalLength init + r.2 - n := by omega
  simp [h0, h3]


/-- The value at a position inside the run `r`. -/
theorem getElem?_decompress_split (init : List (T × Nat)) (r : T × Nat) (rest : List (T × Nat))
    (i : Nat) (h1 : totalLength init ≤ i) (h2 : i < totalLength init + r.2) :
    (decompress (init ++ r :: rest))[i]? = some r.1 := by
  rw [decompress_append, List.getElem?_append_right (by simpa using h1), decompress_cons,
    List.getElem?_append_left (by simp; omega)]
  simp [List.getElem?_replicate]
  omega

/-! ## `_at` and `at` -/

theorem scan_spec (position : Nat) : ∀ (l : List (T × Nat)) (idx tl : Nat),
    tl ≤ position → position < tl + totalLength l →
    ∃ pre r rest, l = pre ++ r :: rest ∧
      _at.scan position l idx tl = .ok (idx + pre.length, tl + totalLength pre + r.2) ∧
      tl + totalLength pre ≤ position ∧ position < tl + totalLength pre + r.2 := by
  intro l
  induction l with
  | nil => intro idx tl h1 h2; simp at h2; omega
  | cons r l ih =>
    intro idx tl h1 h2
    by_cases h : tl + r.2 > position
    · exact ⟨[], r, l, rfl, by simp [_at.scan, h], by simpa using h1, by simpa using h⟩
    · have h3 : position < tl + r.2 + totalLength l := by
        simp at h2; omega
      obtain ⟨pre, r', rest, hl, hs, hlo, hhi⟩ := ih (idx + 1) (tl + r.2) (by omega) h3
      refine ⟨r :: pre, r', rest, by simp [hl], ?_, ?_, ?_⟩
      · simp only [_at.scan, h, if_false, hs, List.length_cons, totalLength_cons]
        congr 2 <;> omega
      · simp; omega
      · simp; omega

/-- The run `_at` finds: it covers the position, and `applies` counts up to its end. -/
theorem _at_spec (s : rle T) (i : Nat) (hi : i < s._size) (hl : i < totalLength s._list) :
    ∃ pre r rest, s._list = pre ++ r :: rest ∧
      s._at i = .ok (pre.length, totalLength pre + r.2 - i) ∧
      totalLength pre ≤ i ∧ i < totalLength pre + r.2 := by
  obtain ⟨pre, r, rest, hl', hs, hlo, hhi⟩ := scan_spec i s._list 0 0 (by omega) (by omega)
  refine ⟨pre, r, rest, hl', ?_, by omega, by omega⟩
  have hne : s._list.length > 0 := by rw [hl']; simp
  simp [rle._at, hi, hne, hs]

/-- Reading a position of a store whose runs reach it: the value of the content there. -/
theorem at_spec (s : rle T) (i : Nat) (hi : i < s._size) (hl : i < totalLength s._list) :
    ∃ v, s.at i = .ok v ∧ (decompress s._list)[i]? = some v := by
  obtain ⟨pre, r, rest, hl', hs, hlo, hhi⟩ := _at_spec s i hi hl
  refine ⟨r.1, ?_, ?_⟩
  · have hnot : ¬ (i ≥ s._size) := by omega
    have hg : s._list[pre.length]? = some r := by
      rw [hl', List.getElem?_append_right (Nat.le_refl _)]; simp
    simp [rle.at, rle.atApplies, hnot, hs, hg]
  · rw [hl']; exact getElem?_decompress_split pre r rest i hlo hhi


/-! ## The loops of `_merge` -/

@[simp] theorem setBack_concat (ini : List (T × Nat)) (b x : T × Nat) :
    setBack (ini ++ [b]) x = ini ++ [x] := by
  simp [setBack]

theorem exists_concat_of_ne_nil {α : Type} (l : List α) (h : l ≠ []) :
    ∃ ini b, l = ini ++ [b] := by
  rcases List.eq_nil_or_concat l with h' | ⟨ini, b, h'⟩
  · exact absurd h' h
  · exact ⟨ini, b, by simpa using h'⟩

/-- The prefix loop stops after the run that reaches `startIndex`. -/
theorem copyPrefix_spec (startIndex : Nat) : ∀ (existing : List (T × Nat)) (cov : Nat)
    (newRun : List (T × Nat)), cov < startIndex → startIndex ≤ cov + totalLength existing →
    cov + totalLength existing ≤ npos →
    ∃ init back rest, existing = init ++ back :: rest ∧
      _merge.copyPrefix startIndex existing cov newRun
        = .ok (rest, cov + totalLength init + back.2, newRun ++ init ++ [back]) ∧
      cov + totalLength init < startIndex ∧ startIndex ≤ cov + totalLength init + back.2 := by
  intro existing
  induction existing with
  | nil => intro cov newRun h1 h2; simp at h2; omega
  | cons r l ih =>
    intro cov newRun h1 h2 hb
    have hA : addS cov r.2 = cov + r.2 := addS_eq _ _ (by simp at hb; omega)
    by_cases h : cov + r.2 < startIndex
    · obtain ⟨init, back, rest, hl, hc, hlo, hhi⟩ :=
        ih (cov + r.2) (newRun ++ [r]) h (by simp at h2; omega) (by simp at hb; omega)
      refine ⟨r :: init, back, rest, by simp [hl], ?_, by simp; omega, by simp; omega⟩
      simp only [_merge.copyPrefix, h1, if_true, hA, hc, totalLength_cons]
      simp [Nat.add_assoc]
    · refine ⟨[], r, l, rfl, ?_, by simpa using h1, by simp; omega⟩
      cases l with
      | nil => simp [_merge.copyPrefix, h1, hA, h]
      | cons r2 l2 => simp [_merge.copyPrefix, h1, hA, h]

/-- The skip loop does nothing when the coverage is already past `endIndex`. -/
theorem skip_none (endIndex : Nat) (existing : List (T × Nat)) (prev : Option (T × Nat))
    (cov : Nat) (h : endIndex < cov) :
    _merge.skip endIndex existing prev cov = .ok (existing, prev, cov) := by
  have h' : ¬ cov ≤ endIndex := by omega
  cases existing <;> simp [_merge.skip, h']

/-- The skip loop stops after the run that covers `endIndex`. -/
theorem skip_spec (endIndex : Nat) : ∀ (existing : List (T × Nat)) (prev : Option (T × Nat))
    (cov : Nat), cov ≤ endIndex → endIndex < cov + totalLength existing →
    cov + totalLength existing ≤ npos →
    ∃ init last rest, existing = init ++ last :: rest ∧
      _merge.skip endIndex existing prev cov
        = .ok (rest, some last, cov + totalLength init + last.2) ∧
      cov + totalLength init ≤ endIndex ∧ endIndex < cov + totalLength init + last.2 := by
  intro existing
  induction existing with
  | nil => intro prev cov h1 h2; simp at h2; omega
  | cons r l ih =>
    intro prev cov h1 h2 hb
    have hA : addS cov r.2 = cov + r.2 := addS_eq _ _ (by simp at hb; omega)
    by_cases h : cov + r.2 ≤ endIndex
    · obtain ⟨init, last, rest, hl, hc, hlo, hhi⟩ :=
        ih (some r) (cov + r.2) h (by simp at h2; omega) (by simp at hb; omega)
      refine ⟨r :: init, last, rest, by simp [hl], ?_, by simp; omega, by simp; omega⟩
      simp only [_merge.skip, h1, if_true, hA, hc, totalLength_cons]
      simp [Nat.add_assoc]
    · refine ⟨[], r, l, rfl, ?_, by simpa using h1, by simp; omega⟩
      simp only [_merge.skip, h1, if_true, hA, totalLength_nil, Nat.add_zero]
      exact skip_none endIndex l (some r) (cov + r.2) (by omega)


/-! ## The general rebuild as two joins -/

theorem join_nil_left [DecidableEq T] (l : List (T × Nat)) : join [] l = l := by
  simp [join]

theorem join_nil_right [DecidableEq T] (l : List (T × Nat)) : join l [] = l := by
  unfold join
  cases l.getLast? <;> simp

theorem join_concat_cons [DecidableEq T] (ini : List (T × Nat)) (b x : T × Nat)
    (rest : List (T × Nat)) :
    join (ini ++ [b]) (x :: rest)
      = if b.1 = x.1 then ini ++ (b.1, b.2 + x.2) :: rest else ini ++ b :: x :: rest := by
  simp [join]

theorem decompress_join [DecidableEq T] (l₁ l₂ : List (T × Nat)) :
    decompress (join l₁ l₂) = decompress l₁ ++ decompress l₂ := by
  rcases List.eq_nil_or_concat l₁ with h | ⟨ini, b, h⟩
  · subst h; simp [join_nil_left]
  · have h' : l₁ = ini ++ [b] := by simpa using h
    subst h'
    cases l₂ with
    | nil => simp [join_nil_right]
    | cons x rest =>
      rw [join_concat_cons]
      split
      · next hv =>
        simp only [decompress_append, decompress_cons, decompress_nil, List.replicate_add,
          List.append_assoc, List.append_nil]
        rw [hv]
      · simp

theorem join_ne_nil [DecidableEq T] (l₁ l₂ : List (T × Nat)) (h : l₂ ≠ []) : join l₁ l₂ ≠ [] := by
  intro hj
  rcases List.eq_nil_or_concat l₁ with h1 | ⟨ini, b, h1⟩
  · subst h1; rw [join_nil_left] at hj; exact h hj
  · have h' : l₁ = ini ++ [b] := by simpa using h1
    subst h'
    cases l₂ with
    | nil => exact h rfl
    | cons x rest =>
      rw [join_concat_cons] at hj
      split at hj <;> simp at hj

theorem join_ne_nil_left [DecidableEq T] (l₁ l₂ : List (T × Nat)) (h : l₁ ≠ []) :
    join l₁ l₂ ≠ [] := by
  intro hj
  obtain ⟨ini, b, h'⟩ := exists_concat_of_ne_nil l₁ h
  subst h'
  cases l₂ with
  | nil => rw [join_nil_right] at hj; simp at hj
  | cons x rest =>
    rw [join_concat_cons] at hj
    split at hj <;> simp at hj

theorem totalLength_join [DecidableEq T] (l₁ l₂ : List (T × Nat)) :
    totalLength (join l₁ l₂) = totalLength l₁ + totalLength l₂ := by
  rw [← length_decompress, decompress_join, List.length_append, length_decompress,
    length_decompress]

theorem joinS_nil_left [DecidableEq T] (l : List (T × Nat)) : joinS [] l = l := by
  simp [joinS]

theorem joinS_nil_right [DecidableEq T] (l : List (T × Nat)) : joinS l [] = l := by
  unfold joinS
  cases l.getLast? <;> simp

theorem joinS_concat_cons [DecidableEq T] (ini : List (T × Nat)) (b x : T × Nat)
    (rest : List (T × Nat)) :
    joinS (ini ++ [b]) (x :: rest)
      = if b.1 = x.1 then ini ++ (b.1, addS b.2 x.2) :: rest else ini ++ b :: x :: rest := by
  simp [joinS]

/-- The two concatenations agree when the lengths fit in `S`. -/
theorem joinS_eq_join [DecidableEq T] (l₁ l₂ : List (T × Nat))
    (h : totalLength l₁ + totalLength l₂ ≤ npos) : joinS l₁ l₂ = join l₁ l₂ := by
  rcases List.eq_nil_or_concat l₁ with h1 | ⟨ini, b, h1⟩
  · subst h1; rw [joinS_nil_left, join_nil_left]
  · have h' : l₁ = ini ++ [b] := by simpa using h1
    subst h'
    cases l₂ with
    | nil => rw [joinS_nil_right, join_nil_right]
    | cons x rest =>
      simp only [totalLength_append, totalLength_cons, totalLength_nil] at h
      rw [joinS_concat_cons, join_concat_cons, addS_eq _ _ (by omega)]

/-- The two concatenations have the same values. -/
theorem joinS_values [DecidableEq T] (l₁ l₂ : List (T × Nat)) :
    (joinS l₁ l₂).map Prod.fst = (join l₁ l₂).map Prod.fst := by
  rcases List.eq_nil_or_concat l₁ with h1 | ⟨ini, b, h1⟩
  · subst h1; rw [joinS_nil_left, join_nil_left]
  · have h' : l₁ = ini ++ [b] := by simpa using h1
    subst h'
    cases l₂ with
    | nil => rw [joinS_nil_right, join_nil_right]
    | cons x rest =>
      rw [joinS_concat_cons, join_concat_cons]
      split <;> simp

theorem joinS_ne_nil [DecidableEq T] (l₁ l₂ : List (T × Nat)) (h : l₂ ≠ []) :
    joinS l₁ l₂ ≠ [] := by
  intro hj
  have h1 := congrArg (List.map Prod.fst) hj
  rw [joinS_values] at h1
  exact join_ne_nil l₁ l₂ h (by simpa using h1)

/-- The block `if (startIndex != 0)` with the bulk copy: the truncated prefix joined with the
incoming runs. -/
theorem head_spec [DecidableEq T] (existing src : List (T × Nat)) (pos : Nat) (hpos : pos ≠ 0)
    (hsrc : src ≠ []) (hle : pos ≤ totalLength existing) (hb : totalLength existing ≤ npos) :
    ∃ init back rest, existing = init ++ back :: rest ∧
      totalLength init < pos ∧ pos ≤ totalLength init + back.2 ∧
      _merge.head existing src pos
        = .ok (rest, some back, totalLength init + back.2,
            joinS (init ++ [(back.1, pos - totalLength init)]) src) := by
  obtain ⟨init, back, rest, hl, hc, hlo, hhi⟩ :=
    copyPrefix_spec pos existing 0 [] (by omega) (by omega) (by omega)
  simp only [Nat.zero_add, List.nil_append] at hc hlo hhi
  refine ⟨init, back, rest, hl, hlo, hhi, ?_⟩
  have hback : totalLength init + back.2 ≤ npos := by
    rw [hl] at hb; simp at hb; omega
  cases src with
  | nil => exact absurd rfl hsrc
  | cons inc incRest =>
    have hlen : (if totalLength init + back.2 > pos
        then subS back.2 (totalLength init + back.2 - pos) else back.2)
        = pos - totalLength init := by
      split
      · rw [subS_eq _ _ (by omega) (by omega)]; omega
      · omega
    have hgl : (init ++ [back]).getLast? = some back := by simp
    unfold _merge.head
    simp only [hpos, ne_eq, not_false_eq_true, if_true]
    rw [hc]
    simp only []
    rw [hgl]
    simp only [hlen, setBack_concat, joinS_concat_cons]
    split <;> simp

/-- The block after the skip loop: the new run list joined with what is left of the existing
runs. -/
theorem tail_spec [DecidableEq T] (newRun rest : List (T × Nat)) (last : T × Nat) (cov e1 : Nat)
    (hne : newRun ≠ []) (hle : e1 ≤ cov) :
    _merge.tail newRun rest (some last) cov e1
      = .ok (joinS newRun (remainder last (cov - e1) ++ rest)) := by
  obtain ⟨ini, b, h⟩ := exists_concat_of_ne_nil newRun hne
  subst h
  by_cases hk : cov > e1
  · have hk' : cov - e1 > 0 := by omega
    have hk2 : cov ≠ e1 := by omega
    have hgl : (ini ++ [b]).getLast? = some b := by simp
    unfold _merge.tail
    simp only [hk2, ne_eq, not_false_eq_true, or_true, if_true, hk]
    rw [hgl]
    simp only [setBack_concat, remainder, hk', if_true, List.singleton_append,
      joinS_concat_cons]
    split <;> simp
  · have hk' : ¬ (cov - e1 > 0) := by omega
    have hk2 : cov = e1 := by omega
    cases rest with
    | nil =>
      unfold _merge.tail
      simp [hk2, remainder, joinS_nil_right]
    | cons x rest =>
      have hgl : (ini ++ [b]).getLast? = some b := by simp
      unfold _merge.tail
      simp only [hk2, ne_eq, reduceCtorEq, not_false_eq_true, true_or, if_true, gt_iff_lt,
        Nat.lt_irrefl, if_false]
      rw [hgl]
      simp only [setBack_concat, remainder, Nat.sub_self, Nat.lt_irrefl, if_false,
        List.nil_append, joinS_concat_cons]
      split <;> simp


theorem endIndex_eq (pos cover total : Nat) (h1 : 1 ≤ pos + cover) (h3 : pos + cover ≤ npos) :
    subS (addS (addS pos (if cover > total then cover - total else 0))
      (total - (if total > cover then total - cover else 0))) 1 = pos + cover - 1 := by
  have ha : addS pos (if cover > total then cover - total else 0)
      = pos + (if cover > total then cover - total else 0) :=
    addS_eq _ _ (by split <;> omega)
  have h : pos + (if cover > total then cover - total else 0)
      + (total - (if total > cover then total - cover else 0)) = pos + cover := by
    split <;> split <;> omega
  rw [ha, addS_eq _ _ (by omega), h, subS_eq _ _ h1 h3]

/-- The general rebuild: the prefix cut at `pos`, joined with the incoming runs, joined with
what the existing runs hold from `pos + cover` on; fused lengths are summed in `S`. -/
theorem general_spec [DecidableEq T] (s : rle T) (src : List (T × Nat)) (pos cover : Nat)
    (hsrc : src ≠ []) (h1 : 1 ≤ pos + cover) (h2 : pos + cover ≤ totalLength s._list)
    (h3 : totalLength s._list ≤ npos) :
    ∃ P I last R, s._list = I ++ last :: R ∧ totalLength I < pos + cover ∧
      pos + cover ≤ totalLength I + last.2 ∧
      (pos = 0 → P = []) ∧
      (pos ≠ 0 → ∃ init back rest, s._list = init ++ back :: rest ∧ totalLength init < pos ∧
        pos ≤ totalLength init + back.2 ∧ P = init ++ [(back.1, pos - totalLength init)]) ∧
      _merge.general s src pos cover = .ok { s with
        _list := joinS (joinS P src)
          (remainder last (totalLength I + last.2 - (pos + cover)) ++ R) } := by
  have hE := endIndex_eq pos cover (newItemsTotalCoverage src) h1 (by omega)
  have hA : addS (pos + cover - 1) 1 = pos + cover := by
    rw [addS_eq _ _ (by omega)]; omega
  by_cases hpos : pos = 0
  · obtain ⟨I, last, R, hl, hc, hlo, hhi⟩ :=
      skip_spec (pos + cover - 1) s._list none 0 (by omega) (by omega) (by omega)
    refine ⟨[], I, last, R, hl, by omega, by omega, fun _ => rfl, fun h => absurd hpos h, ?_⟩
    have hhead : _merge.head s._list src pos = .ok (s._list, none, 0, src) := by
      simp [_merge.head, hpos]
    simp only [Nat.zero_add] at hc
    unfold _merge.general
    simp only [hE, hA, hhead, hc]
    rw [tail_spec src R last _ _ hsrc (by omega), joinS_nil_left]
  · obtain ⟨init, back, rest, hl, hlo, hhi, hhead⟩ :=
      head_spec s._list src pos hpos hsrc (by omega) h3
    have hne : joinS (init ++ [(back.1, pos - totalLength init)]) src ≠ [] :=
      joinS_ne_nil _ _ hsrc
    have htl : totalLength s._list = totalLength init + back.2 + totalLength rest := by
      rw [hl]; simp; omega
    by_cases hin : pos + cover ≤ totalLength init + back.2
    · refine ⟨init ++ [(back.1, pos - totalLength init)], init, back, rest, hl, by omega, hin,
        fun h => absurd h hpos, fun _ => ⟨init, back, rest, hl, hlo, hhi, rfl⟩, ?_⟩
      unfold _merge.general
      simp only [hE, hA, hhead]
      rw [skip_none _ _ _ _ (by omega)]
      simp only []
      rw [tail_spec _ rest back _ _ hne hin]
    · obtain ⟨i2, last, R, hl2, hc, hlo2, hhi2⟩ :=
        skip_spec (pos + cover - 1) rest (some back) (totalLength init + back.2)
          (by omega) (by omega) (by omega)
      refine ⟨init ++ [(back.1, pos - totalLength init)], init ++ back :: i2, last, R,
        by rw [hl, hl2]; simp, by simp; omega, by simp; omega,
        fun h => absurd h hpos, fun _ => ⟨init, back, rest, hl, hlo, hhi, rfl⟩, ?_⟩
      unfold _merge.general
      simp only [hE, hA, hhead, hc]
      rw [tail_spec _ R last _ _ hne (by omega)]
      simp only [totalLength_append, totalLength_cons]
      rw [show totalLength init + (back.2 + totalLength i2) + last.2
        = totalLength init + back.2 + totalLength i2 + last.2 from by omega]

/-- The length of the prefix cut at `pos`, and of what is left behind the covered region. -/
theorem general_lengths (l P I R : List (T × Nat)) (last : T × Nat) (pos cover : Nat)
    (hl : l = I ++ last :: R) (hhi : pos + cover ≤ totalLength I + last.2)
    (hP0 : pos = 0 → P = [])
    (hP1 : pos ≠ 0 → ∃ init back rest, l = init ++ back :: rest ∧ totalLength init < pos ∧
      pos ≤ totalLength init + back.2 ∧ P = init ++ [(back.1, pos - totalLength init)]) :
    totalLength P = pos ∧
      totalLength (remainder last (totalLength I + last.2 - (pos + cover)) ++ R)
        = totalLength l - (pos + cover) := by
  constructor
  · by_cases hpos : pos = 0
    · rw [hP0 hpos, hpos]; rfl
    · obtain ⟨init, back, rest, _, hlo, _, hP⟩ := hP1 hpos
      rw [hP]; simp; omega
  · rw [hl]
    unfold remainder
    split <;> simp <;> omega

/-- The general rebuild as two exact joins, when the lengths of the result fit in `S`. -/
theorem general_exact [DecidableEq T] (s : rle T) (src : List (T × Nat)) (pos cover : Nat)
    (hsrc : src ≠ []) (h1 : 1 ≤ pos + cover) (h2 : pos + cover ≤ totalLength s._list)
    (h3 : totalLength s._list ≤ npos)
    (hfit : pos + totalLength src + (totalLength s._list - (pos + cover)) ≤ npos) :
    ∃ P I last R, s._list = I ++ last :: R ∧ totalLength I < pos + cover ∧
      pos + cover ≤ totalLength I + last.2 ∧
      (pos = 0 → P = []) ∧
      (pos ≠ 0 → ∃ init back rest, s._list = init ++ back :: rest ∧ totalLength init < pos ∧
        pos ≤ totalLength init + back.2 ∧ P = init ++ [(back.1, pos - totalLength init)]) ∧
      _merge.general s src pos cover = .ok { s with
        _list := join (join P src)
          (remainder last (totalLength I + last.2 - (pos + cover)) ++ R) } := by
  obtain ⟨P, I, last, R, hl, hlo, hhi, hP0, hP1, hg⟩ := general_spec s src pos cover hsrc h1 h2 h3
  obtain ⟨hP, hR⟩ := general_lengths s._list P I R last pos cover hl hhi hP0 hP1
  refine ⟨P, I, last, R, hl, hlo, hhi, hP0, hP1, ?_⟩
  rw [hg, joinS_eq_join P src (by omega),
    joinS_eq_join _ _ (by rw [totalLength_join, hP, hR]; omega)]

/-- Content of the general rebuild. -/
theorem general_content [DecidableEq T] (s : rle T) (src : List (T × Nat)) (pos cover : Nat)
    (hsrc : src ≠ []) (h1 : 1 ≤ pos + cover) (h2 : pos + cover ≤ totalLength s._list)
    (h3 : totalLength s._list ≤ npos)
    (hfit : pos + totalLength src + (totalLength s._list - (pos + cover)) ≤ npos) :
    ∃ l, _merge.general s src pos cover = .ok { s with _list := l } ∧
      decompress l = (decompress s._list).take pos ++ decompress src
        ++ (decompress s._list).drop (pos + cover) := by
  obtain ⟨P, I, last, R, hl, hlo, hhi, hP0, hP1, hg⟩ :=
    general_exact s src pos cover hsrc h1 h2 h3 hfit
  refine ⟨_, hg, ?_⟩
  have hdrop : decompress (remainder last (totalLength I + last.2 - (pos + cover)) ++ R)
      = (decompress s._list).drop (pos + cover) := by
    rw [hl, drop_decompress_split I last R _ (by omega) hhi]
    unfold remainder
    split
    · simp
    · next hk =>
      have : totalLength I + last.2 - (pos + cover) = 0 := by omega
      simp [this]
  have htake : decompress P = (decompress s._list).take pos := by
    by_cases hpos : pos = 0
    · rw [hP0 hpos, hpos]; simp
    · obtain ⟨init, back, rest, hl', hlo', hhi', hP⟩ := hP1 hpos
      rw [hP, hl', take_decompress_split init back rest pos (by omega) hhi']
      simp
  rw [decompress_join, decompress_join, hdrop, htake]


/-! ## The fast paths of `_merge` -/

theorem replicate_split (c : T) (n i : Nat) (h : i < n) :
    List.replicate n c = List.replicate i c ++ c :: List.replicate (n - i - 1) c := by
  have h1 : n = i + (1 + (n - i - 1)) := by omega
  conv_lhs => rw [h1]
  rw [List.replicate_add, List.replicate_add]
  rfl

theorem replicate_append_cons (c : T) (n : Nat) (l : List T) :
    List.replicate n c ++ c :: l = c :: (List.replicate n c ++ l) := by
  induction n with
  | zero => rfl
  | succ n ih => simp [List.replicate_succ, ih]

theorem decompress_decremented (curr : T × Nat) (h1 : 1 ≤ curr.2) (h2 : curr.2 ≤ npos) :
    decompress (decremented curr) = List.replicate (curr.2 - 1) curr.1 := by
  unfold decremented
  rw [subS_eq _ _ h1 h2]
  split
  · next h => simp [h]
  · simp

/-- Content after a return from inside the single-cell loop at the run covering `pos`. -/
theorem singleCellAt_content [DecidableEq T] (NewAttr : T) (pos : Nat) (done : List (T × Nat))
    (curr : T × Nat) (rest l : List (T × Nat)) (hlo : totalLength done ≤ pos)
    (hhi : pos < totalLength done + curr.2)
    (hb : totalLength done + curr.2 + totalLength rest ≤ npos)
    (h : _merge.singleCellAt NewAttr pos done curr rest (totalLength done)
      (totalLength done + curr.2) = some l) :
    decompress l = (decompress (done ++ curr :: rest)).take pos ++ [NewAttr]
      ++ (decompress (done ++ curr :: rest)).drop (pos + 1) := by
  rw [take_decompress_split done curr rest pos hlo (by omega),
    drop_decompress_split done curr rest (pos + 1) (by omega) (by omega)]
  have hdec := decompress_decremented curr (by omega) (by omega)
  unfold _merge.singleCellAt at h
  rw [subS_eq _ 1 (by omega) (by omega)] at h
  split at h
  · next hv =>
    cases h
    rw [decompress_append, decompress_cons,
      replicate_split curr.1 curr.2 (pos - totalLength done) (by omega), hv]
    simp only [List.append_assoc, List.singleton_append, List.cons_append]
    rw [show curr.2 - (pos - totalLength done) - 1 = totalLength done + curr.2 - (pos + 1)
      from by omega]
    simp
  · split at h
    · next hv h1 =>
      cases h
      have e1 : pos - totalLength done = 0 := by omega
      have e2 : totalLength done + curr.2 - (pos + 1) = 0 := by omega
      simp [e1, e2, h1]
      omega
    · next hv h1 =>
      simp only at h
      split at h
      · next l' hprev =>
        cases h
        split at hprev
        · next hp =>
          split at hprev
          · next prev hlast =>
            split at hprev
            · next hpv =>
              cases hprev
              have hd : done = done.dropLast ++ [prev] := by
                have := List.dropLast_append_getLast? prev (by simpa using hlast)
                exact this.symm
              have e1 : pos - totalLength done = 0 := by omega
              have e2 : totalLength done + curr.2 - (pos + 1) = curr.2 - 1 := by omega
              have e3 : addS prev.2 1 = prev.2 + 1 := by
                apply addS_eq
                rw [hd] at hb
                simp only [totalLength_append, totalLength_cons, totalLength_nil] at hb
                omega
              rw [e1, e2]
              conv_rhs => rw [hd]
              simp only [decompress_append, decompress_cons, decompress_nil,
                hdec, e3, List.replicate_add, List.replicate_zero,
                List.append_assoc, List.append_nil, List.nil_append, List.singleton_append,
                List.cons_append, hpv]
              simp
            · cases hprev
          · cases hprev
        · cases hprev
      · next hprev =>
        split at h
        · next hn =>
          split at h
          · next next rest2 =>
            split at h
            · next hnv =>
              cases h
              have e1 : pos - totalLength done = curr.2 - 1 := by omega
              have e2 : totalLength done + curr.2 - (pos + 1) = 0 := by omega
              have e3 : addS next.2 1 = next.2 + 1 := by
                apply addS_eq
                simp only [totalLength_cons] at hb
                omega
              rw [e1, e2]
              simp only [decompress_append, decompress_cons, decompress_nil,
                hdec, e3, List.replicate_add, List.replicate_zero,
                List.append_assoc, List.append_nil, List.nil_append, List.singleton_append,
                List.cons_append, hnv]
              simp [replicate_append_cons]
            · cases h
          · cases h
        · cases h

/-- Content after a return from inside the single-cell loop. -/
theorem singleCell_content [DecidableEq T] (NewAttr : T) (pos : Nat) :
    ∀ (todo done l : List (T × Nat)), totalLength done + totalLength todo ≤ npos →
    _merge.singleCell NewAttr pos done todo (totalLength done) = some l →
    decompress l = (decompress (done ++ todo)).take pos ++ [NewAttr]
      ++ (decompress (done ++ todo)).drop (pos + 1) := by
  intro todo
  induction todo with
  | nil => intro done l _ h; simp [_merge.singleCell] at h
  | cons curr rest ih =>
    intro done l hb h
    simp only [totalLength_cons] at hb
    unfold _merge.singleCell at h
    rw [addS_eq _ _ (by omega)] at h
    simp only at h
    by_cases hin : pos ≥ totalLength done ∧ pos < totalLength done + curr.2
    · simp only [hin, and_self, if_true] at h
      split at h
      · next l' hl' =>
        cases h
        exact singleCellAt_content NewAttr pos done curr rest l hin.1 hin.2 (by omega) hl'
      · next hl' =>
        have : totalLength done + curr.2 > pos := hin.2
        simp [this] at h
    · simp only [hin, if_false] at h
      split at h
      · cases h
      · next hgt =>
        have h' := ih (done ++ [curr]) l (by simp; omega) (by simpa using h)
        simpa using h'


/-- Content after a return from one of the fast paths. -/
theorem fast_content [DecidableEq T] (s : rle T) (src l : List (T × Nat)) (pos : Nat)
    (hsum : totalLength s._list = s._size) (hS : s._size ≤ npos)
    (hin : pos + totalLength src ≤ s._size) (h : _merge.fast s src pos = some l) :
    decompress l = (decompress s._list).take pos ++ decompress src
      ++ (decompress s._list).drop (pos + totalLength src) := by
  unfold _merge.fast at h
  simp only at h
  split at h
  · next l' hsingle =>
    cases h
    split at hsingle
    · next item =>
      split at hsingle
      · next hone =>
        cases hsingle
        obtain ⟨hlen, hhead⟩ := hone
        obtain ⟨r, hr⟩ := List.length_eq_one.mp hlen
        rw [hr] at hhead hsum ⊢
        simp only [List.head?_cons, Option.map_some', Option.some.injEq] at hhead
        simp only [totalLength_cons, totalLength_nil, Nat.add_zero] at hsum hin
        simp only [decompress_cons, decompress_nil, List.append_nil, List.take_replicate,
          List.drop_replicate, totalLength_cons, totalLength_nil, Nat.add_zero, hhead,
          ← List.replicate_add]
        congr 1
        omega
      · split at hsingle
        · next hne hcov =>
          have hc := singleCell_content item.1 pos s._list [] l (by simp; omega)
            (by simpa using hsingle)
          rw [newItemsTotalCoverage_eq _ (by omega)] at hcov
          simp only [totalLength_cons, totalLength_nil, Nat.add_zero] at hcov
          simp only [List.nil_append] at hc
          rw [hc]
          simp [hcov]
        · cases hsingle
    · cases hsingle
  · next hsingle =>
    split at h
    · next hw =>
      cases h
      obtain ⟨hp, hc⟩ := hw
      rw [newItemsTotalCoverage_eq _ (by omega)] at hc
      rw [hp, hc, ← hsum]
      simp
    · cases h

/-- The coverage `_merge` works with when the given one is in range. -/
theorem coverLength_eq (size pos length : Nat) (hS : size ≤ npos) (hin : pos + length ≤ size) :
    (if length = npos then subS size pos else length) = length := by
  split
  · next h => rw [subS_eq _ _ (by omega) hS]; omega
  · rfl

/-- Content after `_merge`: the old content with the covered cells replaced by the incoming
ones. -/
theorem merge_content [DecidableEq T] (s : rle T) (src : List (T × Nat)) (pos length : Nat)
    (hsum : totalLength s._list = s._size) (hS : s._size ≤ npos) (hlen : 1 ≤ length)
    (hin : pos + length ≤ s._size) (hsrc : src ≠ [])
    (hfit : pos + totalLength src + (s._size - (pos + length)) ≤ npos) :
    ∃ l, s._merge src pos length = .ok { s with _list := l } ∧
      decompress l = (decompress s._list).take pos ++ decompress src
        ++ (decompress s._list).drop (pos + length) := by
  have hcl := coverLength_eq s._size pos length hS hin
  unfold rle._merge
  simp only [hcl]
  cases hf : (if length = newItemsTotalCoverage src then _merge.fast s src pos else none) with
  | some l =>
    refine ⟨l, rfl, ?_⟩
    split at hf
    · next hc =>
      rw [newItemsTotalCoverage_eq _ (by omega)] at hc
      rw [hc] at hin ⊢
      exact fast_content s src l pos hsum hS hin hf
    · cases hf
  | none =>
    exact general_content s src pos length hsrc (by omega) (by omega) (by omega) (by omega)


/-! ## Canonical form and positive lengths -/

theorem canonical_iff_chain (l : List (T × Nat)) :
    Canonical l ↔ List.Chain' (fun a b => a ≠ b) (l.map Prod.fst) := by
  induction l with
  | nil => simp [Canonical]
  | cons a t ih =>
    cases t with
    | nil => simp [Canonical]
    | cons b rest =>
      rw [Canonical, ih]
      simp [List.chain'_cons]

theorem canonical_nil : Canonical ([] : List (T × Nat)) := trivial

theorem canonical_singleton (r : T × Nat) : Canonical [r] := trivial

theorem canonical_append_iff (l₁ l₂ : List (T × Nat)) :
    Canonical (l₁ ++ l₂) ↔ Canonical l₁ ∧ Canonical l₂ ∧
      ∀ b ∈ l₁.getLast?, ∀ x ∈ l₂.head?, b.1 ≠ x.1 := by
  simp only [canonical_iff_chain]
  rw [List.map_append, List.chain'_append]
  simp only [List.getLast?_map, List.head?_map, Option.mem_def, Option.map_eq_some']
  constructor
  · rintro ⟨h1, h2, h3⟩
    exact ⟨h1, h2, fun b hb x hx => h3 b.1 ⟨b, hb, rfl⟩ x.1 ⟨x, hx, rfl⟩⟩
  · rintro ⟨h1, h2, h3⟩
    refine ⟨h1, h2, ?_⟩
    rintro _ ⟨b, hb, rfl⟩ _ ⟨x, hx, rfl⟩
    exact h3 b hb x hx

/-- Canonical form only depends on the values of the runs. -/
theorem canonical_of_values (l₁ l₂ : List (T × Nat)) (h : l₁.map Prod.fst = l₂.map Prod.fst)
    (hc : Canonical l₂) : Canonical l₁ := by
  rw [canonical_iff_chain] at *
  rw [h]; exact hc

theorem canonical_left (l₁ l₂ : List (T × Nat)) (hc : Canonical (l₁ ++ l₂)) : Canonical l₁ :=
  ((canonical_append_iff l₁ l₂).mp hc).1

theorem canonical_right (l₁ l₂ : List (T × Nat)) (hc : Canonical (l₁ ++ l₂)) : Canonical l₂ :=
  ((canonical_append_iff l₁ l₂).mp hc).2.1

theorem canonical_join [DecidableEq T] (l₁ l₂ : List (T × Nat)) (h1 : Canonical l₁)
    (h2 : Canonical l₂) : Canonical (join l₁ l₂) := by
  rcases List.eq_nil_or_concat l₁ with h | ⟨ini, b, h⟩
  · subst h; rw [join_nil_left]; exact h2
  · have h' : l₁ = ini ++ [b] := by simpa using h
    subst h'
    cases l₂ with
    | nil => rw [join_nil_right]; exact h1
    | cons x rest =>
      rw [join_concat_cons]
      split
      · next hv =>
        have e : (ini ++ (b.1, b.2 + x.2) :: rest) = (ini ++ [(b.1, b.2 + x.2)]) ++ rest := by
          simp
        rw [e, canonical_append_iff]
        refine ⟨canonical_of_values _ (ini ++ [b]) (by simp) h1, ?_, ?_⟩
        · exact canonical_right [x] rest h2
        · intro c hc y hy
          have hc' : c = (b.1, b.2 + x.2) := by simpa using hc.symm
          have h3 := ((canonical_append_iff [x] rest).mp h2).2.2 x (by simp) y hy
          rw [hc']; simpa [hv] using h3
      · next hv =>
        have e : (ini ++ b :: x :: rest) = (ini ++ [b]) ++ x :: rest := by simp
        rw [e, canonical_append_iff]
        refine ⟨h1, h2, ?_⟩
        intro c hc y hy
        have hc' : c = b := by simpa using hc.symm
        have hy' : y = x := by simpa using hy.symm
        rw [hc', hy']; exact hv

theorem canonical_joinS [DecidableEq T] (l₁ l₂ : List (T × Nat)) (h1 : Canonical l₁)
    (h2 : Canonical l₂) : Canonical (joinS l₁ l₂) :=
  canonical_of_values _ _ (joinS_values l₁ l₂) (canonical_join l₁ l₂ h1 h2)

theorem positive_append_iff (l₁ l₂ : List (T × Nat)) :
    Positive (l₁ ++ l₂) ↔ Positive l₁ ∧ Positive l₂ := by
  unfold Positive
  simp only [List.mem_append]
  constructor
  · intro h; exact ⟨fun r hr => h r (Or.inl hr), fun r hr => h r (Or.inr hr)⟩
  · rintro ⟨h1, h2⟩ r (hr | hr)
    · exact h1 r hr
    · exact h2 r hr

theorem positive_cons_iff (r : T × Nat) (l : List (T × Nat)) :
    Positive (r :: l) ↔ 1 ≤ r.2 ∧ Positive l := by
  unfold Positive
  simp

theorem positive_join [DecidableEq T] (l₁ l₂ : List (T × Nat)) (h1 : Positive l₁)
    (h2 : Positive l₂) : Positive (join l₁ l₂) := by
  rcases List.eq_nil_or_concat l₁ with h | ⟨ini, b, h⟩
  · subst h; rw [join_nil_left]; exact h2
  · have h' : l₁ = ini ++ [b] := by simpa using h
    subst h'
    cases l₂ with
    | nil => rw [join_nil_right]; exact h1
    | cons x rest =>
      rw [join_concat_cons]
      rw [positive_append_iff, positive_cons_iff] at h1
      rw [positive_cons_iff] at h2
      split
      · rw [positive_append_iff, positive_cons_iff]
        exact ⟨h1.1, by simp only; omega, h2.2⟩
      · rw [positive_append_iff, positive_cons_iff, positive_cons_iff]
        exact ⟨h1.1, h1.2.1, h2.1, h2.2⟩

/-- A canonical run list with positive lengths is determined by its content. -/
theorem canonical_unique : ∀ (l₁ l₂ : List (T × Nat)), Canonical l₁ → Positive l₁ →
    Canonical l₂ → Positive l₂ → decompress l₁ = decompress l₂ → l₁ = l₂ := by
  have key : ∀ (v w : T) (n m : Nat) (t₁ t₂ : List (T × Nat)), 1 ≤ n → n < m →
      Canonical ((v, n) :: t₁) → Positive t₁ →
      List.replicate n v ++ decompress t₁ = List.replicate m w ++ decompress t₂ → False := by
    intro v w n m t₁ t₂ hn hnm hc hp hd
    have hvw : v = w := by
      have h0 := congrArg (fun l => l[0]?) hd
      simp only at h0
      rw [List.getElem?_append_left (by simp; omega),
        List.getElem?_append_left (by simp; omega)] at h0
      simpa [List.getElem?_replicate, show 0 < n by omega, show 0 < m by omega] using h0
    subst hvw
    have hm : m = n + (m - n) := by omega
    rw [hm, List.replicate_add, List.append_assoc] at hd
    have hd' := List.append_cancel_left hd
    cases t₁ with
    | nil =>
      have := congrArg List.length hd'
      simp at this
      omega
    | cons x t =>
      rw [positive_cons_iff] at hp
      have h0 := congrArg (fun l => l[0]?) hd'
      simp only [decompress_cons] at h0
      rw [List.getElem?_append_left (by simp; omega),
        List.getElem?_append_left (by simp; omega)] at h0
      have hx : x.1 = v := by
        simpa [List.getElem?_replicate, show 0 < x.2 by omega, show 0 < m - n by omega] using h0
      have := ((canonical_append_iff [(v, n)] (x :: t)).mp hc).2.2 (v, n) (by simp) x (by simp)
      exact this hx.symm
  intro l₁
  induction l₁ with
  | nil =>
    intro l₂ _ _ _ hp2 hd
    cases l₂ with
    | nil => rfl
    | cons x t =>
      rw [positive_cons_iff] at hp2
      have := congrArg List.length hd
      simp at this
      omega
  | cons a t₁ ih =>
    intro l₂ hc1 hp1 hc2 hp2 hd
    cases l₂ with
    | nil =>
      rw [positive_cons_iff] at hp1
      have := congrArg List.length hd
      simp at this
      omega
    | cons b t₂ =>
      obtain ⟨v, n⟩ := a
      obtain ⟨w, m⟩ := b
      rw [positive_cons_iff] at hp1 hp2
      simp only [decompress_cons] at hd
      have hnm : n = m := by
        rcases Nat.lt_trichotomy n m with h | h | h
        · exact (key v w n m t₁ t₂ hp1.1 h hc1 hp1.2 hd).elim
        · exact h
        · exact (key w v m n t₂ t₁ hp2.1 h hc2 hp2.2 hd.symm).elim
      subst hnm
      have hvw : v = w := by
        have h0 := congrArg (fun l => l[0]?) hd
        simp only at h0
        rw [List.getElem?_append_left (by simp; omega),
          List.getElem?_append_left (by simp; omega)] at h0
        simpa [List.getElem?_replicate, show 0 < n from hp1.1] using h0
      subst hvw
      have hd' := List.append_cancel_left hd
      rw [ih t₂ (canonical_right [(v, n)] t₁ hc1) hp1.2 (canonical_right [(v, n)] t₂ hc2)
        hp2.2 hd']


theorem canonical_remainder (I : List (T × Nat)) (last : T × Nat) (R : List (T × Nat)) (k : Nat)
    (hc : Canonical (I ++ last :: R)) : Canonical (remainder last k ++ R) := by
  unfold remainder
  split
  · exact canonical_of_values _ (last :: R) (by simp) (canonical_right I _ hc)
  · have e : I ++ last :: R = (I ++ [last]) ++ R := by simp
    rw [e] at hc
    simpa using canonical_right _ R hc

theorem positive_remainder (I : List (T × Nat)) (last : T × Nat) (R : List (T × Nat)) (k : Nat)
    (hp : Positive (I ++ last :: R)) : Positive (remainder last k ++ R) := by
  rw [positive_append_iff, positive_cons_iff] at hp
  rw [positive_append_iff]
  refine ⟨?_, hp.2.2⟩
  unfold remainder
  split
  · next hk => intro r hr; simp at hr; rw [hr]; exact hk
  · intro r hr; simp at hr

/-- The general rebuild keeps canonical form. -/
theorem general_canonical [DecidableEq T] (s : rle T) (src : List (T × Nat)) (pos cover : Nat)
    (hsrc : src ≠ []) (h1 : 1 ≤ pos + cover) (h2 : pos + cover ≤ totalLength s._list)
    (h3 : totalLength s._list ≤ npos) (hc : Canonical s._list) (hcs : Canonical src) :
    ∃ l, _merge.general s src pos cover = .ok { s with _list := l } ∧ Canonical l := by
  obtain ⟨P, I, last, R, hl, hlo, hhi, hP0, hP1, hg⟩ := general_spec s src pos cover hsrc h1 h2 h3
  refine ⟨_, hg, ?_⟩
  have hcP : Canonical P := by
    by_cases hpos : pos = 0
    · rw [hP0 hpos]; exact canonical_nil
    · obtain ⟨init, back, rest, hl', _, _, hP⟩ := hP1 hpos
      rw [hP]
      have e : init ++ back :: rest = (init ++ [back]) ++ rest := by simp
      rw [hl', e] at hc
      exact canonical_of_values _ (init ++ [back]) (by simp) (canonical_left _ rest hc)
  rw [hl] at hc
  exact canonical_joinS _ _ (canonical_joinS _ _ hcP hcs) (canonical_remainder I last R _ hc)

/-- `resize` keeps canonical form. -/
theorem resize_canonical (s : rle T) (newSize : Nat) (hsum : totalLength s._list = s._size)
    (hsz : 1 ≤ s._size) (hnew : 1 ≤ newSize) (hc : Canonical s._list) :
    ∃ s', s.resize newSize = .ok s' ∧ Canonical s'._list := by
  have h0 : ¬ (0 = newSize) := by omega
  by_cases hg : newSize > s._size
  · have hne : s._list ≠ [] := by
      intro h; rw [h] at hsum; simp at hsum; omega
    obtain ⟨ini, b, hl⟩ := exists_concat_of_ne_nil _ hne
    have hgl : s._list.getLast? = some b := by rw [hl]; simp
    refine ⟨⟨setBack s._list (b.1, subS (addS b.2 newSize) s._size), newSize⟩,
      by simp only [rle.resize, h0, if_false, hg, if_true, hgl], ?_⟩
    show Canonical (setBack s._list _)
    rw [hl, setBack_concat]
    rw [hl] at hc
    exact canonical_of_values _ (ini ++ [b]) (by simp) hc
  · obtain ⟨pre, r, rest, hl, hat, _, _⟩ := _at_spec s (newSize - 1) (by omega) (by omega)
    have hget : s._list[pre.length]? = some r := by
      rw [hl, List.getElem?_append_right (Nat.le_refl _)]; simp
    refine ⟨⟨s._list.take pre.length ++ [(r.1, addS (subS r.2
      (totalLength pre + r.2 - (newSize - 1))) 1)], newSize⟩,
      by simp only [rle.resize, h0, if_false, hg, hat, hget], ?_⟩
    have ht : s._list.take pre.length = pre := by rw [hl]; simp
    show Canonical (s._list.take pre.length ++ _)
    rw [ht]
    have e : pre ++ r :: rest = (pre ++ [r]) ++ rest := by simp
    rw [hl, e] at hc
    exact canonical_of_values _ (pre ++ [r]) (by simp) (canonical_left _ rest hc)


/-! ## `substr` -/

theorem getLast?_snoc {α : Type} (ini : List α) (b : α) : (ini ++ [b]).getLast? = some b := by
  simp

/-- Two runs of one list that cover positions `i ≤ j`: the same run, or the first lies before
the second. -/
theorem split_order (p1 p2 q1 q2 : List (T × Nat)) (r1 r2 : T × Nat) (i j : Nat)
    (h : p1 ++ r1 :: q1 = p2 ++ r2 :: q2) (hi : totalLength p1 ≤ i)
    (hj : j < totalLength p2 + r2.2) (hij : i ≤ j) :
    (p2 = p1 ∧ r2 = r1 ∧ q2 = q1) ∨ ∃ mid, p2 = p1 ++ r1 :: mid ∧ q1 = mid ++ r2 :: q2 := by
  rcases List.append_eq_append_iff.mp h with ⟨a, ha, hb⟩ | ⟨c, hc, hd⟩
  · cases a with
    | nil =>
      simp only [List.nil_append, List.cons.injEq] at hb
      exact Or.inl ⟨by simpa using ha, hb.1.symm, hb.2.symm⟩
    | cons x mid =>
      simp only [List.cons_append, List.cons.injEq] at hb
      exact Or.inr ⟨mid, by rw [ha, hb.1], hb.2⟩
  · cases c with
    | nil =>
      simp only [List.nil_append, List.cons.injEq] at hd
      exact Or.inl ⟨by simpa using hc.symm, hd.1, hd.2⟩
    | cons x mid =>
      simp only [List.cons_append, List.cons.injEq] at hd
      rw [hc, ← hd.1] at hi
      simp at hi
      omega

/-- What `substr` returns for an offset inside the store and a count of at least one: a store
of `min (size - offset) count` cells whose content is that slice of the content. -/
theorem substr_spec (s : rle T) (offset count : Nat) (hsum : totalLength s._list = s._size)
    (hS : s._size ≤ npos) (hoff : offset < s._size) (hcount : 1 ≤ count) :
    ∃ l, s.substr offset count = .ok ⟨l, min (s._size - offset) count⟩ ∧
      decompress l = ((decompress s._list).drop offset).take (min (s._size - offset) count) ∧
      (Canonical s._list → Canonical l) ∧ (Positive s._list → Positive l) := by
  have e1 : subS s._size offset = s._size - offset := subS_eq _ _ (by omega) hS
  have e2 : addS (min (s._size - offset) count) offset = min (s._size - offset) count + offset :=
    addS_eq _ _ (by omega)
  have e3 : subS (min (s._size - offset) count + offset) 1
      = min (s._size - offset) count + offset - 1 := subS_eq _ _ (by omega) (by omega)
  generalize hn : min (s._size - offset) count = n at *
  have hn1 : 1 ≤ n := by omega
  have hn2 : n + offset ≤ s._size := by omega
  obtain ⟨p1, r1, q1, hl1, hat1, hlo1, hhi1⟩ := _at_spec s offset hoff (by omega)
  obtain ⟨p2, r2, q2, hl2, hat2, hlo2, hhi2⟩ :=
    _at_spec s (n + offset - 1) (by omega) (by omega)
  have e4 : addS (subS (n + offset - 1) offset) 1 = n := by
    rw [subS_eq _ _ (by omega) (by omega), addS_eq _ _ (by omega)]; omega
  have hdrop : (decompress s._list).drop offset
      = decompress ((r1.1, totalLength p1 + r1.2 - offset) :: q1) := by
    rw [hl1, drop_decompress_split p1 r1 q1 offset hlo1 (by omega)]
    simp
  rcases split_order p1 p2 q1 q2 r1 r2 offset (n + offset - 1) (hl1.symm.trans hl2) hlo1 hhi2
    (by omega) with ⟨hp, hr, hq⟩ | ⟨mid, hp, hq⟩
  · rw [hp] at hat2 hhi2 hlo2
    rw [hr] at hat2 hhi2
    have htl : totalLength s._list = totalLength p1 + r1.2 + totalLength q1 := by
      rw [hl1]; simp; omega
    have hsub : (List.drop p1.length s._list).take (p1.length + 1 - p1.length) = [r1] := by
      rw [hl1]; simp
    have e5 : addS (subS (totalLength p1 + r1.2 - offset)
        (totalLength p1 + r1.2 - (n + offset - 1))) 1 = n := by
      rw [subS_eq _ _ (by omega) (by omega), addS_eq _ _ (by omega)]; omega
    refine ⟨[(r1.1, n)], ?_, ?_, ?_, ?_⟩
    · simp only [rle.substr, e1, hn, e2, e3, hat1, hat2, hsub, setFrontSecond,
        List.getLast?_singleton, setBack, List.dropLast_single, List.nil_append, e4, e5]
    · rw [hdrop]
      have := take_decompress_split [] (r1.1, totalLength p1 + r1.2 - offset) q1 n
        (by simp) (by simp; omega)
      simp only [List.nil_append, decompress_nil, totalLength_nil, Nat.sub_zero] at this
      rw [this]; simp
    · intro _; exact canonical_singleton _
    · intro _ r hr; simp at hr; rw [hr]; exact hn1
  · subst hp hq
    have hsub : (List.drop p1.length s._list).take ((p1 ++ r1 :: mid).length + 1 - p1.length)
        = r1 :: mid ++ [r2] := by
      have e : s._list = p1 ++ ((r1 :: mid ++ [r2]) ++ q2) := by rw [hl1]; simp
      have : (p1 ++ r1 :: mid).length + 1 - p1.length = (r1 :: mid ++ [r2]).length := by
        simp; omega
      rw [this, e, List.drop_left, List.take_left]
    have hgl : ((r1.1, totalLength p1 + r1.2 - offset) :: mid ++ [r2]).getLast? = some r2 :=
      getLast?_snoc _ r2
    have ha2 : totalLength (p1 ++ r1 :: mid) = totalLength p1 + r1.2 + totalLength mid := by
      simp; omega
    rw [ha2] at hlo2 hhi2 hat2
    have e5 : addS (subS r2.2
        (totalLength p1 + r1.2 + totalLength mid + r2.2 - (n + offset - 1))) 1
        = n + offset - (totalLength p1 + r1.2 + totalLength mid) := by
      have hr2 : r2.2 ≤ npos := by
        have : totalLength s._list = totalLength p1 + r1.2 + totalLength mid + r2.2
            + totalLength q2 := by rw [hl1]; simp; omega
        omega
      rw [subS_eq _ _ (by omega) hr2, addS_eq _ _ (by omega)]; omega
    refine ⟨(r1.1, totalLength p1 + r1.2 - offset) :: mid
      ++ [(r2.1, n + offset - (totalLength p1 + r1.2 + totalLength mid))], ?_, ?_, ?_, ?_⟩
    · simp only [rle.substr, e1, hn, e2, e3, hat1, hat2, hsub, setFrontSecond, List.cons_append,
        e4]
      rw [← List.cons_append, hgl]
      simp only [setBack_concat, e5]
      rfl
    · rw [hdrop]
      have := take_decompress_split ((r1.1, totalLength p1 + r1.2 - offset) :: mid) r2 q2 n
        (by simp; omega) (by simp; omega)
      simp only [List.cons_append] at this
      rw [List.cons_append, this]
      simp only [decompress_append, decompress_cons, decompress_nil, List.append_nil,
        totalLength_cons, List.append_assoc]
      have e6 : n - (totalLength p1 + r1.2 - offset + totalLength mid)
          = n + offset - (totalLength p1 + r1.2 + totalLength mid) := by omega
      rw [e6]
    · intro hc
      rw [hl1] at hc
      have e : p1 ++ r1 :: (mid ++ r2 :: q2) = p1 ++ ((r1 :: mid ++ [r2]) ++ q2) := by simp
      rw [e] at hc
      exact canonical_of_values _ (r1 :: mid ++ [r2]) (by simp)
        (canonical_left _ q2 (canonical_right p1 _ hc))
    · intro hp
      rw [hl1, positive_append_iff, positive_cons_iff, positive_append_iff] at hp
      rw [List.cons_append, positive_cons_iff, positive_append_iff]
      refine ⟨by simp only; omega, hp.2.2.1, ?_⟩
      intro r hr
      simp at hr
      rw [hr]
      show 1 ≤ n + offset - (totalLength p1 + r1.2 + totalLength mid)
      omega


/-- The single-cell loop leaves the run list as it is when the cell already holds the value. -/
theorem singleCell_same [DecidableEq T] (v : T) (pos : Nat) :
    ∀ (todo done l : List (T × Nat)), totalLength done + totalLength todo ≤ npos →
    _merge.singleCell v pos done todo (totalLength done) = some l →
    (decompress (done ++ todo))[pos]? = some v → l = done ++ todo := by
  intro todo
  induction todo with
  | nil => intro done l _ h; simp [_merge.singleCell] at h
  | cons curr rest ih =>
    intro done l hb h hv
    simp only [totalLength_cons] at hb
    unfold _merge.singleCell at h
    rw [addS_eq _ _ (by omega)] at h
    simp only at h
    by_cases hin : pos ≥ totalLength done ∧ pos < totalLength done + curr.2
    · have hcur := getElem?_decompress_split done curr rest pos hin.1 hin.2
      rw [hv] at hcur
      have hcv : curr.1 = v := by simpa using hcur.symm
      simp only [hin, and_self, if_true, _merge.singleCellAt, hcv] at h
      simpa using h.symm
    · simp only [hin, if_false] at h
      split at h
      · cases h
      · have h' := ih (done ++ [curr]) l (by simp; omega) (by simpa using h)
          (by simpa using hv)
        simpa using h'

/-- The ways in which the fast paths return. -/
theorem fast_cases [DecidableEq T] (s : rle T) (src l : List (T × Nat)) (pos : Nat)
    (hit : ∀ r ∈ src, r.2 ≤ npos) (h : _merge.fast s src pos = some l) :
    l = s._list ∨
    (∃ item, src = [item] ∧ item.2 = 1 ∧
      _merge.singleCell item.1 pos [] s._list 0 = some l) ∨
    (pos = 0 ∧ newItemsTotalCoverage src = s._size ∧ l = src) := by
  unfold _merge.fast at h
  simp only at h
  split at h
  · next l' hsingle =>
    cases h
    split at hsingle
    · next item =>
      split at hsingle
      · cases hsingle; exact Or.inl rfl
      · split at hsingle
        · next _ hcov =>
          rw [newItemsTotalCoverage_eq _ (by simpa using hit)] at hcov
          exact Or.inr (Or.inl ⟨item, rfl, by simpa using hcov, hsingle⟩)
        · cases hsingle
    · cases hsingle
  · split at h
    · next hw =>
      cases h
      exact Or.inr (Or.inr ⟨hw.1, hw.2, rfl⟩)
    · cases h


/-! ## Positive run lengths through `_merge` and `resize` -/

theorem positive_nil : Positive ([] : List (T × Nat)) := by
  intro r hr; simp at hr

theorem positive_decremented (curr : T × Nat) : Positive (decremented curr) := by
  unfold decremented
  split
  · exact positive_nil
  · next h =>
    intro r hr
    rw [List.mem_singleton] at hr
    rw [hr]
    exact Nat.one_le_iff_ne_zero.mpr h

/-- A return from inside the single-cell loop at the run `curr` keeps run lengths positive. -/
theorem singleCellAt_positive [DecidableEq T] (NewAttr : T) (pos : Nat) (done : List (T × Nat))
    (curr : T × Nat) (rest l : List (T × Nat)) (lo hi : Nat)
    (hp : Positive (done ++ curr :: rest)) (hb : totalLength (done ++ curr :: rest) ≤ npos)
    (h : _merge.singleCellAt NewAttr pos done curr rest lo hi = some l) : Positive l := by
  rw [positive_append_iff, positive_cons_iff] at hp
  obtain ⟨hd, hc, hr⟩ := hp
  simp only [totalLength_append, totalLength_cons] at hb
  unfold _merge.singleCellAt at h
  split at h
  · cases h
    rw [positive_append_iff, positive_cons_iff]; exact ⟨hd, hc, hr⟩
  · split at h
    · cases h
      rw [positive_append_iff, positive_cons_iff]; exact ⟨hd, hc, hr⟩
    · simp only at h
      split at h
      · next l' hprev =>
        cases h
        split at hprev
        · split at hprev
          · next prev hlast =>
            split at hprev
            · cases hprev
              have hdl : done = done.dropLast ++ [prev] :=
                (List.dropLast_append_getLast? prev (by simpa using hlast)).symm
              have hpb : prev.2 + 1 ≤ npos := by
                rw [hdl] at hb
                simp only [totalLength_append, totalLength_cons, totalLength_nil] at hb
                omega
              rw [hdl, positive_append_iff] at hd
              rw [positive_append_iff, positive_cons_iff, positive_append_iff]
              exact ⟨hd.1, by simp only; rw [addS_eq _ _ hpb]; omega,
                positive_decremented curr, hr⟩
            · cases hprev
          · cases hprev
        · cases hprev
      · split at h
        · split at h
          · next nx rest2 _ =>
            split at h
            · cases h
              rw [positive_cons_iff] at hr
              have hnb : nx.2 + 1 ≤ npos := by
                simp only [totalLength_cons] at hb
                omega
              rw [positive_append_iff, positive_append_iff, positive_cons_iff]
              exact ⟨hd, positive_decremented curr, by simp only; rw [addS_eq _ _ hnb]; omega,
                hr.2⟩
            · cases h
          · cases h
        · cases h

/-- A return from inside the single-cell loop keeps run lengths positive. -/
theorem singleCell_positive [DecidableEq T] (NewAttr : T) (pos : Nat) :
    ∀ (todo done l : List (T × Nat)) (lo : Nat), Positive (done ++ todo) →
    totalLength (done ++ todo) ≤ npos →
    _merge.singleCell NewAttr pos done todo lo = some l → Positive l := by
  intro todo
  induction todo with
  | nil => intro done l lo _ _ h; simp [_merge.singleCell] at h
  | cons curr rest ih =>
    intro done l lo hp hb h
    unfold _merge.singleCell at h
    simp only at h
    split at h
    · next l' hl' =>
      cases h
      split at hl'
      · exact singleCellAt_positive NewAttr pos done curr rest l _ _ hp hb hl'
      · cases hl'
    · split at h
      · cases h
      · exact ih (done ++ [curr]) l _ (by simpa using hp) (by simpa using hb) h

/-- The general rebuild keeps run lengths positive when the lengths of the result fit in `S`. -/
theorem general_positive [DecidableEq T] (s : rle T) (src : List (T × Nat)) (pos cover : Nat)
    (hsrc : src ≠ []) (h1 : 1 ≤ pos + cover) (h2 : pos + cover ≤ totalLength s._list)
    (h3 : totalLength s._list ≤ npos)
    (hfit : pos + totalLength src + (totalLength s._list - (pos + cover)) ≤ npos)
    (hp : Positive s._list) (hps : Positive src) :
    ∃ l, _merge.general s src pos cover = .ok { s with _list := l } ∧ Positive l := by
  obtain ⟨P, I, last, R, hl, hlo, hhi, hP0, hP1, hg⟩ :=
    general_exact s src pos cover hsrc h1 h2 h3 hfit
  refine ⟨_, hg, ?_⟩
  have hpP : Positive P := by
    by_cases hpos : pos = 0
    · rw [hP0 hpos]; exact positive_nil
    · obtain ⟨init, back, rest, hl', hlo', _, hP⟩ := hP1 hpos
      rw [hP, positive_append_iff]
      rw [hl', positive_append_iff] at hp
      refine ⟨hp.1, ?_⟩
      intro r hr
      simp at hr
      rw [hr]
      show 1 ≤ pos - totalLength init
      omega
  rw [hl] at hp
  exact positive_join _ _ (positive_join _ _ hpP hps) (positive_remainder I last R _ hp)

/-- Every length of a run list is at most the sum of the lengths. -/
theorem items_le_of_total (src : List (T × Nat)) (h : totalLength src ≤ npos) :
    ∀ r ∈ src, r.2 ≤ npos := fun r hr =>
  Nat.le_trans (totalLength_le_of_mem src r hr) h

/-- `_merge` keeps run lengths positive when the lengths of the result fit in `S`. -/
theorem merge_positive [DecidableEq T] (s : rle T) (src : List (T × Nat)) (pos length : Nat)
    (hsum : totalLength s._list = s._size) (hS : s._size ≤ npos) (hlen : 1 ≤ length)
    (hin : pos + length ≤ s._size) (hsrc : src ≠ [])
    (hfit : pos + totalLength src + (s._size - (pos + length)) ≤ npos)
    (hp : Positive s._list) (hps : Positive src) :
    ∃ l, s._merge src pos length = .ok { s with _list := l } ∧ Positive l := by
  have hcl := coverLength_eq s._size pos length hS hin
  unfold rle._merge
  simp only [hcl]
  cases hf : (if length = newItemsTotalCoverage src then _merge.fast s src pos else none) with
  | some l =>
    refine ⟨l, rfl, ?_⟩
    split at hf
    · rcases fast_cases s src l pos (items_le_of_total src (by omega)) hf with
        h | ⟨item, _, _, hsingle⟩ | ⟨_, _, h⟩
      · rw [h]; exact hp
      · exact singleCell_positive item.1 pos s._list [] l 0 (by simpa using hp)
          (by simp; omega) hsingle
      · rw [h]; exact hps
    · cases hf
  | none =>
    exact general_positive s src pos length hsrc (by omega) (by omega) (by omega) (by omega)
      hp hps

/-! ## `resize` -/

theorem subS_addS_eq (x y z : Nat) (hz : z ≤ x + y) (hr : x + y - z ≤ npos) (hz' : z ≤ npos) :
    subS (addS x y) z = x + y - z := by
  unfold subS addS npos at *
  omega

/-- The grow branch of `resize`: the last run is lengthened by the difference. -/
theorem resize_grow (s : rle T) (newSize : Nat) (ini : List (T × Nat)) (b : T × Nat)
    (hl : s._list = ini ++ [b]) (hsum : totalLength s._list = s._size)
    (hnew : s._size < newSize) (hN : newSize ≤ npos) :
    s.resize newSize = .ok ⟨ini ++ [(b.1, b.2 + (newSize - s._size))], newSize⟩ := by
  have h0 : ¬ (0 = newSize) := by omega
  have hgl : s._list.getLast? = some b := by rw [hl]; simp
  have hb : b.2 ≤ s._size := by
    rw [← hsum, hl]; simp
  have e : subS (addS b.2 newSize) s._size = b.2 + (newSize - s._size) := by
    rw [subS_addS_eq _ _ _ (by omega) (by omega) (by omega)]; omega
  simp only [rle.resize, h0, if_false, gt_iff_lt, hnew, if_true, hgl, e]
  rw [hl, setBack_concat]

/-- The shrink branch of `resize`: the run covering the new last position is cut there and
the runs behind it are dropped. -/
theorem resize_shrink (s : rle T) (newSize : Nat) (hsum : totalLength s._list = s._size)
    (hS : s._size ≤ npos) (h1 : 1 ≤ newSize) (hle : newSize ≤ s._size) :
    ∃ pre r rest, s._list = pre ++ r :: rest ∧ totalLength pre < newSize ∧
      newSize ≤ totalLength pre + r.2 ∧
      s.resize newSize = .ok ⟨pre ++ [(r.1, newSize - totalLength pre)], newSize⟩ := by
  have h0 : ¬ (0 = newSize) := by omega
  have hg : ¬ (newSize > s._size) := by omega
  obtain ⟨pre, r, rest, hl, hat, hlo, hhi⟩ := _at_spec s (newSize - 1) (by omega) (by omega)
  refine ⟨pre, r, rest, hl, by omega, by omega, ?_⟩
  have hget : s._list[pre.length]? = some r := by
    rw [hl, List.getElem?_append_right (Nat.le_refl _)]; simp
  have ht : s._list.take pre.length = pre := by rw [hl]; simp
  have hr : r.2 ≤ s._size := by
    rw [← hsum, hl]; simp; omega
  have e : addS (subS r.2 (totalLength pre + r.2 - (newSize - 1))) 1
      = newSize - totalLength pre := by
    rw [subS_eq _ _ (by omega) (by omega), addS_eq _ _ (by omega)]; omega
  simp only [rle.resize, h0, if_false, hg, hat, hget, ht, e]


/-! ## Lemmas on value substitution and on insertion -/

/-- The scan of `_at` reads the lengths of the runs only. -/
theorem scan_map (f : T × Nat → T × Nat) (hf : ∀ r, (f r).2 = r.2) (position : Nat) :
    ∀ (l : List (T × Nat)) (idx tl : Nat),
      _at.scan position (l.map f) idx tl = _at.scan position l idx tl := by
  intro l
  induction l with
  | nil => intro idx tl; rfl
  | cons r rest ih =>
    intro idx tl
    simp only [List.map_cons, _at.scan, hf, ih]

theorem _at_map (f : T × Nat → T × Nat) (hf : ∀ r, (f r).2 = r.2) (s : rle T)
    (position : Nat) :
    ({ s with _list := s._list.map f } : rle T)._at position = s._at position := by
  simp only [rle._at, List.length_map, scan_map f hf]

/-- What `at` reads after `replace(oldValue, newValue)`. -/
theorem at_replaceValue [DecidableEq T] (s : rle T) (oldValue newValue : T) (i : Nat) (v : T)
    (h : s.at i = .ok v) :
    (s.replaceValue oldValue newValue).at i
      = .ok (if v = oldValue then newValue else v) := by
  have hf : ∀ r : T × Nat,
      ((fun run : T × Nat => if run.1 = oldValue then (newValue, run.2) else run) r).2
        = r.2 := by
    intro r
    simp only
    split <;> rfl
  have hat := _at_map _ hf s i
  unfold rle.at rle.atApplies at h ⊢
  unfold rle.replaceValue
  simp only [hat]
  by_cases hge : i ≥ s._size
  · simp only [hge, if_true] at h
    cases h
  · simp only [hge, if_false] at h ⊢
    cases hs : s._at i with
    | error e =>
      rw [hs] at h
      cases h
    | ok p =>
      obtain ⟨runPos, applies⟩ := p
      rw [hs] at h
      simp only at h ⊢
      simp only [List.getElem?_map]
      cases hg : s._list[runPos]? with
      | none =>
        rw [hg] at h
        cases h
      | some run =>
        rw [hg] at h
        simp only [Except.ok.injEq] at h
        subst h
        simp only [Option.map_some']
        split <;> rfl

/-- The skip loop runs off the end of the run list when `endIndex` is not covered. -/
theorem skip_fail (endIndex : Nat) (hE : endIndex ≤ npos) :
    ∀ (existing : List (T × Nat)) (prev : Option (T × Nat))
    (cov : Nat), cov + totalLength existing ≤ endIndex →
    _merge.skip endIndex existing prev cov = .error .FAIL_FAST := by
  intro existing
  induction existing with
  | nil =>
    intro prev cov h
    simp only [totalLength_nil, Nat.add_zero] at h
    simp [_merge.skip, h]
  | cons r rest ih =>
    intro prev cov h
    rw [totalLength_cons] at h
    have hle : cov ≤ endIndex := by omega
    simp only [_merge.skip, hle, if_true]
    rw [addS_eq _ _ (by omega)]
    exact ih _ _ (by omega)

/-- An insertion (cover length 0) at the start of the store stops at the `FAIL_FAST_IF` of
the skip loop: `endIndex` is `0 - 1` in `S`. -/
theorem insert_at_zero_fails [DecidableEq T] (s : rle T) (src : List (T × Nat))
    (hsrc : 1 ≤ totalLength src) (hfit : totalLength src ≤ npos)
    (hS : totalLength s._list ≤ npos) :
    s.replace 0 0 src = .error .FAIL_FAST := by
  have hnp : ¬ (0 = npos) := by decide
  have htot : ¬ (0 = newItemsTotalCoverage src) := by
    rw [newItemsTotalCoverage_eq _ hfit]
    omega
  have hgrow : newItemsTotalCoverage src > 0 := by
    rw [newItemsTotalCoverage_eq _ hfit]
    omega
  have hend : subS 0 1 = npos := by decide
  have hshrink : ¬ (0 > newItemsTotalCoverage src) := by omega
  have hz : addS (addS 0 0) (newItemsTotalCoverage src - (newItemsTotalCoverage src - 0))
      = 0 := by
    rw [show newItemsTotalCoverage src - (newItemsTotalCoverage src - 0) = 0 from by omega]
    decide
  simp only [rle.replace, rle._merge, hnp, if_false, htot, _merge.general, _merge.head,
    ne_eq, not_true_eq_false, hgrow, if_true, hshrink, hz, hend]
  rw [skip_fail npos (Nat.le_refl _) s._list none 0 (by omega)]

/-- An insertion (cover length 0) behind the first cell puts the source between the cells
before `pos` and the cells from `pos` on. -/
theorem insert_content [DecidableEq T] (s : rle T) (src : List (T × Nat)) (pos : Nat)
    (hsum : totalLength s._list = s._size) (hS : s._size ≤ npos) (hpos : 1 ≤ pos)
    (hin : pos ≤ s._size) (hsrc : 1 ≤ totalLength src)
    (hfit : totalLength src + s._size ≤ npos) :
    ∃ l, s.replace pos 0 src = .ok { s with _list := l } ∧
      decompress l = (decompress s._list).take pos ++ decompress src
        ++ (decompress s._list).drop pos := by
  have hnp : ¬ (0 = npos) := by decide
  have htot : ¬ (0 = newItemsTotalCoverage src) := by
    rw [newItemsTotalCoverage_eq _ (by omega)]
    omega
  have hne : src ≠ [] := by
    intro h
    rw [h] at hsrc
    simp at hsrc
  obtain ⟨l, hl, hd⟩ := general_content s src pos 0 hne (by omega) (by omega) (by omega)
    (by omega)
  refine ⟨l, ?_, by simpa using hd⟩
  simp only [rle.replace, rle._merge, hnp, if_false, htot]
  exact hl


/-! ## Canonical form through the single-cell path -/

/-- The run left by `curr->second--` when the run had at least two cells. -/
theorem decremented_of_two (curr : T × Nat) (h2 : 2 ≤ curr.2) (hb : curr.2 ≤ npos) :
    decremented curr = [(curr.1, curr.2 - 1)] := by
  unfold decremented
  rw [subS_eq _ _ (by omega) hb]
  have : ¬ (curr.2 - 1 = 0) := by omega
  simp [this]

/-- A return from inside the single-cell loop at the run covering `pos` keeps canonical form,
unless that run is a single cell of another value with a neighbour of the new value. -/
theorem singleCellAt_canonical [DecidableEq T] (v : T) (pos : Nat) (done : List (T × Nat))
    (curr : T × Nat) (rest l : List (T × Nat)) (hlo : totalLength done ≤ pos)
    (hhi : pos < totalLength done + curr.2)
    (hb : totalLength done + curr.2 + totalLength rest ≤ npos)
    (hc : Canonical (done ++ curr :: rest))
    (hns : ¬ (curr.2 = 1 ∧ curr.1 ≠ v ∧
      (done.getLast?.map Prod.fst = some v ∨ rest.head?.map Prod.fst = some v)))
    (h : _merge.singleCellAt v pos done curr rest (totalLength done)
      (totalLength done + curr.2) = some l) : Canonical l := by
  unfold _merge.singleCellAt at h
  split at h
  · cases h; exact hc
  · next hv =>
    split at h
    · next h1 =>
      cases h
      have hn : ¬ (done.getLast?.map Prod.fst = some v ∨ rest.head?.map Prod.fst = some v) :=
        fun hh => hns ⟨h1, hv, hh⟩
      rw [canonical_append_iff] at hc ⊢
      obtain ⟨hcd, hcr, _⟩ := hc
      have hcr2 : Canonical rest := canonical_right [curr] rest hcr
      refine ⟨hcd, ?_, ?_⟩
      · have e : (v, curr.2) :: rest = [(v, curr.2)] ++ rest := rfl
        rw [e, canonical_append_iff]
        refine ⟨canonical_singleton _, hcr2, ?_⟩
        intro b hb' x hx
        have hb2 : b = (v, curr.2) := by simpa using hb'.symm
        rw [hb2]
        intro hvx
        apply hn
        right
        rw [Option.mem_def] at hx
        rw [hx]
        simp only [Option.map_some', Option.some.injEq]
        exact hvx.symm
      · intro b hb' x hx
        have hx2 : x = (v, curr.2) := by simpa using hx.symm
        rw [hx2]
        intro hbv
        apply hn
        left
        rw [Option.mem_def] at hb'
        rw [hb']
        simp only [Option.map_some', Option.some.injEq]
        exact hbv
    · next h1 =>
      have hc2 : 2 ≤ curr.2 := by omega
      have hdec := decremented_of_two curr hc2 (by omega)
      simp only at h
      split at h
      · next l' hprev =>
        cases h
        split at hprev
        · split at hprev
          · next prev hlast =>
            split at hprev
            · cases hprev
              have hd : done = done.dropLast ++ [prev] :=
                (List.dropLast_append_getLast? prev (by simpa using hlast)).symm
              rw [hdec]
              refine canonical_of_values _ (done ++ curr :: rest) ?_ hc
              conv_rhs => rw [hd]
              simp
            · cases hprev
          · cases hprev
        · cases hprev
      · split at h
        · split at h
          · next nx rest2 _ =>
            split at h
            · cases h
              rw [hdec]
              refine canonical_of_values _ (done ++ curr :: nx :: rest2) ?_ hc
              simp
            · cases h
          · cases h
        · cases h

/-- The lone-run test past the runs of `done`. -/
theorem loneRunBeside_cons [DecidableEq T] (v : T) (pos : Nat) (prev : Option (T × Nat))
    (curr : T × Nat) (rest : List (T × Nat)) (lo : Nat) :
    loneRunBeside v pos prev (curr :: rest) lo
      = if lo ≤ pos ∧ pos < lo + curr.2 then
          decide (curr.2 = 1 ∧ curr.1 ≠ v ∧
            (prev.map Prod.fst = some v ∨ rest.head?.map Prod.fst = some v))
        else loneRunBeside v pos (some curr) rest (lo + curr.2) := by
  rw [loneRunBeside]

/-- A return from inside the single-cell loop keeps canonical form, unless the cell is a run of
length one of another value with a neighbour of the new value. -/
theorem singleCell_canonical [DecidableEq T] (v : T) (pos : Nat) :
    ∀ (todo done l : List (T × Nat)), totalLength done + totalLength todo ≤ npos →
    Canonical (done ++ todo) →
    loneRunBeside v pos done.getLast? todo (totalLength done) = false →
    _merge.singleCell v pos done todo (totalLength done) = some l → Canonical l := by
  intro todo
  induction todo with
  | nil => intro done l _ _ _ h; simp [_merge.singleCell] at h
  | cons curr rest ih =>
    intro done l hb hc hns h
    simp only [totalLength_cons] at hb
    rw [loneRunBeside_cons] at hns
    unfold _merge.singleCell at h
    rw [addS_eq _ _ (by omega)] at h
    simp only at h
    by_cases hin : pos ≥ totalLength done ∧ pos < totalLength done + curr.2
    · simp only [hin, and_self, if_true] at h
      have hin' : totalLength done ≤ pos ∧ pos < totalLength done + curr.2 := hin
      simp only [hin', and_self, if_true, decide_eq_false_iff_not] at hns
      split at h
      · next l' hl' =>
        cases h
        exact singleCellAt_canonical v pos done curr rest l hin.1 hin.2 (by omega) hc hns hl'
      · next hl' =>
        have : totalLength done + curr.2 > pos := hin.2
        simp [this] at h
    · simp only [hin, if_false] at h
      have hin' : ¬ (totalLength done ≤ pos ∧ pos < totalLength done + curr.2) := hin
      simp only [hin', if_false] at hns
      split at h
      · cases h
      · next hgt =>
        exact ih (done ++ [curr]) l (by simp; omega) (by simpa using hc)
          (by simpa using hns) (by simpa using h)

/-- `_merge` keeps canonical form, unless it writes one cell over a run of length one of
another value that has a neighbour of the new value. -/
theorem merge_canonical [DecidableEq T] (s : rle T) (src : List (T × Nat)) (pos length : Nat)
    (hsum : totalLength s._list = s._size) (hS : s._size ≤ npos) (hlen : 1 ≤ length)
    (hin : pos + length ≤ s._size) (hsrc : src ≠ []) (hit : ∀ r ∈ src, r.2 ≤ npos)
    (hc : Canonical s._list) (hcs : Canonical src)
    (hns : ∀ v, src = [(v, 1)] → length = 1 → s.loneRunBeside pos v = false) :
    ∃ l, s._merge src pos length = .ok { s with _list := l } ∧ Canonical l := by
  have hcl := coverLength_eq s._size pos length hS hin
  unfold rle._merge
  simp only [hcl]
  cases hf : (if length = newItemsTotalCoverage src then _merge.fast s src pos else none) with
  | some l =>
    refine ⟨l, rfl, ?_⟩
    split at hf
    · next hcov =>
      rcases fast_cases s src l pos hit hf with h | ⟨item, hi, hi1, hsingle⟩ | ⟨_, _, h⟩
      · rw [h]; exact hc
      · have hsv : src = [(item.1, 1)] := by rw [hi, ← hi1]
        have hl1 : length = 1 := by
          rw [hcov, newItemsTotalCoverage_eq _ (by rw [hsv]; simp; decide), hsv]
          simp
        have hn := hns item.1 hsv hl1
        exact singleCell_canonical item.1 pos s._list [] l (by simp; omega)
          (by simpa using hc) (by simpa [rle.loneRunBeside] using hn) (by simpa using hsingle)
      · rw [h]; exact hcs
    · cases hf
  | none =>
    exact general_canonical s src pos length hsrc (by omega) (by omega) (by omega) hc hcs


/-! ## Theorems on the splice -/

/-- C1, as the spec states it: on the store `[R x3]` of size 3 the call
`replace(2, 1, [(R, 2^64 - 1), (G, 1)])`, whose source is non-empty with positive lengths,
returns with the run list `[R x1, G x1]`: the coverage of the source and the fused length
`2 + (2^64 - 1)` are summed in `S` and wrap. The content afterwards has two cells and is not
the old content before `pos`, then the content of the source, then the old content from
`pos + length` on. -/
theorem replace_wraps_on_long_source :
    Positive (⟨[(.R, 3)], 3⟩ : rle Color)._list ∧
      totalLength (⟨[(.R, 3)], 3⟩ : rle Color)._list = 3 ∧
      Positive [(Color.R, npos), (Color.G, 1)] ∧
      (⟨[(.R, 3)], 3⟩ : rle Color).replace 2 1 [(.R, npos), (.G, 1)]
        = .ok ⟨[(.R, 1), (.G, 1)], 3⟩ ∧
      decompress [(Color.R, 1), (Color.G, 1)]
        ≠ (decompress [(Color.R, 3)]).take 2 ++ decompress [(Color.R, npos), (Color.G, 1)]
          ++ (decompress [(Color.R, 3)]).drop (2 + 1) := by
  refine ⟨by decide, by decide, by decide, by decide, ?_⟩
  intro h
  have h2 := congrArg List.length h
  simp only [List.length_append, List.length_take, List.length_drop, length_decompress,
    totalLength_cons, totalLength_nil] at h2
  unfold npos at h2
  omega

/-- C1, amended. General splice semantics: on a store whose run lengths sum to `size()`, for
`length ≥ 1`, `pos + length ≤ size()` and a non-empty source run sequence such that the number
of cells of the result, `pos` plus the coverage of the source plus the cells behind
`pos + length`, is representable in `S`, `replace(pos, length, sourceRuns)` returns, and the
content of the run list afterwards is the old content before `pos`, then the content of the
source, then the old content from `pos + length` on; so the cell that was at `pos + length + j`
is afterwards at `pos + coverage + j`. (Positive run lengths are not needed for this.) -/
theorem replace_splices [DecidableEq T] (s : rle T) (pos length : Nat) (src : List (T × Nat))
    (hsum : totalLength s._list = s.size) (hS : s.size ≤ npos) (hlen : 1 ≤ length)
    (hin : pos + length ≤ s.size) (hsrc : src ≠ [])
    (hfit : pos + totalLength src + (s.size - (pos + length)) ≤ npos) :
    ∃ s', s.replace pos length src = .ok s' ∧
      decompress s'._list = (decompress s._list).take pos ++ decompress src
        ++ (decompress s._list).drop (pos + length) ∧
      ∀ j, (decompress s'._list)[pos + totalLength src + j]?
        = (decompress s._list)[pos + length + j]? := by
  unfold rle.size at *
  obtain ⟨l, hm, hc⟩ := merge_content s src pos length hsum hS hlen hin hsrc hfit
  refine ⟨{ s with _list := l }, hm, hc, ?_⟩
  intro j
  have hD : pos ≤ (decompress s._list).length := by
    rw [length_decompress, hsum]; omega
  simp only [hc]
  rw [List.getElem?_append_right (by simp; omega)]
  simp only [List.length_append, List.length_take, length_decompress, List.getElem?_drop]
  congr 1
  rw [length_decompress] at hD
  omega

/-- C10. `fill` postcondition and frame: on a store whose run lengths sum to `size()`, for
`start < size()`, `fill(v, start)` returns, leaves `size()` unchanged, every position from
`start` on reads `v` afterwards, and every position before `start` reads the value it read
before (`at` returns a value in both stores). With `start = 0` every position reads `v`. -/
theorem fill_reads [DecidableEq T] (s : rle T) (v : T) (start : Nat)
    (hsum : totalLength s._list = s.size) (hS : s.size ≤ npos) (hstart : start < s.size) :
    ∃ s', s.fill v start = .ok s' ∧ s'.size = s.size ∧
      (∀ i, start ≤ i → i < s.size → s'.at i = .ok v) ∧
      (∀ i, i < start → ∃ w, s.at i = .ok w ∧ s'.at i = .ok w) := by
  unfold rle.size at *
  have hsub : subS s._size start = s._size - start := subS_eq _ _ (by omega) hS
  obtain ⟨l, hm, hc⟩ := merge_content s [(v, s._size - start)] start (s._size - start)
    hsum hS (by omega) (by omega) (by simp) (by simp; omega)
  have hfull : start + (s._size - start) = s._size := by omega
  have hdrop : (decompress s._list).drop s._size = [] := by
    apply List.drop_of_length_le; rw [length_decompress, hsum]
  rw [hfull, hdrop] at hc
  simp only [decompress_cons, decompress_nil, List.append_nil] at hc
  have htake : ((decompress s._list).take start).length = start := by
    rw [List.length_take, length_decompress, hsum]; omega
  have hlen : totalLength l = s._size := by
    rw [← length_decompress, hc, List.length_append, htake, List.length_replicate]; omega
  refine ⟨{ s with _list := l }, ?_, rfl, ?_, ?_⟩
  · simp only [rle.fill, rle.replaceRepeat, hsub]; exact hm
  · intro i h1 h2
    obtain ⟨w, hw, hg⟩ := at_spec { s with _list := l } i h2 (by simpa [hlen] using h2)
    simp only [hc] at hg
    rw [List.getElem?_append_right (by omega), htake, List.getElem?_replicate] at hg
    have : i - start < s._size - start := by omega
    simp only [this, if_true, Option.some.injEq] at hg
    rw [hw, hg]
  · intro i h1
    obtain ⟨w, hw, hg⟩ := at_spec { s with _list := l } i (by show i < s._size; omega)
      (by rw [hlen]; omega)
    obtain ⟨w', hw', hg'⟩ := at_spec s i (by omega) (by omega)
    simp only [hc] at hg
    rw [List.getElem?_append_left (by omega), List.getElem?_take_of_lt h1, hg'] at hg
    simp only [Option.some.injEq] at hg
    exact ⟨w', hw', by rw [hw, hg]⟩


/-! ## Worked examples and `size()` after a splice -/

/-- C7, as the spec states it: the run list `[R x2, Y x2, G x3, B x2]` (nine cells) is not what
`replace(pos=2, length=2, value=Y)` leaves on `[R x3, G x5, B x2]`. -/
theorem replaceRepeat_example_not_G3 :
    rgb.replaceRepeat 2 2 2 .Y ≠ .ok ⟨[(.R, 2), (.Y, 2), (.G, 3), (.B, 2)], 10⟩ := by
  decide

/-- C7, amended. On `[R x3, G x5, B x2]` of size 10, `replace(pos=2, length=2, value=Y)` yields
the run list `[R x2, Y x2, G x4, B x2]` with size 10. -/
theorem replaceRepeat_example :
    rgb.replaceRepeat 2 2 2 .Y = .ok ⟨[(.R, 2), (.Y, 2), (.G, 4), (.B, 2)], 10⟩ := by
  decide

/-- C8, as the spec states it: `replace(pos=5, length=2, runs=[(Y,2),(N,5)])` on
`[R x3, G x5, B x2]` does not yield the store of size 15 with run list
`[R x3, G x2, Y x2, N x5, B x2]`. -/
theorem replace_grow_example_not_claimed :
    rgb.replace 5 2 [(.Y, 2), (.N, 5)]
      ≠ .ok ⟨[(.R, 3), (.G, 2), (.Y, 2), (.N, 5), (.B, 2)], 15⟩ := by
  decide

/-- C8, amended. On `[R x3, G x5, B x2]`, `replace(pos=5, length=2, runs=[(Y,2),(N,5)])` yields
the run list `[R x3, G x2, Y x2, N x5, G x1, B x2]`, whose run lengths total 15. -/
theorem replace_grow_example :
    ∃ s', rgb.replace 5 2 [(.Y, 2), (.N, 5)] = .ok s' ∧
      s'._list = [(.R, 3), (.G, 2), (.Y, 2), (.N, 5), (.G, 1), (.B, 2)] ∧
      totalLength s'._list = 15 :=
  ⟨⟨[(.R, 3), (.G, 2), (.Y, 2), (.N, 5), (.G, 1), (.B, 2)], 10⟩, by decide, rfl, by decide⟩

/-- C2, at the failing input: the store built by `rle(10, R)` and then
`replace(5, 2, [(Y,2),(N,5)])` has run lengths that total 15 while `size()` is 10. -/
theorem size_invariant_fails_after_growing_replace :
    ∃ s s', rle.mk1 10 Color.R = .ok s ∧ s.replace 5 2 [(.Y, 2), (.N, 5)] = .ok s' ∧
      totalLength s'._list = 15 ∧ s'.size = 10 :=
  ⟨⟨[(.R, 10)], 10⟩, ⟨[(.R, 5), (.Y, 2), (.N, 5), (.R, 3)], 10⟩,
    by decide, by decide, by decide, by decide⟩

/-- C4, at the failing input: after the growing splice `replace(5, 2, [(Y,2),(N,5)])` on
`[R x3, G x5, B x2]` (coverage 7, covered length 2) `size()` is still 10, not 15. -/
theorem size_unchanged_by_growing_replace :
    ∃ s', rgb.replace 5 2 [(.Y, 2), (.N, 5)] = .ok s' ∧ rgb.size = 10 ∧ s'.size = 10 ∧
      s'.size ≠ rgb.size + (totalLength [(Color.Y, 2), (Color.N, 5)] - 2) :=
  ⟨⟨[(.R, 3), (.G, 2), (.Y, 2), (.N, 5), (.G, 1), (.B, 2)], 10⟩,
    by decide, by decide, by decide, by decide⟩

/-- C6, at the failing input: on `[R x5, G x1, B x9]` the one-cell overwrite
`replace(5, 1, [(R,1)])` returns from the fast path with `[R x5, R x1, B x9]`, while the general
rebuild produces `[R x6, B x9]` for the same arguments. -/
theorem fast_path_differs_from_general :
    (⟨[(.R, 5), (.G, 1), (.B, 9)], 15⟩ : rle Color).replace 5 1 [(.R, 1)]
        = .ok ⟨[(.R, 5), (.R, 1), (.B, 9)], 15⟩ ∧
      _merge.general (⟨[(.R, 5), (.G, 1), (.B, 9)], 15⟩ : rle Color) [(.R, 1)] 5 1
        = .ok ⟨[(.R, 6), (.B, 9)], 15⟩ := by
  decide


/-! ## Theorems on `substr` -/

/-- C9. `substr` is a faithful slice: on a store whose run lengths sum to `size()`, for
`offset < size()` and `count ≥ 1`, `substr(offset, count)` returns a store `r` with
`r.size() = min(size() - offset, count)` (so `size() - offset` for the sentinel `npos`), whose
run lengths sum to `r.size()`, and with `r.at(i) = at(offset + i)` for every `i < r.size()`
(both reads return that value). `substr` is a const member: the store it is called on is not
changed. -/
theorem substr_slice (s : rle T) (offset count : Nat) (hsum : totalLength s._list = s.size)
    (hS : s.size ≤ npos) (hoff : offset < s.size) (hcount : 1 ≤ count) :
    ∃ r, s.substr offset count = .ok r ∧ r.size = min (s.size - offset) count ∧
      (count = npos → r.size = s.size - offset) ∧
      totalLength r._list = r.size ∧
      ∀ i, i < r.size → ∃ v, s.at (offset + i) = .ok v ∧ r.at i = .ok v := by
  unfold rle.size at *
  obtain ⟨l, hsub, hc, _, _⟩ := substr_spec s offset count hsum hS hoff hcount
  have hlen : totalLength l = min (s._size - offset) count := by
    rw [← length_decompress, hc, List.length_take, List.length_drop, length_decompress, hsum]
    omega
  refine ⟨⟨l, min (s._size - offset) count⟩, hsub, rfl, ?_, hlen, ?_⟩
  · intro h; show min (s._size - offset) count = s._size - offset; omega
  · intro i hi
    have hi' : i < min (s._size - offset) count := hi
    obtain ⟨v, hv, hg⟩ := at_spec ⟨l, min (s._size - offset) count⟩ i hi (by rw [hlen]; exact hi)
    obtain ⟨w, hw, hg'⟩ := at_spec s (offset + i) (by omega) (by omega)
    simp only [hc] at hg
    rw [List.getElem?_take_of_lt hi', List.getElem?_drop, hg'] at hg
    simp only [Option.some.injEq] at hg
    exact ⟨w, hw, by rw [hv, hg]⟩


/-- C3, as the spec states it, fails where a mutator writes what it is given: on `[R x2, G x3]`,
which has no two adjacent runs of equal value, `replace(oldValue = G, newValue = R)` leaves
`[R x2, R x3]`; and on `[R x3, G x5, B x2]` the call `replace(3, 5, [(Y,2),(Y,3)])`, whose
source has two adjacent runs of equal value, leaves `[R x3, Y x2, Y x3, B x2]`. -/
theorem mutators_leave_equal_neighbours :
    Canonical (⟨[(.R, 2), (.G, 3)], 5⟩ : rle Color)._list ∧
      ((⟨[(.R, 2), (.G, 3)], 5⟩ : rle Color).replaceValue .G .R)._list = [(.R, 2), (.R, 3)] ∧
      ¬ Canonical ((⟨[(.R, 2), (.G, 3)], 5⟩ : rle Color).replaceValue .G .R)._list ∧
      Canonical rgb._list ∧
      rgb.replace 3 5 [(.Y, 2), (.Y, 3)] = .ok ⟨[(.R, 3), (.Y, 2), (.Y, 3), (.B, 2)], 10⟩ ∧
      ¬ Canonical [(Color.R, 3), (Color.Y, 2), (Color.Y, 3), (Color.B, 2)] := by
  decide

/-- C3, amended. Canonical form is kept by the mutators that rebuild or cut the run list: on a
store with no two adjacent runs of equal value whose run lengths sum to `size()`,
`resize(newSize)` with `newSize ≥ 1` on a non-empty store, `replace(pos, length, sourceRuns)`
with `length ≥ 1`, `pos + length ≤ size()` and a non-empty source that has no two adjacent
runs of equal value (its lengths being values of `S`), `replace(pos, length, repeat, value)`
with `length ≥ 1` and `pos + length ≤ size()`, and `fill(v, start)` with `start < size()` all
return a store with no two adjacent runs of equal value. Left out is only the overwrite of one
cell that is a whole run of length one of another value with a neighbouring run of the new
value (`loneRunBeside`). -/
theorem canonical_kept [DecidableEq T] (s : rle T) (hc : Canonical s._list)
    (hsum : totalLength s._list = s.size) (hS : s.size ≤ npos) :
    (∀ newSize, 1 ≤ newSize → 1 ≤ s.size →
      ∃ s', s.resize newSize = .ok s' ∧ Canonical s'._list) ∧
    (∀ pos length src, 1 ≤ length → pos + length ≤ s.size → src ≠ [] → Canonical src →
      (∀ r ∈ src, r.2 ≤ npos) →
      (∀ v, src = [(v, 1)] → length = 1 → s.loneRunBeside pos v = false) →
      ∃ s', s.replace pos length src = .ok s' ∧ Canonical s'._list) ∧
    (∀ pos length rep v, 1 ≤ length → pos + length ≤ s.size →
      (length = 1 → s.loneRunBeside pos v = false) →
      ∃ s', s.replaceRepeat pos length rep v = .ok s' ∧ Canonical s'._list) ∧
    (∀ v start, start < s.size → (start + 1 = s.size → s.loneRunBeside start v = false) →
      ∃ s', s.fill v start = .ok s' ∧ Canonical s'._list) := by
  unfold rle.size at *
  have hone : ∀ (v : T) (n : Nat), Canonical [(v, n)] := fun v n => canonical_singleton _
  refine ⟨?_, ?_, ?_, ?_⟩
  · intro newSize hnew hsz
    exact resize_canonical s newSize hsum hsz hnew hc
  · intro pos length src hlen hin hsrc hcs hit hns
    obtain ⟨l, hm, hcl⟩ := merge_canonical s src pos length hsum hS hlen hin hsrc hit hc hcs hns
    exact ⟨{ s with _list := l }, hm, hcl⟩
  · intro pos length rep v hlen hin hns
    obtain ⟨l, hm, hcl⟩ := merge_canonical s [(v, length)] pos length hsum hS hlen hin
      (by simp) (by intro r hr; simp at hr; rw [hr]; show length ≤ npos; omega) hc
      (hone v length) (by
        intro w hw hl
        have hvw : v = w := by simpa using congrArg (fun l => l.map Prod.fst) hw
        rw [← hvw]; exact hns hl)
    exact ⟨{ s with _list := l }, hm, hcl⟩
  · intro v start hstart hns
    have hsub : subS s._size start = s._size - start := subS_eq _ _ (by omega) hS
    obtain ⟨l, hm, hcl⟩ := merge_canonical s [(v, s._size - start)] start (s._size - start)
      hsum hS (by omega) (by omega) (by simp)
      (by intro r hr; simp at hr; rw [hr]; show s._size - start ≤ npos; omega) hc
      (hone v _) (by
        intro w hw hl
        have hvw : v = w := by simpa using congrArg (fun l => l.map Prod.fst) hw
        rw [← hvw]; exact hns (by omega))
    refine ⟨{ s with _list := l }, ?_, hcl⟩
    simp only [rle.fill, rle.replaceRepeat, hsub]
    exact hm

/-- Witness of `canonical_kept` (C3): the one-cell overwrite `replace(3, 1, repeat, Y)` of the
first cell of the run `G x5` of `[R x3, G x5, B x2]`. -/
theorem canonical_kept_witness :
    ∃ s', rgb.replaceRepeat 3 1 1 Color.Y = .ok s' ∧ Canonical s'._list :=
  (canonical_kept rgb (by decide) (by decide) (by decide)).2.2.1 3 1 1 Color.Y (by decide)
    (by decide) (fun _ => by decide)

/-- Witness of `replace_splices` (C1): the covering splice of the comment in `_merge`,
`Y2 -> N5` over seven cells from position 2 of `[R x3, G x5, B x2]`. -/
theorem replace_splices_witness :
    ∃ s', rgb.replace 2 7 [(.Y, 2), (.N, 5)] = .ok s' ∧
      decompress s'._list = (decompress rgb._list).take 2 ++ decompress [(.Y, 2), (.N, 5)]
        ++ (decompress rgb._list).drop (2 + 7) ∧
      ∀ j, (decompress s'._list)[2 + totalLength [(Color.Y, 2), (Color.N, 5)] + j]?
        = (decompress rgb._list)[2 + 7 + j]? :=
  replace_splices rgb 2 7 [(.Y, 2), (.N, 5)] (by decide) (by decide) (by decide) (by decide)
    (by decide) (by decide)

/-- Witness of `fill_reads` (C10): `fill(Y, 4)` on `[R x3, G x5, B x2]`. -/
theorem fill_reads_witness :
    ∃ s', rgb.fill Color.Y 4 = .ok s' ∧ s'.size = rgb.size ∧
      (∀ i, 4 ≤ i → i < rgb.size → s'.at i = .ok Color.Y) ∧
      (∀ i, i < 4 → ∃ w, rgb.at i = .ok w ∧ s'.at i = .ok w) :=
  fill_reads rgb Color.Y 4 (by decide) (by decide) (by decide)

/-- Witness of `substr_slice` (C9): `substr(2, npos)` on `[R x3, G x5, B x2]`. -/
theorem substr_slice_witness :
    ∃ r, rgb.substr 2 npos = .ok r ∧ r.size = min (rgb.size - 2) npos ∧
      (npos = npos → r.size = rgb.size - 2) ∧
      totalLength r._list = r.size ∧
      ∀ i, i < r.size → ∃ v, rgb.at (2 + i) = .ok v ∧ r.at i = .ok v :=
  substr_slice rgb 2 npos (by decide) (by decide) (by decide) (by decide)


/-! ## Theorems on `resize`, `operator==`, positive lengths and `at` -/

/-- C11. `resize` growing: on a non-empty store whose run lengths sum to `size()` and whose
last run is not empty, for `newSize > size()`, `resize(newSize)` returns; the run list is the
old one with only the last run's length increased by `newSize - size()`, `size()` is
`newSize`, every old position reads the value it read before, and every new position reads
the value that was at `size() - 1`. -/
theorem resize_grows (s : rle T) (newSize : Nat) (hsum : totalLength s._list = s.size)
    (hsz : 1 ≤ s.size) (hnew : s.size < newSize) (hN : newSize ≤ npos)
    (hlast : ∀ b ∈ s._list.getLast?, 1 ≤ b.2) :
    ∃ ini b s', s._list = ini ++ [b] ∧ s.resize newSize = .ok s' ∧
      s'._list = ini ++ [(b.1, b.2 + (newSize - s.size))] ∧ s'.size = newSize ∧
      (∀ i, i < s.size → ∃ v, s.at i = .ok v ∧ s'.at i = .ok v) ∧
      ∃ w, s.at (s.size - 1) = .ok w ∧ ∀ i, s.size ≤ i → i < newSize → s'.at i = .ok w := by
  unfold rle.size at *
  have hne : s._list ≠ [] := by
    intro h; rw [h] at hsum; simp at hsum; omega
  obtain ⟨ini, b, hl⟩ := exists_concat_of_ne_nil _ hne
  have hb : 1 ≤ b.2 := hlast b (by rw [hl]; simp)
  have htot : totalLength ini + b.2 = s._size := by
    rw [← hsum, hl]; simp
  have hD : decompress s._list = decompress ini ++ List.replicate b.2 b.1 := by
    rw [hl]; simp
  have hD' : decompress (ini ++ [(b.1, b.2 + (newSize - s._size))])
      = decompress s._list ++ List.replicate (newSize - s._size) b.1 := by
    rw [hD]
    simp only [decompress_append, decompress_cons, decompress_nil, List.replicate_add,
      List.append_assoc, List.append_nil]
  have hlen' : totalLength (ini ++ [(b.1, b.2 + (newSize - s._size))]) = newSize := by
    simp; omega
  refine ⟨ini, b, ⟨ini ++ [(b.1, b.2 + (newSize - s._size))], newSize⟩, hl,
    resize_grow s newSize ini b hl hsum hnew hN, rfl, rfl, ?_, b.1, ?_, ?_⟩
  · intro i hi
    obtain ⟨v, hv, hg⟩ := at_spec s i hi (by omega)
    obtain ⟨v', hv', hg'⟩ := at_spec ⟨ini ++ [(b.1, b.2 + (newSize - s._size))], newSize⟩ i
      (by show i < newSize; omega) (by rw [hlen']; omega)
    simp only [hD'] at hg'
    rw [List.getElem?_append_left (by rw [length_decompress]; omega), hg] at hg'
    simp only [Option.some.injEq] at hg'
    exact ⟨v, hv, by rw [hv', hg']⟩
  · obtain ⟨v, hv, hg⟩ := at_spec s (s._size - 1) (by omega) (by omega)
    have := getElem?_decompress_split ini b [] (s._size - 1) (by omega) (by omega)
    rw [← hl, hg] at this
    simp only [Option.some.injEq] at this
    rw [hv, this]
  · intro i h1 h2
    obtain ⟨v', hv', hg'⟩ := at_spec ⟨ini ++ [(b.1, b.2 + (newSize - s._size))], newSize⟩ i
      h2 (by rw [hlen']; exact h2)
    simp only [hD'] at hg'
    rw [List.getElem?_append_right (by rw [length_decompress]; omega), length_decompress,
      List.getElem?_replicate] at hg'
    have : i - totalLength s._list < newSize - s._size := by omega
    simp only [this, if_true, Option.some.injEq] at hg'
    rw [hv', hg']

/-- C12. `resize` shrinking: on a store whose run lengths sum to `size()`, for
`1 ≤ newSize ≤ size()`, `resize(newSize)` returns a store of size `newSize` whose run lengths
sum to `newSize` and in which every position below `newSize` reads the value it read before.
With `newSize = size()` nothing that can be read changes; the run list itself is the same
when no run is empty. -/
theorem resize_shrinks (s : rle T) (newSize : Nat) (hsum : totalLength s._list = s.size)
    (hS : s.size ≤ npos) (h1 : 1 ≤ newSize) (hle : newSize ≤ s.size) :
    ∃ s', s.resize newSize = .ok s' ∧ s'.size = newSize ∧ totalLength s'._list = newSize ∧
      (∀ i, i < newSize → ∃ v, s.at i = .ok v ∧ s'.at i = .ok v) ∧
      (newSize = s.size → Positive s._list → s' = s) := by
  unfold rle.size at *
  obtain ⟨pre, r, rest, hl, hlo, hhi, hres⟩ := resize_shrink s newSize hsum hS h1 hle
  have hlen' : totalLength (pre ++ [(r.1, newSize - totalLength pre)]) = newSize := by
    simp; omega
  have htake : decompress (pre ++ [(r.1, newSize - totalLength pre)])
      = (decompress s._list).take newSize := by
    rw [hl, take_decompress_split pre r rest newSize (by omega) hhi]; simp
  refine ⟨⟨pre ++ [(r.1, newSize - totalLength pre)], newSize⟩, hres, rfl, hlen', ?_, ?_⟩
  · intro i hi
    obtain ⟨v, hv, hg⟩ := at_spec s i (by omega) (by omega)
    obtain ⟨v', hv', hg'⟩ := at_spec ⟨pre ++ [(r.1, newSize - totalLength pre)], newSize⟩ i
      hi (by rw [hlen']; exact hi)
    simp only [htake] at hg'
    rw [List.getElem?_take_of_lt hi, hg] at hg'
    simp only [Option.some.injEq] at hg'
    exact ⟨v, hv, by rw [hv', hg']⟩
  · intro hsame hp
    have htl : totalLength pre + r.2 + totalLength rest = s._size := by
      rw [← hsum, hl]; simp; omega
    rw [hl, positive_append_iff, positive_cons_iff] at hp
    have hrest : rest = [] := by
      cases rest with
      | nil => rfl
      | cons x t =>
        have := (positive_cons_iff x t).mp hp.2.2
        simp at htl
        omega
    have hr : newSize - totalLength pre = r.2 := by
      rw [hrest] at htl; simp at htl; omega
    cases s with
    | mk l sz =>
      simp only at hl hsame
      rw [hr, hl, hrest, hsame]

/-- C13, at the failing input: `rle() == rle(0, R)` is true although the first store has no
run and the second has one. -/
theorem eq_true_on_shorter_run_list :
    ∃ b, rle.mk1 0 Color.R = .ok b ∧ (rle.mk0 : rle Color).eq b = .ok true ∧
      b._list.length = 1 ∧ (rle.mk0 : rle Color)._list.length = 0 :=
  ⟨⟨[(.R, 0)], 0⟩, by decide, by decide, by decide, by decide⟩

/-- C14, as the spec states it, fails where a run is built from the arguments as they are: the
constructor `rle(0, R)` builds a store with one run of length 0; `replace(3, 5, [(Y,0),(N,5)])`
on `[R x3, G x5, B x2]` copies the empty run of its source; and on `[R x1, B x4]` the call
`replace(1, 2, [(R, 2^64 - 1), (G, 1)])`, whose source has positive lengths, fuses
`1 + (2^64 - 1)` in `S` and leaves `[R x0, G x1, B x2]`. -/
theorem mutators_leave_empty_run :
    rle.mk1 0 Color.R = .ok ⟨[(.R, 0)], 0⟩ ∧ ¬ Positive [(Color.R, 0)] ∧
      Positive rgb._list ∧
      rgb.replace 3 5 [(.Y, 0), (.N, 5)] = .ok ⟨[(.R, 3), (.Y, 0), (.N, 5), (.B, 2)], 10⟩ ∧
      ¬ Positive [(Color.R, 3), (Color.Y, 0), (Color.N, 5), (Color.B, 2)] ∧
      Positive (⟨[(.R, 1), (.B, 4)], 5⟩ : rle Color)._list ∧
      Positive [(Color.R, npos), (Color.G, 1)] ∧
      (⟨[(.R, 1), (.B, 4)], 5⟩ : rle Color).replace 1 2 [(.R, npos), (.G, 1)]
        = .ok ⟨[(.R, 0), (.G, 1), (.B, 2)], 5⟩ ∧
      ¬ Positive [(Color.R, 0), (Color.G, 1), (Color.B, 2)] := by
  decide

theorem fast_mk1 [DecidableEq T] (size : Nat) (v : T) (hN : size ≤ npos) :
    _merge.fast (⟨[], size⟩ : rle T) [(v, size)] 0 = some [(v, size)] := by
  have hcov : newItemsTotalCoverage [(v, size)] = size := by
    rw [newItemsTotalCoverage_eq _ (by simpa using hN)]; simp
  unfold _merge.fast
  simp only [hcov, List.length_nil]
  have hsc : _merge.singleCell v 0 ([] : List (T × Nat)) [] 0 = none := rfl
  rw [hsc]
  simp

/-- The constructor `rle(size, value)` leaves the single run `(value, size)`. -/
theorem mk1_eq [DecidableEq T] (size : Nat) (v : T) (hN : size ≤ npos) :
    rle.mk1 size v = .ok ⟨[(v, size)], size⟩ := by
  have hsub : subS size 0 = size := by
    unfold subS npos at *; omega
  have hcl : (if size = npos then subS size 0 else size) = size := by
    split
    · exact hsub
    · rfl
  have hcov : newItemsTotalCoverage [(v, size)] = size := by
    rw [newItemsTotalCoverage_eq _ (by simpa using hN)]; simp
  show rle._merge ⟨[], size⟩ [(v, subS size 0)] 0 (subS size 0) = _
  rw [hsub]
  unfold rle._merge
  simp only [hcl, hcov, if_true, fast_mk1 size v hN]

/-- C14, amended. Positive run lengths: the default constructor leaves no run and
`rle(size, value)` with `size ≥ 1` leaves one run of length `size`; and on a store with
positive run lengths that sum to `size()`, `resize(newSize)` with `newSize ≥ 1` (store
non-empty), `replace(pos, length, sourceRuns)` with `length ≥ 1`, `pos + length ≤ size()` and
non-empty source runs of positive length such that the number of cells of the result is
representable in `S`, `replace(pos, length, repeat, value)` with `length ≥ 1` and
`pos + length ≤ size()`, and `fill(v, start)` with `start < size()` return a store whose runs
all have length at least one. -/
theorem positive_kept [DecidableEq T] (s : rle T) (hp : Positive s._list)
    (hsum : totalLength s._list = s.size) (hS : s.size ≤ npos) :
    Positive (rle.mk0 : rle T)._list ∧
    (∀ size (v : T), 1 ≤ size → size ≤ npos →
      ∃ s', rle.mk1 size v = .ok s' ∧ Positive s'._list) ∧
    (∀ newSize, 1 ≤ newSize → newSize ≤ npos → 1 ≤ s.size →
      ∃ s', s.resize newSize = .ok s' ∧ Positive s'._list) ∧
    (∀ pos length src, 1 ≤ length → pos + length ≤ s.size → src ≠ [] → Positive src →
      pos + totalLength src + (s.size - (pos + length)) ≤ npos →
      ∃ s', s.replace pos length src = .ok s' ∧ Positive s'._list) ∧
    (∀ pos length rep v, 1 ≤ length → pos + length ≤ s.size →
      ∃ s', s.replaceRepeat pos length rep v = .ok s' ∧ Positive s'._list) ∧
    (∀ v start, start < s.size → ∃ s', s.fill v start = .ok s' ∧ Positive s'._list) := by
  unfold rle.size at *
  have hone : ∀ (v : T) (n : Nat), 1 ≤ n → Positive [(v, n)] := by
    intro v n hn r hr; simp at hr; rw [hr]; exact hn
  refine ⟨positive_nil, ?_, ?_, ?_, ?_, ?_⟩
  · intro size v h1 hN
    exact ⟨⟨[(v, size)], size⟩, mk1_eq size v hN, hone v size h1⟩
  · intro newSize hnew hN hsz
    by_cases hg : s._size < newSize
    · have hne : s._list ≠ [] := by
        intro h; rw [h] at hsum; simp at hsum; omega
      obtain ⟨ini, b, hl⟩ := exists_concat_of_ne_nil _ hne
      refine ⟨⟨ini ++ [(b.1, b.2 + (newSize - s._size))], newSize⟩,
        resize_grow s newSize ini b hl hsum hg hN, ?_⟩
      rw [hl, positive_append_iff] at hp
      show Positive (ini ++ [(b.1, b.2 + (newSize - s._size))])
      rw [positive_append_iff]
      refine ⟨hp.1, ?_⟩
      intro r hr
      simp at hr
      have := hp.2 b (by simp)
      rw [hr]
      show 1 ≤ b.2 + (newSize - s._size)
      omega
    · obtain ⟨pre, r, rest, hl, hlo, hhi, hres⟩ :=
        resize_shrink s newSize hsum hS hnew (by omega)
      refine ⟨⟨pre ++ [(r.1, newSize - totalLength pre)], newSize⟩, hres, ?_⟩
      rw [hl, positive_append_iff] at hp
      show Positive (pre ++ [(r.1, newSize - totalLength pre)])
      rw [positive_append_iff]
      refine ⟨hp.1, ?_⟩
      intro x hx
      simp at hx
      rw [hx]
      show 1 ≤ newSize - totalLength pre
      omega
  · intro pos length src hlen hin hsrc hps hfit
    obtain ⟨l, hm, hpl⟩ := merge_positive s src pos length hsum hS hlen hin hsrc hfit hp hps
    exact ⟨{ s with _list := l }, hm, hpl⟩
  · intro pos length rep v hlen hin
    obtain ⟨l, hm, hpl⟩ := merge_positive s [(v, length)] pos length hsum hS hlen hin
      (by simp) (by simp; omega) hp (hone v length hlen)
    exact ⟨{ s with _list := l }, hm, hpl⟩
  · intro v start hstart
    have hsub : subS s._size start = s._size - start := subS_eq _ _ (by omega) hS
    obtain ⟨l, hm, hpl⟩ := merge_positive s [(v, s._size - start)] start (s._size - start)
      hsum hS (by omega) (by omega) (by simp) (by simp; omega) hp (hone v _ (by omega))
    refine ⟨{ s with _list := l }, ?_, hpl⟩
    simp only [rle.fill, rle.replaceRepeat, hsub]
    exact hm

/-- The scan of `_at` fails only by `FAIL_FAST`. -/
theorem scan_error (position : Nat) : ∀ (l : List (T × Nat)) (idx tl : Nat) (e : Failure),
    _at.scan position l idx tl = .error e → e = .FAIL_FAST := by
  intro l
  induction l with
  | nil => intro idx tl e h; simp [_at.scan] at h; exact h.symm
  | cons r l ih =>
    intro idx tl e h
    unfold _at.scan at h
    split at h
    · cases h
    · exact ih _ _ e h

/-- C15. `at` is bounds-checked: `at(position)` fails with `E_INVALIDARG` exactly when
`position ≥ size()`; and when `position < size()` and the run lengths sum to `size()` it
returns the value of the run that covers the position. -/
theorem at_bounds_checked (s : rle T) (position : Nat) :
    (s.at position = .error .E_INVALIDARG ↔ position ≥ s.size) ∧
    (position < s.size → totalLength s._list = s.size →
      ∃ pre r rest, s._list = pre ++ r :: rest ∧ totalLength pre ≤ position ∧
        position < totalLength pre + r.2 ∧ s.at position = .ok r.1) := by
  unfold rle.size
  constructor
  · constructor
    · intro h
      by_contra hlt
      have hlt' : position < s._size := by omega
      have hge : ¬ (position ≥ s._size) := by omega
      have hnot : ¬ ¬ (position < s._size) := by omega
      unfold rle.at rle.atApplies rle._at at h
      simp only [hge, if_false, hnot] at h
      split at h
      · next e he =>
        split at he
        · next e' he' =>
          split at he'
          · cases he'; cases he; cases h
          · split at he'
            · next e'' hs =>
              cases he'; cases he
              have := scan_error position s._list 0 0 _ hs
              rw [this] at h; cases h
            · cases he'
        · next runPos applies hat =>
          split at he
          · cases he
          · cases he; cases h
      · cases h
    · intro h
      simp [rle.at, rle.atApplies, h]
  · intro hlt hsum
    obtain ⟨pre, r, rest, hl, hat, hlo, hhi⟩ := _at_spec s position hlt (by omega)
    refine ⟨pre, r, rest, hl, hlo, hhi, ?_⟩
    have hnot : ¬ (position ≥ s._size) := by omega
    have hg : s._list[pre.length]? = some r := by
      rw [hl, List.getElem?_append_right (Nat.le_refl _)]; simp
    simp [rle.at, rle.atApplies, hnot, hat, hg]

/-- C16. `at` with `applies`: on a store whose run lengths sum to `size()`, for
`position < size()`, `at(position, applies)` returns the value of the covering run and sets
`applies` to the number of positions from `position` to the end of that run; so
`applies ≥ 1`, `position + applies ≤ size()`, and `at(position + j)` returns the same value
for every `j < applies`. -/
theorem at_applies_spec (s : rle T) (position : Nat) (hsum : totalLength s._list = s.size)
    (hpos : position < s.size) :
    ∃ v applies, s.atApplies position = .ok (v, applies) ∧
      (∃ pre r rest, s._list = pre ++ r :: rest ∧ totalLength pre ≤ position ∧
        position < totalLength pre + r.2 ∧ v = r.1 ∧
        applies = totalLength pre + r.2 - position) ∧
      1 ≤ applies ∧ position + applies ≤ s.size ∧
      ∀ j, j < applies → s.at (position + j) = .ok v := by
  unfold rle.size at *
  obtain ⟨pre, r, rest, hl, hat, hlo, hhi⟩ := _at_spec s position hpos (by omega)
  have hnot : ¬ (position ≥ s._size) := by omega
  have hg : s._list[pre.length]? = some r := by
    rw [hl, List.getElem?_append_right (Nat.le_refl _)]; simp
  have htl : totalLength pre + r.2 + totalLength rest = s._size := by
    rw [← hsum, hl]; simp; omega
  refine ⟨r.1, totalLength pre + r.2 - position, by simp [rle.atApplies, hnot, hat, hg],
    ⟨pre, r, rest, hl, hlo, hhi, rfl, rfl⟩, by omega, by omega, ?_⟩
  intro j hj
  obtain ⟨w, hw, hgw⟩ := at_spec s (position + j) (by omega) (by omega)
  have := getElem?_decompress_split pre r rest (position + j) (by omega) (by omega)
  rw [← hl, hgw] at this
  simp only [Option.some.injEq] at this
  rw [hw, this]


/-- Witness of `resize_grows` (C11): `resize(14)` on `[R x3, G x5, B x2]`. -/
theorem resize_grows_witness :
    ∃ ini b s', rgb._list = ini ++ [b] ∧ rgb.resize 14 = .ok s' ∧
      s'._list = ini ++ [(b.1, b.2 + (14 - rgb.size))] ∧ s'.size = 14 ∧
      (∀ i, i < rgb.size → ∃ v, rgb.at i = .ok v ∧ s'.at i = .ok v) ∧
      ∃ w, rgb.at (rgb.size - 1) = .ok w ∧ ∀ i, rgb.size ≤ i → i < 14 → s'.at i = .ok w :=
  resize_grows rgb 14 (by decide) (by decide) (by decide) (by decide) (by decide)

/-- Witness of `resize_shrinks` (C12): `resize(4)` on `[R x3, G x5, B x2]`. -/
theorem resize_shrinks_witness :
    ∃ s', rgb.resize 4 = .ok s' ∧ s'.size = 4 ∧ totalLength s'._list = 4 ∧
      (∀ i, i < 4 → ∃ v, rgb.at i = .ok v ∧ s'.at i = .ok v) ∧
      (4 = rgb.size → Positive rgb._list → s' = rgb) :=
  resize_shrinks rgb 4 (by decide) (by decide) (by decide) (by decide)

/-- Witness of `positive_kept` (C14): the growing splice `replace(5, 2, [(Y,2),(N,5)])` on
`[R x3, G x5, B x2]`. -/
theorem positive_kept_witness :
    ∃ s', rgb.replace 5 2 [(.Y, 2), (.N, 5)] = .ok s' ∧ Positive s'._list :=
  (positive_kept rgb (by decide) (by decide) (by decide)).2.2.2.1 5 2 [(.Y, 2), (.N, 5)]
    (by decide) (by decide) (by decide) (by decide) (by decide)

/-- Witness of `at_applies_spec` (C16): position 4 of `[R x3, G x5, B x2]`. -/
theorem at_applies_spec_witness :
    ∃ v applies, rgb.atApplies 4 = .ok (v, applies) ∧
      (∃ pre r rest, rgb._list = pre ++ r :: rest ∧ totalLength pre ≤ 4 ∧
        4 < totalLength pre + r.2 ∧ v = r.1 ∧ applies = totalLength pre + r.2 - 4) ∧
      1 ≤ applies ∧ 4 + applies ≤ rgb.size ∧
      ∀ j, j < applies → rgb.at (4 + j) = .ok v :=
  at_applies_spec rgb 4 (by decide) (by decide)


/-! ## `resize(0)`, value substitution, insertion and the iterator difference -/

/-- C31. `resize(0)` is rejected: on every store `resize(0)` throws `E_INVALIDARG`; the check
is the first statement of `resize`, so the run list and the size are as they were. On a
store that is not empty (its run lengths sum to `size()`, which is at least 1) `resize`
returns for every `newSize ≥ 1`, and the store it leaves has the size `newSize`. -/
theorem resize_zero_rejected (s : rle T) :
    s.resize 0 = .error .E_INVALIDARG ∧
    (totalLength s._list = s.size → 1 ≤ s.size →
      ∀ newSize, 1 ≤ newSize → ∃ s', s.resize newSize = .ok s' ∧ s'.size = newSize) := by
  refine ⟨by simp [rle.resize], ?_⟩
  unfold rle.size
  intro hsum hsz newSize hnew
  have h0 : ¬ (0 = newSize) := by omega
  by_cases hg : newSize > s._size
  · have hne : s._list ≠ [] := by
      intro h
      rw [h] at hsum
      simp at hsum
      omega
    obtain ⟨ini, b, hl⟩ := exists_concat_of_ne_nil _ hne
    have hgl : s._list.getLast? = some b := by rw [hl]; simp
    exact ⟨⟨setBack s._list (b.1, subS (addS b.2 newSize) s._size), newSize⟩,
      by simp only [rle.resize, h0, if_false, hg, if_true, hgl], rfl⟩
  · obtain ⟨pre, r, rest, hl, hat, _, _⟩ := _at_spec s (newSize - 1) (by omega) (by omega)
    have hget : s._list[pre.length]? = some r := by
      rw [hl, List.getElem?_append_right (Nat.le_refl _)]; simp
    exact ⟨⟨s._list.take pre.length ++ [(r.1, addS (subS r.2
      (totalLength pre + r.2 - (newSize - 1))) 1)], newSize⟩,
      by simp only [rle.resize, h0, if_false, hg, hat, hget], rfl⟩

/-- Witness of `resize_zero_rejected` (C31): `resize(0)` and `resize(4)` on
`[R x3, G x5, B x2]`. -/
theorem resize_zero_rejected_witness :
    rgb.resize 0 = .error .E_INVALIDARG ∧ totalLength rgb._list = rgb.size ∧
      ∃ s', rgb.resize 4 = .ok s' ∧ s'.size = 4 :=
  ⟨(resize_zero_rejected rgb).1, by decide,
    (resize_zero_rejected rgb).2 (by decide) (by decide) 4 (by decide)⟩

/-- C32. Value substitution: `replace(oldValue, newValue)` leaves the size, the number of
runs and the length of every run as they were; at every position where `at` returned a value
before, it returns `newValue` if that value was `oldValue` and the same value otherwise; and
on a store whose run lengths sum to `size()` `at` returns a value at every `i < size()`. -/
theorem replaceValue_substitutes [DecidableEq T] (s : rle T) (oldValue newValue : T) :
    (s.replaceValue oldValue newValue).size = s.size ∧
    (s.replaceValue oldValue newValue)._list.length = s._list.length ∧
    (s.replaceValue oldValue newValue)._list.map Prod.snd = s._list.map Prod.snd ∧
    (∀ i v, s.at i = .ok v →
      (s.replaceValue oldValue newValue).at i
        = .ok (if v = oldValue then newValue else v)) ∧
    (totalLength s._list = s.size → ∀ i, i < s.size → ∃ v, s.at i = .ok v) := by
  refine ⟨rfl, by simp [rle.replaceValue], ?_, ?_, ?_⟩
  · simp only [rle.replaceValue, List.map_map]
    apply List.map_congr_left
    intro r _
    simp only [Function.comp]
    split <;> rfl
  · intro i v h
    exact at_replaceValue s oldValue newValue i v h
  · unfold rle.size
    intro hsum i hi
    obtain ⟨v, hv, _⟩ := at_spec s i hi (by omega)
    exact ⟨v, hv⟩

/-- Witness of `replaceValue_substitutes` (C32): `replace(G, Y)` on `[R x3, G x5, B x2]`
reads `Y` at position 4, where `G` was, and `R` at position 0. -/
theorem replaceValue_substitutes_witness :
    rgb.at 4 = .ok .G ∧ (rgb.replaceValue .G .Y).at 4 = .ok .Y ∧
      rgb.at 0 = .ok .R ∧ (rgb.replaceValue .G .Y).at 0 = .ok .R :=
  ⟨by decide, (replaceValue_substitutes rgb .G .Y).2.2.2.1 4 .G (by decide),
    by decide, (replaceValue_substitutes rgb .G .Y).2.2.2.1 0 .R (by decide)⟩

/-- C33, at the failing input: on `[R x3, G x5, B x2]` the insertion
`replace(0, 0, [(Y,2),(N,5)])` does not return: with `startIndex = 0` and cover length 0 the
index `endIndex` is `0 - 1` in `S`, the skip loop runs to the end of the run list and stops
at its `FAIL_FAST_IF`. The same insertion at `startIndex = 2` gives
`[R x2, Y x2, N x5, R x1, G x5, B x2]`, the 17 cells of the comment in `_merge`. -/
theorem insertion_at_zero_fails :
    rgb.replace 0 0 [(.Y, 2), (.N, 5)] = .error .FAIL_FAST ∧
      rgb.replace 2 0 [(.Y, 2), (.N, 5)]
        = .ok ⟨[(.R, 2), (.Y, 2), (.N, 5), (.R, 1), (.G, 5), (.B, 2)], 10⟩ ∧
      totalLength [(Color.R, 2), (Color.Y, 2), (Color.N, 5), (Color.R, 1), (Color.G, 5),
        (Color.B, 2)] = 17 := by
  decide

/-- C36, as the spec states it: on the store `[R x2]`, canonical and with positive lengths,
the call `replace(1, 1, [(R, 2^64 - 1), (G, 2)])`, whose source is canonical with positive
lengths and a coverage of at least 2, returns with the run list `[R x0, G x2]`: the fused
length `1 + (2^64 - 1)` is summed in `S` and wraps to 0. -/
theorem splice_wraps_to_empty_run :
    Canonical (⟨[(.R, 2)], 2⟩ : rle Color)._list ∧
      Positive (⟨[(.R, 2)], 2⟩ : rle Color)._list ∧
      Canonical [(Color.R, npos), (Color.G, 2)] ∧ Positive [(Color.R, npos), (Color.G, 2)] ∧
      2 ≤ totalLength [(Color.R, npos), (Color.G, 2)] ∧
      (⟨[(.R, 2)], 2⟩ : rle Color).replace 1 1 [(.R, npos), (.G, 2)]
        = .ok ⟨[(.R, 0), (.G, 2)], 2⟩ ∧
      ¬ ∀ r ∈ [(Color.R, 0), (Color.G, 2)], r.2 ≠ 0 := by
  decide

/-- C36, amended. The general splice keeps canonical form: on a store whose runs have positive
lengths that sum to `size()` and no two adjacent runs of equal value, `replace(pos, length,
src)` with `length ≥ 1`, `pos + length ≤ size()` and a source with positive lengths, no two
adjacent runs of equal value and a total coverage of at least 2, such that the number of cells
of the result is representable in `S`, returns, and the run list it leaves has no two adjacent
runs of equal value and no run of length 0. -/
theorem splice_keeps_canonical [DecidableEq T] (s : rle T) (pos length : Nat)
    (src : List (T × Nat)) (hsum : totalLength s._list = s.size) (hS : s.size ≤ npos)
    (hc : Canonical s._list) (hp : Positive s._list) (hlen : 1 ≤ length)
    (hin : pos + length ≤ s.size) (hcs : Canonical src) (hps : Positive src)
    (h2 : 2 ≤ totalLength src)
    (hfit : pos + totalLength src + (s.size - (pos + length)) ≤ npos) :
    ∃ s', s.replace pos length src = .ok s' ∧ Canonical s'._list ∧
      ∀ r ∈ s'._list, r.2 ≠ 0 := by
  unfold rle.size at *
  have hne : src ≠ [] := by
    intro h
    rw [h] at h2
    simp at h2
  obtain ⟨l, hl, hcl⟩ := merge_canonical s src pos length hsum hS hlen hin hne
    (items_le_of_total src (by omega)) hc hcs (by
      intro v hv
      rw [hv] at h2
      simp at h2)
  obtain ⟨l2, hl2, hpl⟩ := merge_positive s src pos length hsum hS hlen hin hne hfit hp hps
  rw [hl] at hl2
  simp only [Except.ok.injEq, rle.mk.injEq, and_true] at hl2
  subst hl2
  refine ⟨{ s with _list := l }, hl, hcl, ?_⟩
  intro r hr
  have := hpl r hr
  omega

/-- Witness of `splice_keeps_canonical` (C36): the growing splice
`replace(5, 2, [(Y,2),(N,5)])` on `[R x3, G x5, B x2]`. -/
theorem splice_keeps_canonical_witness :
    ∃ s', rgb.replace 5 2 [(.Y, 2), (.N, 5)] = .ok s' ∧ Canonical s'._list ∧
      ∀ r ∈ s'._list, r.2 ≠ 0 :=
  splice_keeps_canonical rgb 5 2 [(.Y, 2), (.N, 5)] (by decide) (by decide) (by decide)
    (by decide) (by decide) (by decide) (by decide) (by decide) (by decide) (by decide)

/-- C38, at the failing input: on `[R x3, G x5, B x2]` the iterators `begin() + 0` and
`begin() + 9` are at the first cell of the first run and at the second cell of the third run.
`(begin() + 9) - (begin() + 0)` is 9, while `(begin() + 0) - (begin() + 9)` is -4 and not
-9: the loop for a right operand that is further right subtracts `_usage` of the left operand
in every round. -/
theorem iterator_difference_not_positional :
    rle_const_iterator.add rgb._list rgb.begin 0 = .ok ⟨0, 1⟩ ∧
      rle_const_iterator.add rgb._list rgb.begin 9 = .ok ⟨2, 2⟩ ∧
      rle_const_iterator.sub rgb._list ⟨2, 2⟩ ⟨0, 1⟩ = .ok 9 ∧
      rle_const_iterator.sub rgb._list ⟨0, 1⟩ ⟨2, 2⟩ = .ok (-4) := by
  decide

end til
namespace TerminalApp

/-! ## The walk of `_SnapSizeUpwards` from the minimum-size tree -/

theorem treeAfter_size (p : Pane) (w : Bool) (k : ℕ) :
    (p.treeAfter w k).size = p.sizeAfter w k := by
  cases p <;> simp [Pane.treeAfter, LayoutSizeNode.size]

theorem advances_succ_cases (m : PaneState) (w : Bool) (F S : ℕ → ℚ) (k : ℕ) :
    advances m w F S (k + 1) = advances m w F S k ∨
      advances m w F S (k + 1) = advances m w F S k + 1 := by
  simp only [advances]
  split
  · exact Or.inr rfl
  · exact Or.inl rfl

theorem advances_le (m : PaneState) (w : Bool) (F S : ℕ → ℚ) : ∀ k, advances m w F S k ≤ k := by
  intro k
  induction k with
  | zero => simp [advances]
  | succ k ih =>
    rcases advances_succ_cases m w F S k with h | h <;> omega

theorem advances_mono (m : PaneState) (w : Bool) (F S : ℕ → ℚ) :
    ∀ i k, i ≤ k → advances m w F S i ≤ advances m w F S k := by
  intro i k hik
  induction k with
  | zero =>
    have : i = 0 := by omega
    rw [this]
  | succ k ih =>
    by_cases h : i = k + 1
    · rw [h]
    · have := ih (by omega)
      rcases advances_succ_cases m w F S k with h | h <;> omega

theorem rest_mono (m : PaneState) (w : Bool) (F S : ℕ → ℚ) :
    ∀ i k, i ≤ k → i - advances m w F S i ≤ k - advances m w F S k := by
  intro i k hik
  induction k with
  | zero =>
    have : i = 0 := by omega
    rw [this]
  | succ k ih =>
    by_cases h : i = k + 1
    · rw [h]
    · have := ih (by omega)
      have := advances_le m w F S k
      rcases advances_succ_cases m w F S k with h | h <;> omega

theorem leafSizeAfter_mono (c : TermControl) (w : Bool) (hc : PositiveCell w c)
    (hs : SnapsDown w c) : Monotone (leafSizeAfter c w) := by
  apply monotone_nat_of_le_succ
  intro k
  cases k with
  | zero =>
    obtain ⟨n, _, hle, hlt⟩ := hs (c.minDimension w + 1) (by linarith)
    simp only [leafSizeAfter, TermControl.firstSnap]
    split
    · simp; linarith
    · simp; linarith
  | succ k =>
    simp only [leafSizeAfter]
    unfold PositiveCell at hc
    push_cast
    linarith

theorem sizeOfChildren_mono (m : PaneState) (w : Bool) (x x' y y' : ℚ) (hx : x ≤ x')
    (hy : y ≤ y') : m.sizeOfChildren w x y ≤ m.sizeOfChildren w x' y' := by
  simp only [PaneState.sizeOfChildren]
  split
  · exact max_le_max hx hy
  · linarith

/-- On a well-formed tree whose controls snap down to their grids the sizes along the walk
never decrease. -/
theorem sizeAfter_mono (w : Bool) : ∀ p : Pane, p.WellFormed →
    p.EveryControl (PositiveCell w) → p.EveryControl (SnapsDown w) →
    Monotone (p.sizeAfter w) := by
  intro p
  induction p with
  | childless m =>
    intro hwf hcell hsnap
    obtain ⟨hs, hc⟩ := hwf
    obtain ⟨c, hc⟩ := Option.isSome_iff_exists.mp hc
    intro i k hik
    simp only [Pane.sizeAfter, hc]
    exact leafSizeAfter_mono c w (hcell c hc) (hsnap c hc) hik
  | parent m a b iha ihb =>
    intro hwf hcell hsnap
    obtain ⟨hs, ha, hb⟩ := hwf
    intro i k hik
    simp only [Pane.sizeAfter]
    exact sizeOfChildren_mono m w _ _ _ _
      (iha ha hcell.1 hsnap.1 (advances_mono m w _ _ i k hik))
      (ihb hb hcell.2 hsnap.2 (rest_mono m w _ _ i k hik))

/-! ## The loop of `_CalcSnappedPaneDimensions` -/

theorem gridControl_snapsDown (id : Nat) (minSize cellSize : Size) (focused : Bool) (w : Bool)
    (hcell : PositiveCell w (gridControl id minSize cellSize focused)) :
    SnapsDown w (gridControl id minSize cellSize focused) := by
  have key : ∀ mn cell d : ℚ, 0 < cell → mn < d →
      ∃ k : ℕ, mn + cell * ⌊(d - mn) / cell⌋ = mn + k * cell ∧
        mn + cell * ⌊(d - mn) / cell⌋ ≤ d ∧ d < mn + cell * ⌊(d - mn) / cell⌋ + cell := by
    intro mn cell d hc hd
    have hpos : 0 ≤ (d - mn) / cell := le_of_lt (div_pos (by linarith) hc)
    have hfl : (0 : ℤ) ≤ ⌊(d - mn) / cell⌋ := Int.floor_nonneg.mpr hpos
    have h1 : (⌊(d - mn) / cell⌋ : ℚ) ≤ (d - mn) / cell := Int.floor_le _
    have h2 : (d - mn) / cell < ⌊(d - mn) / cell⌋ + 1 := Int.lt_floor_add_one _
    have h1' : (⌊(d - mn) / cell⌋ : ℚ) * cell ≤ d - mn := (le_div_iff₀ hc).mp h1
    have h2' : d - mn < (⌊(d - mn) / cell⌋ + 1) * cell := (div_lt_iff₀ hc).mp h2
    refine ⟨⌊(d - mn) / cell⌋.toNat, ?_, by linarith, by linarith⟩
    have hcast : ((⌊(d - mn) / cell⌋.toNat : ℕ) : ℚ) = (⌊(d - mn) / cell⌋ : ℚ) := by
      have := Int.toNat_of_nonneg hfl
      exact_mod_cast this
    rw [hcast]
    ring
  intro d hd
  cases w with
  | true => exact key _ _ d hcell hd
  | false => exact key _ _ d hcell hd

theorem exampleControl_positiveCell (id : Nat) (w : Bool) : PositiveCell w (exampleControl id) := by
  cases w <;> norm_num [PositiveCell, TermControl.cellDimension, exampleControl, gridControl]

theorem exampleControl_snapsDown (id : Nat) (w : Bool) : SnapsDown w (exampleControl id) :=
  gridControl_snapsDown id _ _ _ w (exampleControl_positiveCell id w)

theorem twoLeaves_wellFormed : twoLeaves.WellFormed :=
  ⟨by decide, ⟨rfl, rfl⟩, ⟨rfl, rfl⟩⟩

theorem twoLeaves_snapsDown (w : Bool) : twoLeaves.EveryControl (SnapsDown w) := by
  refine ⟨?_, ?_⟩
  · intro c hc
    cases hc
    exact exampleControl_snapsDown 1 w
  · intro c hc
    cases hc
    exact exampleControl_snapsDown 2 w


/-! ## `_Split` and the layout it asks for -/

/-- What `Split` returns on a leaf when the layout of the new node returns. -/
theorem split_leaf_of_layout (m : PaneState) (fuel : Nat) (splitType : SplitState)
    (profile : GUID) (control : TermControl) (ownProfile : GUID) (ownControl : TermControl)
    (hs : m._splitState = .None) (hp : m._profile = some ownProfile)
    (hc : m._control = some ownControl)
    (hlayout : (Pane.parent
        { m with
          _splitState := splitType
          _desiredSplitPosition := Half
          _profile := none
          _control := none }
        (Pane.ctor ownProfile ownControl false)
        (Pane.ctor profile control false))._CreateSplitContent fuel = some (.ok ())) :
    Pane.Split fuel (.childless m) splitType profile control
      = some (.ok (.parent
          { m with
            _splitState := splitType
            _desiredSplitPosition := Half
            _profile := none
            _control := none
            _lastFocused := false }
          (Pane.ctor ownProfile ownControl false) (Pane.ctor profile control false))) := by
  simp only [Pane.Split, Pane._Split, Pane.m, hs, hp, hc, ne_eq, not_true_eq_false, if_false,
    hlayout]

/-- Whatever `Split` returns on a leaf is the node with the two new leaves. -/
theorem split_leaf_result (m : PaneState) (fuel : Nat) (splitType : SplitState)
    (profile : GUID) (control : TermControl) (q : Pane) (hs : m._splitState = .None)
    (h : Pane.Split fuel (.childless m) splitType profile control = some (.ok q)) :
    ∃ ownProfile ownControl, m._profile = some ownProfile ∧ m._control = some ownControl ∧
      q = .parent
          { m with
            _splitState := splitType
            _desiredSplitPosition := Half
            _profile := none
            _control := none
            _lastFocused := false }
          (Pane.ctor ownProfile ownControl false) (Pane.ctor profile control false) := by
  simp only [Pane.Split, Pane._Split, Pane.m, hs, ne_eq, not_true_eq_false, if_false] at h
  cases hc : m._control with
  | none => simp [hc] at h
  | some ownControl =>
    cases hp : m._profile with
    | none => simp [hc, hp] at h
    | some ownProfile =>
      simp only [hc, hp] at h
      refine ⟨ownProfile, ownControl, rfl, rfl, ?_⟩
      split at h
      · cases h
      · cases h
      · simp only [Option.some.injEq, Except.ok.injEq] at h
        exact h.symm

theorem ctor_wellFormed (profile : GUID) (control : TermControl) (lastFocused : Bool) :
    (Pane.ctor profile control lastFocused).WellFormed := ⟨rfl, rfl⟩

/-- `Split` with a split type other than `None` keeps the tree well-formed. -/
theorem split_wellFormed (fuel : Nat) (splitType : SplitState) (profile : GUID)
    (control : TermControl) (hne : splitType ≠ .None) : ∀ p q : Pane, p.WellFormed →
    Pane.Split fuel p splitType profile control = some (.ok q) → q.WellFormed := by
  intro p
  induction p with
  | childless m =>
    intro q hwf h
    obtain ⟨p', c', _, _, hq⟩ := split_leaf_result m fuel splitType profile control q hwf.1 h
    rw [hq]
    exact ⟨hne, ctor_wellFormed _ _ _, ctor_wellFormed _ _ _⟩
  | parent m a b iha ihb =>
    intro q hwf h
    obtain ⟨hs, ha, hb⟩ := hwf
    simp only [Pane.Split, ne_eq, hs, not_false_eq_true, if_true] at h
    by_cases hfa : a._HasFocusedChild = true
    · simp only [hfa, if_true] at h
      split at h
      · cases h
      · cases h
      · next a' ha' =>
        simp only [Option.some.injEq, Except.ok.injEq] at h
        rw [← h]
        exact ⟨hs, iha a' ha ha', hb⟩
    · simp only [hfa, Bool.false_eq_true, if_false] at h
      by_cases hfb : b._HasFocusedChild = true
      · simp only [hfb, if_true] at h
        split at h
        · cases h
        · cases h
        · next b' hb' =>
          simp only [Option.some.injEq, Except.ok.injEq] at h
          rw [← h]
          exact ⟨hs, ha, ihb b' hb hb'⟩
      · simp only [hfb, Bool.false_eq_true, if_false, Option.some.injEq, Except.ok.injEq] at h
        rw [← h]
        exact ⟨hs, ha, hb⟩

/-- `_CloseChild` keeps a tree well-formed. -/
theorem closeChild_wellFormed (closeFirst : Bool) (n q : Pane) (hwf : n.WellFormed)
    (h : n._CloseChild closeFirst = .ok q) : q.WellFormed := by
  cases n with
  | childless m =>
    simp only [Pane._CloseChild, hwf.1, if_true, Except.ok.injEq] at h
    rw [← h]
    exact hwf
  | parent m a b =>
    obtain ⟨hs, ha, hb⟩ := hwf
    have key : ∀ closed remaining : Pane, remaining.WellFormed →
        Pane._CloseChild.body m a b closed remaining = .ok q → q.WellFormed := by
      intro closed remaining hrem hq
      unfold Pane._CloseChild.body at hq
      by_cases hleaf : remaining._IsLeaf = true
      · rw [if_pos hleaf] at hq
        split at hq
        · cases hq
        · split at hq
          · cases hq
          · cases hq
            exact ⟨rfl, rfl⟩
      · rw [if_neg hleaf] at hq
        cases remaining with
        | childless r => cases hq
        | parent r ra rb =>
          simp only at hq
          split at hq
          · cases hq
          · split at hq
            · split at hq
              · cases hq
              · cases hq
                exact ⟨hrem.1, hrem.2.1, hrem.2.2⟩
            · cases hq
              exact ⟨hrem.1, hrem.2.1, hrem.2.2⟩
    simp only [Pane._CloseChild, hs, if_false] at h
    cases closeFirst with
    | true => exact key a b hb h
    | false => exact key b a ha h

/-- A call that keeps every tree well-formed keeps the tree well-formed when it is made on
one of its nodes. -/
theorem applyAt_wellFormed (f : Pane → Except PaneFailure Pane)
    (hf : ∀ n q, n.WellFormed → f n = .ok q → q.WellFormed) :
    ∀ (p : Pane) (path : List Bool) (q : Pane), p.WellFormed → p.applyAt f path = .ok q →
      q.WellFormed := by
  intro p
  induction p with
  | childless m =>
    intro path q hwf h
    cases path with
    | nil => exact hf _ _ hwf h
    | cons x path =>
      simp only [Pane.applyAt, Except.ok.injEq] at h
      rw [← h]
      exact hwf
  | parent m a b iha ihb =>
    intro path q hwf h
    cases path with
    | nil => exact hf _ _ hwf h
    | cons x path =>
      cases x with
      | true =>
        simp only [Pane.applyAt] at h
        split at h
        · cases h
        · next a' ha' =>
          cases h
          exact ⟨hwf.1, iha path a' hwf.2.1 ha', hwf.2.2⟩
      | false =>
        simp only [Pane.applyAt] at h
        split at h
        · cases h
        · next b' hb' =>
          cases h
          exact ⟨hwf.1, hwf.2.1, ihb path b' hwf.2.2 hb'⟩

/-- `UpdateFocus` returns on a well-formed tree and keeps it well-formed. -/
theorem updateFocus_wellFormed : ∀ p : Pane, p.WellFormed →
    ∃ q, p.UpdateFocus = .ok q ∧ q.WellFormed := by
  intro p
  induction p with
  | childless m =>
    intro hwf
    refine ⟨.childless { m with _lastFocused := m.controlFocused }, ?_, hwf.1, hwf.2⟩
    simp only [Pane.UpdateFocus]
    rw [if_pos hwf.1]
  | parent m a b iha ihb =>
    intro hwf
    obtain ⟨a', ha', hwa⟩ := iha hwf.2.1
    obtain ⟨b', hb', hwb⟩ := ihb hwf.2.2
    refine ⟨.parent { m with _lastFocused := false } a' b', ?_, hwf.1, hwa, hwb⟩
    simp only [Pane.UpdateFocus, ha', hb']
    rw [if_neg hwf.1]

theorem withFocus_wellFormed (focus : Nat → Bool) : ∀ p : Pane, p.WellFormed →
    (p.withFocus focus).WellFormed := by
  intro p
  induction p with
  | childless m =>
    intro hwf
    refine ⟨hwf.1, ?_⟩
    obtain ⟨c, hc⟩ := Option.isSome_iff_exists.mp hwf.2
    simp [hc]
  | parent m a b iha ihb =>
    intro hwf
    exact ⟨hwf.1, iha hwf.2.1, ihb hwf.2.2⟩

/-- Every reachable tree is well-formed. -/
theorem reachable_wellFormed (p : Pane) (h : p.Reachable) : p.WellFormed := by
  induction h with
  | leaf profile control lastFocused => exact ctor_wellFormed _ _ _
  | split fuel splitType profile control _ hne hs ih =>
    exact split_wellFormed fuel splitType profile control hne _ _ ih hs
  | closeChild path closeFirst _ hc ih =>
    exact applyAt_wellFormed _ (closeChild_wellFormed closeFirst) _ path _ ih hc
  | updateFocus _ hu ih =>
    obtain ⟨q, hq, hwf⟩ := updateFocus_wellFormed _ ih
    rw [hq] at hu
    cases hu
    exact hwf
  | refocus focus _ ih => exact withFocus_wellFormed focus _ ih

/-- In a well-formed tree a node has the split state `None` exactly when it has no
children. -/
theorem wellFormed_nodes : ∀ p : Pane, p.WellFormed → ∀ n ∈ p.nodes,
    (n.m._splitState = .None ↔ n.hasNoChildren = true) := by
  intro p
  induction p with
  | childless m =>
    intro hwf n hn
    simp only [Pane.nodes, List.mem_singleton] at hn
    rw [hn]
    simp [Pane.m, Pane.hasNoChildren, hwf.1]
  | parent m a b iha ihb =>
    intro hwf n hn
    simp only [Pane.nodes, List.mem_cons, List.mem_append] at hn
    rcases hn with hn | hn | hn
    · rw [hn]
      simp [Pane.m, Pane.hasNoChildren, hwf.1]
    · exact iha hwf.2.1 n hn
    · exact ihb hwf.2.2 n hn


/-! ## The `_lastFocused` flags under `Split`, `_CloseChild` and `UpdateFocus` -/

/-- Whatever `_Split` returns is the node with the two new leaves. -/
theorem split_result (p : Pane) (fuel : Nat) (splitType : SplitState) (profile : GUID)
    (control : TermControl) (q : Pane)
    (h : p._Split fuel splitType profile control = some (.ok q)) :
    ∃ ownProfile ownControl, q = .parent
        { p.m with
          _splitState := splitType
          _desiredSplitPosition := Half
          _profile := none
          _control := none
          _lastFocused := false }
        (Pane.ctor ownProfile ownControl false) (Pane.ctor profile control false) := by
  simp only [Pane._Split] at h
  cases hc : p.m._control with
  | none => simp [hc] at h
  | some ownControl =>
    cases hp : p.m._profile with
    | none => simp [hc, hp] at h
    | some ownProfile =>
      simp only [hc, hp] at h
      refine ⟨ownProfile, ownControl, ?_⟩
      split at h
      · cases h
      · cases h
      · simp only [Option.some.injEq, Except.ok.injEq] at h
        exact h.symm

theorem split_result_flags (p : Pane) (fuel : Nat) (splitType : SplitState) (profile : GUID)
    (control : TermControl) (q : Pane)
    (h : p._Split fuel splitType profile control = some (.ok q)) :
    q.flaggedLeaves = 0 ∧ q.flaggedInternal = 0 := by
  obtain ⟨p', c', hq⟩ := split_result p fuel splitType profile control q h
  rw [hq]
  simp [Pane.flaggedLeaves, Pane.flaggedInternal, Pane.ctor]

/-- `Split` sets no `_lastFocused` flag. -/
theorem split_flags (fuel : Nat) (splitType : SplitState) (profile : GUID)
    (control : TermControl) : ∀ p q : Pane,
    Pane.Split fuel p splitType profile control = some (.ok q) →
    q.flaggedLeaves ≤ p.flaggedLeaves ∧ q.flaggedInternal ≤ p.flaggedInternal := by
  intro p
  induction p with
  | childless m =>
    intro q h
    simp only [Pane.Split] at h
    split at h
    · cases h
    · obtain ⟨h1, h2⟩ := split_result_flags _ fuel splitType profile control q h
      rw [h1, h2]
      exact ⟨Nat.zero_le _, Nat.zero_le _⟩
  | parent m a b iha ihb =>
    intro q h
    simp only [Pane.Split] at h
    split at h
    · split at h
      · split at h
        · cases h
        · cases h
        · next a' ha' =>
          cases h
          obtain ⟨h1, h2⟩ := iha a' ha'
          simp only [Pane.flaggedLeaves, Pane.flaggedInternal]
          omega
      · split at h
        · split at h
          · cases h
          · cases h
          · next b' hb' =>
            cases h
            obtain ⟨h1, h2⟩ := ihb b' hb'
            simp only [Pane.flaggedLeaves, Pane.flaggedInternal]
            omega
        · cases h
          exact ⟨le_refl _, le_refl _⟩
    · obtain ⟨h1, h2⟩ := split_result_flags _ fuel splitType profile control q h
      rw [h1, h2]
      exact ⟨Nat.zero_le _, Nat.zero_le _⟩

theorem rootFlag_le (x : Pane) (h : x.flaggedInternal = 0) :
    (if x.m._lastFocused = true then 1 else 0) ≤ x.flaggedLeaves := by
  cases x with
  | childless m => exact le_refl _
  | parent m a b =>
    simp only [Pane.flaggedInternal] at h
    simp only [Pane.m]
    split
    · next hl =>
      rw [if_pos hl] at h
      omega
    · exact Nat.zero_le _

theorem closeChild_body_flags (m : PaneState) (a b closed remaining q : Pane)
    (hm : m._lastFocused = false) (ha : a.flaggedInternal = 0) (hb : b.flaggedInternal = 0)
    (hrem : remaining.flaggedLeaves ≤ a.flaggedLeaves + b.flaggedLeaves)
    (hremi : remaining.flaggedInternal = 0)
    (h : Pane._CloseChild.body m a b closed remaining = .ok q) :
    q.flaggedLeaves ≤ a.flaggedLeaves + b.flaggedLeaves ∧ q.flaggedInternal = 0 := by
  unfold Pane._CloseChild.body at h
  by_cases hleaf : remaining._IsLeaf = true
  · rw [if_pos hleaf] at h
    split at h
    · cases h
    · split at h
      · cases h
      · cases h
        refine ⟨?_, rfl⟩
        have h1 := rootFlag_le a ha
        have h2 := rootFlag_le b hb
        simp only [Pane.flaggedLeaves]
        cases hfa : a.m._lastFocused <;> cases hfb : b.m._lastFocused <;>
          simp [hfa, hfb] at h1 h2 ⊢ <;> omega
  · rw [if_neg hleaf] at h
    cases remaining with
    | childless r => cases h
    | parent r ra rb =>
      simp only [Pane.flaggedLeaves] at hrem
      simp only [Pane.flaggedInternal] at hremi
      have hres : (Pane.parent { m with _splitState := r._splitState } ra rb).flaggedLeaves
            ≤ a.flaggedLeaves + b.flaggedLeaves ∧
          (Pane.parent { m with _splitState := r._splitState } ra rb).flaggedInternal = 0 := by
        simp only [Pane.flaggedLeaves, Pane.flaggedInternal, hm]
        constructor
        · exact hrem
        · simp
          omega
      simp only at h
      split at h
      · cases h
      · split at h
        · split at h
          · cases h
          · cases h
            exact hres
        · cases h
          exact hres

/-- On a node without flagged inner nodes `_CloseChild` sets no new `_lastFocused` flag on
a leaf and leaves no inner node flagged. -/
theorem closeChild_flags (closeFirst : Bool) (n q : Pane) (hn : n.flaggedInternal = 0)
    (h : n._CloseChild closeFirst = .ok q) :
    q.flaggedLeaves ≤ n.flaggedLeaves ∧ q.flaggedInternal = 0 := by
  cases n with
  | childless m =>
    simp only [Pane._CloseChild] at h
    split at h
    · cases h
      exact ⟨le_refl _, hn⟩
    · cases h
  | parent m a b =>
    simp only [Pane._CloseChild] at h
    split at h
    · cases h
      exact ⟨le_refl _, hn⟩
    · simp only [Pane.flaggedInternal] at hn
      have hm : m._lastFocused = false := by
        cases hl : m._lastFocused
        · rfl
        · rw [hl] at hn
          simp at hn
      have ha : a.flaggedInternal = 0 := by omega
      have hb : b.flaggedInternal = 0 := by omega
      simp only [Pane.flaggedLeaves]
      cases closeFirst with
      | true => exact closeChild_body_flags m a b a b q hm ha hb (by omega) hb h
      | false => exact closeChild_body_flags m a b b a q hm ha hb (by omega) ha h

/-- A call that sets no new flag sets none when it is made on a node of the tree. -/
theorem applyAt_flags (f : Pane → Except PaneFailure Pane)
    (hf : ∀ n q, n.flaggedInternal = 0 → f n = .ok q →
      q.flaggedLeaves ≤ n.flaggedLeaves ∧ q.flaggedInternal = 0) :
    ∀ (p : Pane) (path : List Bool) (q : Pane), p.flaggedInternal = 0 →
      p.applyAt f path = .ok q → q.flaggedLeaves ≤ p.flaggedLeaves ∧ q.flaggedInternal = 0 := by
  intro p
  induction p with
  | childless m =>
    intro path q hp h
    cases path with
    | nil => exact hf _ _ hp h
    | cons x path =>
      simp only [Pane.applyAt, Except.ok.injEq] at h
      rw [← h]
      exact ⟨le_refl _, hp⟩
  | parent m a b iha ihb =>
    intro path q hp h
    cases path with
    | nil => exact hf _ _ hp h
    | cons x path =>
      simp only [Pane.flaggedInternal] at hp
      cases x with
      | true =>
        simp only [Pane.applyAt] at h
        split at h
        · cases h
        · next a' ha' =>
          cases h
          obtain ⟨h1, h2⟩ := iha path a' (by omega) ha'
          simp only [Pane.flaggedLeaves, Pane.flaggedInternal]
          omega
      | false =>
        simp only [Pane.applyAt] at h
        split at h
        · cases h
        · next b' hb' =>
          cases h
          obtain ⟨h1, h2⟩ := ihb path b' (by omega) hb'
          simp only [Pane.flaggedLeaves, Pane.flaggedInternal]
          omega

/-- On a well-formed tree `UpdateFocus` flags exactly the leaves whose control reports itself
focused. -/
theorem updateFocus_flags : ∀ p : Pane, p.WellFormed →
    ∃ q, p.UpdateFocus = .ok q ∧ q.flaggedLeaves = p.focusedLeaves ∧ q.flaggedInternal = 0 := by
  intro p
  induction p with
  | childless m =>
    intro hwf
    refine ⟨.childless { m with _lastFocused := m.controlFocused }, ?_, rfl, rfl⟩
    simp only [Pane.UpdateFocus]
    rw [if_pos hwf.1]
  | parent m a b iha ihb =>
    intro hwf
    obtain ⟨a', ha', hfa, hia⟩ := iha hwf.2.1
    obtain ⟨b', hb', hfb, hib⟩ := ihb hwf.2.2
    refine ⟨.parent { m with _lastFocused := false } a' b', ?_, ?_, ?_⟩
    · simp only [Pane.UpdateFocus, ha', hb']
      rw [if_neg hwf.1]
    · simp only [Pane.flaggedLeaves, Pane.focusedLeaves, hfa, hfb]
    · simp [Pane.flaggedInternal, hia, hib]


/-! ## The dispatch of `ResizePane` -/

theorem setSplitPosition_actualSize (p : Pane) (position : ℚ) :
    (p.setSplitPosition position).m._rootActualSize = p.m._rootActualSize := by
  cases p <;> rfl

theorem everyControl_imp (P Q : TermControl → Prop) (hPQ : ∀ c, P c → Q c) :
    ∀ p : Pane, p.EveryControl P → p.EveryControl Q := by
  intro p
  induction p with
  | childless m => exact fun h c hc => hPQ c (h c hc)
  | parent m a b iha ihb => exact fun h => ⟨iha h.1, ihb h.2⟩

theorem snapsDown_positive (w : Bool) (c : TermControl) (hs : SnapsDown w c) :
    PositiveCell w c := by
  obtain ⟨n, _, hle, hlt⟩ := hs (c.minDimension w + 1) (by linarith)
  unfold PositiveCell
  linarith

theorem snapsDown_positiveCell (w : Bool) (p : Pane) (h : p.EveryControl (SnapsDown w)) :
    p.EveryControl (PositiveCell w) :=
  everyControl_imp _ _ (snapsDown_positive w) p h

/-- Every snap upwards makes a leaf larger. -/
theorem leafSizeAfter_lt (c : TermControl) (w : Bool) (hs : SnapsDown w c) (k : ℕ) :
    leafSizeAfter c w k < leafSizeAfter c w (k + 1) := by
  have hc := snapsDown_positive w c hs
  cases k with
  | zero =>
    obtain ⟨n, _, hle, hlt⟩ := hs (c.minDimension w + 1) (by linarith)
    simp only [leafSizeAfter, TermControl.firstSnap]
    split
    · simp; linarith
    · simp; linarith
  | succ k =>
    simp only [leafSizeAfter]
    unfold PositiveCell at hc
    push_cast
    linarith

/-- Later trees of the walk are nowhere smaller than earlier ones. -/
theorem treeAfter_noSmaller (w : Bool) : ∀ p : Pane, p.WellFormed →
    p.EveryControl (SnapsDown w) → ∀ i j, i ≤ j →
    p.NoSmaller (p.treeAfter w i) (p.treeAfter w j) := by
  intro p
  induction p with
  | childless m =>
    intro hwf hsnap i j hij
    have hmono := sizeAfter_mono w _ hwf (snapsDown_positiveCell w _ hsnap) hsnap
    simp only [Pane.NoSmaller, treeAfter_size]
    exact hmono hij
  | parent m a b iha ihb =>
    intro hwf hsnap i j hij
    have hmono := sizeAfter_mono w _ hwf (snapsDown_positiveCell w _ hsnap) hsnap
    refine ⟨?_, ⟨_, _, rfl, rfl, iha hwf.2.1 hsnap.1 _ _ (advances_mono m w _ _ i j hij)⟩,
      ⟨_, _, rfl, rfl, ihb hwf.2.2 hsnap.2 _ _ (rest_mono m w _ _ i j hij)⟩⟩
    rw [treeAfter_size, treeAfter_size]
    exact hmono hij

theorem focusFirstChild_returns : ∀ p : Pane, p.WellFormed → p._FocusFirstChild = .ok () := by
  intro p
  induction p with
  | childless m =>
    intro hwf
    obtain ⟨hs, hc⟩ := hwf
    obtain ⟨c, hc⟩ := Option.isSome_iff_exists.mp hc
    simp [Pane._FocusFirstChild, hs, hc]
  | parent m a b iha _ =>
    intro hwf
    simp only [Pane._FocusFirstChild, hwf.1, if_false]
    exact iha hwf.2.1

/-! ## The lower bounds of `_CalcSnappedPaneDimensions` -/

/-- The tree of the lower bounds is not larger than `fullSize` when the minimum size is
not. -/
theorem lowerIndex_le (f : ℕ → ℚ) (fullSize : ℚ) (K : ℕ)
    (hlt : ∀ i, i < K → f i < fullSize) (h0 : f 0 ≤ fullSize) :
    f (lowerIndex f fullSize K) ≤ fullSize := by
  unfold lowerIndex
  split
  · rename_i hc
    rcases hc with hc | hc
    · rw [hc]
      exact h0
    · rw [hc]
  · rename_i hc
    push_neg at hc
    exact le_of_lt (hlt (K - 1) (by omega))

/-- The dimension that `_GetPaneSizes` hands to `_CalcSnappedPaneDimensions` crosses the
separator of a node that has children. -/
theorem splitAxis_perpendicular (splitState : SplitState) (hs : splitState ≠ .None) :
    SnapDirectionIsParallelToSplit (decide (splitState = .Vertical)) splitState = false := by
  cases splitState with
  | None => exact absurd rfl hs
  | Vertical => rfl
  | Horizontal => rfl

theorem leafAndSplit_wellFormed : leafAndSplit.WellFormed :=
  ⟨by decide, ⟨rfl, rfl⟩, twoLeaves_wellFormed⟩

theorem leafAndSplit_snapsDown (w : Bool) : leafAndSplit.EveryControl (SnapsDown w) := by
  refine ⟨?_, twoLeaves_snapsDown w⟩
  intro c hc
  cases hc
  exact exampleControl_snapsDown 3 w


/-! ## Theorems on the layout of panes -/

/-- C23. Closing one child of a two-leaf split: on an internal node whose two children are
leaves that host a control, `_CloseChild(closeFirst)` returns with the node turned into a
leaf (`splitState` `None`, no children) that carries the content and the profile of the
surviving child, and whose `lastFocused` is true exactly when one of the two children had
`lastFocused`. -/
theorem closeChild_two_leaves (m ma mb : PaneState) (ca cb : TermControl) (closeFirst : Bool)
    (hs : m._splitState ≠ .None) (hsa : ma._splitState = .None)
    (hsb : mb._splitState = .None) (hca : ma._control = some ca)
    (hcb : mb._control = some cb) :
    ∃ m', (Pane.parent m (.childless ma) (.childless mb))._CloseChild closeFirst
        = .ok (.childless m') ∧
      m'._splitState = .None ∧
      m'._control = (if closeFirst then some cb else some ca) ∧
      m'._profile = (if closeFirst then mb._profile else ma._profile) ∧
      (m'._lastFocused = true ↔ ma._lastFocused = true ∨ mb._lastFocused = true) := by
  cases closeFirst with
  | true =>
    refine ⟨{ m with
        _control := some cb
        _profile := mb._profile
        _lastFocused := ma._lastFocused || mb._lastFocused
        _splitState := .None }, ?_, rfl, by simp, by simp, by simp⟩
    simp [Pane._CloseChild, Pane._CloseChild.body, Pane._IsLeaf, Pane.m, hs, hsb, hca, hcb]
  | false =>
    refine ⟨{ m with
        _control := some ca
        _profile := ma._profile
        _lastFocused := ma._lastFocused || mb._lastFocused
        _splitState := .None }, ?_, rfl, by simp, by simp, by simp⟩
    simp [Pane._CloseChild, Pane._CloseChild.body, Pane._IsLeaf, Pane.m, hs, hsa, hca, hcb]

/-- Witness of `closeChild_two_leaves` (C23): closing the second leaf of the example
split. -/
theorem closeChild_two_leaves_witness :
    ∃ m', twoLeaves._CloseChild false = .ok (.childless m') ∧
      m'._splitState = .None ∧
      m'._control = (if false then some (exampleControl 2) else some (exampleControl 1)) ∧
      m'._profile = (if false then some 2 else some 1) ∧
      (m'._lastFocused = true ↔ false = true ∨ false = true) :=
  closeChild_two_leaves _ _ _ (exampleControl 1) (exampleControl 2) false (by decide) rfl rfl
    rfl rfl

/-- C30, at the failing input: the example split has the minimum width 24 and each of its
children the minimum width 10; for the full size 5 `_GetPaneSizes` returns `(10, -9)`, where
the claim and the comment on `_GetPaneSizes` promise `(10, 10)`. -/
theorem undersized_second_below_minimum :
    twoLeaves._GetMinSize = .ok ⟨24, 10⟩ ∧
      (Pane.ctor 1 (exampleControl 1) false)._GetMinSize = .ok ⟨10, 10⟩ ∧
      (Pane.ctor 2 (exampleControl 2) false)._GetMinSize = .ok ⟨10, 10⟩ ∧
      twoLeaves._GetPaneSizes 10 5 = some (.ok (10, -9)) :=
  ⟨by decide!, by decide!, by decide!, by decide!⟩


/-! ## Theorems on the invariants of the tree -/

/-- C24, as the spec states it: `Split(None, profile, control)` on a single leaf returns a
node that has two children and the split state `None`. -/
theorem split_none_keeps_none :
    exampleLeaf.hasNoChildren = true ∧ exampleLeaf.m._splitState = .None ∧
      ∃ m a b, Pane.Split 0 exampleLeaf .None 2 (exampleControl 2)
          = some (.ok (.parent m a b)) ∧
        (Pane.parent m a b).m._splitState = .None ∧ (Pane.parent m a b).hasNoChildren = false :=
  ⟨rfl, rfl, _, _, _,
    split_leaf_of_layout _ 0 .None 2 (exampleControl 2) 1 (exampleControl 1) rfl rfl rfl
      (by decide!),
    rfl, rfl⟩

theorem splitOnce_reachable : splitOnce.Reachable :=
  Pane.Reachable.split 0 .Vertical 2 (exampleControl 2)
    (Pane.Reachable.leaf 1 (exampleControl 1) true) (by decide)
    (split_leaf_of_layout _ 0 .Vertical 2 (exampleControl 2) 1 (exampleControl 1) rfl rfl rfl
      (by decide!))

/-- C24, amended. Leaf/splitState invariant: in every tree that comes from a single leaf by
calls of `Split` with the split type `Vertical` or `Horizontal`, of `_CloseChild` on any
node and of `UpdateFocus`, whatever the focus of the controls, a node has the split state
`None` exactly when it has no children, and every node with children has the split state
`Vertical` or `Horizontal`. -/
theorem reachable_leaf_iff_none (p : Pane) (h : p.Reachable) :
    ∀ n ∈ p.nodes, (n.m._splitState = .None ↔ n.hasNoChildren = true) ∧
      (n.hasNoChildren = false →
        n.m._splitState = .Vertical ∨ n.m._splitState = .Horizontal) := by
  intro n hn
  have hiff := wellFormed_nodes p (reachable_wellFormed p h) n hn
  refine ⟨hiff, ?_⟩
  intro hc
  cases hs : n.m._splitState with
  | None =>
    rw [hiff.mp hs] at hc
    cases hc
  | Vertical => exact Or.inl rfl
  | Horizontal => exact Or.inr rfl

/-- Witness of `reachable_leaf_iff_none` (C24): the tree after one vertical split of a new
leaf. -/
theorem reachable_leaf_iff_none_witness :
    splitOnce.Reachable ∧ splitOnce ∈ splitOnce.nodes ∧
      (splitOnce.m._splitState = .None ↔ splitOnce.hasNoChildren = true) ∧
      (splitOnce.m._splitState = .Vertical ∨ splitOnce.m._splitState = .Horizontal) :=
  ⟨splitOnce_reachable, List.mem_cons_self _ _,
    (reachable_leaf_iff_none splitOnce splitOnce_reachable splitOnce
      (List.mem_cons_self _ _)).1,
    (reachable_leaf_iff_none splitOnce splitOnce_reachable splitOnce
      (List.mem_cons_self _ _)).2 rfl⟩

/-- C25. Unique focus flag: on a well-formed tree in which at most one leaf has
`_lastFocused` set and no node with children has it, the same holds for the tree that
`Split` returns, for the tree that `_CloseChild(closeFirst)` on any of its nodes returns, and
for the tree that `UpdateFocus` returns (as it does) when at most one leaf hosts a control
that reports itself focused. -/
theorem focus_flag_unique (p : Pane) (hwf : p.WellFormed) (hflag : p.FocusFlagged) :
    (∀ fuel splitType profile control q,
      Pane.Split fuel p splitType profile control = some (.ok q) → q.FocusFlagged) ∧
    (∀ path closeFirst q, p.applyAt (fun n => n._CloseChild closeFirst) path = .ok q →
      q.FocusFlagged) ∧
    (p.focusedLeaves ≤ 1 → ∃ q, p.UpdateFocus = .ok q ∧ q.FocusFlagged) := by
  obtain ⟨hl, hi⟩ := hflag
  refine ⟨?_, ?_, ?_⟩
  · intro fuel splitType profile control q h
    obtain ⟨h1, h2⟩ := split_flags fuel splitType profile control p q h
    exact ⟨by omega, by omega⟩
  · intro path closeFirst q h
    obtain ⟨h1, h2⟩ := applyAt_flags _ (closeChild_flags closeFirst) p path q hi h
    exact ⟨by omega, h2⟩
  · intro hf
    obtain ⟨q, hq, h1, h2⟩ := updateFocus_flags p hwf
    exact ⟨q, hq, by omega, h2⟩

/-- Witness of `focus_flag_unique` (C25): `UpdateFocus` on the example split, none of whose
controls is focused. -/
theorem focus_flag_unique_witness :
    ∃ q, twoLeaves.UpdateFocus = .ok q ∧ q.FocusFlagged :=
  (focus_flag_unique twoLeaves twoLeaves_wellFormed ⟨by decide, by decide⟩).2.2 (by decide)

/-- C35 as stated fails: on the well-formed split `twoSplits` both children have children of
their own, so the surviving child is internal whichever child is closed; the closed child
hosts no control, and `_CloseChild` stops where it revokes the handler of that control. -/
theorem closeChild_of_split_stops :
    twoSplits.WellFormed ∧ twoSplits._CloseChild true = .error .nullDeref ∧
      twoSplits._CloseChild false = .error .nullDeref :=
  ⟨⟨by decide, twoLeaves_wellFormed, twoLeaves_wellFormed⟩, rfl, rfl⟩

/-- C35, amended. Closing a leaf next to a split splices one level out: on a node with
children whose surviving child has children `ra`, `rb` and the split state `s`, whenever
`_CloseChild(closeFirst)` returns the node has the split state `s` and the children `ra`,
`rb`, and its other members, `_desiredSplitPosition` among them, are as they were; and it
returns when the closed child hosts a control and `ra` is well-formed. -/
theorem closeChild_splices (m r : PaneState) (a b ra rb : Pane) (closeFirst : Bool)
    (hs : m._splitState ≠ .None)
    (hsurv : (if closeFirst then b else a) = .parent r ra rb) (hr : r._splitState ≠ .None) :
    (∀ q, (Pane.parent m a b)._CloseChild closeFirst = .ok q →
      q = .parent ⟨m._control, m._profile, m._lastFocused, r._splitState,
        m._desiredSplitPosition, m._rootActualSize⟩ ra rb) ∧
    (∀ c, (if closeFirst then a else b).m._control = some c → ra.WellFormed →
      (Pane.parent m a b)._CloseChild closeFirst
        = .ok (.parent ⟨m._control, m._profile, m._lastFocused, r._splitState,
            m._desiredSplitPosition, m._rootActualSize⟩ ra rb)) := by
  have hleaf : (Pane.parent r ra rb)._IsLeaf = false := by
    simp [Pane._IsLeaf, Pane.m, hr]
  have hbody : ∀ closed : Pane, (Pane.parent m a b)._CloseChild closeFirst
      = Pane._CloseChild.body m a b closed (.parent r ra rb) →
      (∀ q, (Pane.parent m a b)._CloseChild closeFirst = .ok q →
        q = .parent { m with _splitState := r._splitState } ra rb) ∧
      (∀ c, closed.m._control = some c → ra.WellFormed →
        (Pane.parent m a b)._CloseChild closeFirst
          = .ok (.parent { m with _splitState := r._splitState } ra rb)) := by
    intro closed hcall
    rw [hcall]
    unfold Pane._CloseChild.body
    rw [hleaf]
    simp only [Bool.false_eq_true, if_false]
    constructor
    · intro q h
      cases hcc : closed.m._control with
      | none =>
        rw [hcc] at h
        cases h
      | some c =>
        rw [hcc] at h
        simp only at h
        by_cases hl : closed.m._lastFocused = true
        · rw [if_pos hl] at h
          cases hf : (Pane.parent { m with _splitState := r._splitState } ra
            rb)._FocusFirstChild with
          | error e =>
            rw [hf] at h
            cases h
          | ok u =>
            rw [hf] at h
            simp only [Except.ok.injEq] at h
            exact h.symm
        · rw [if_neg hl] at h
          simp only [Except.ok.injEq] at h
          exact h.symm
    · intro c hc hra
      have hfocus : (Pane.parent { m with _splitState := r._splitState } ra rb)._FocusFirstChild
          = .ok () := by
        simp only [Pane._FocusFirstChild, hr, if_false]
        exact focusFirstChild_returns ra hra
      rw [hc]
      simp only [hfocus]
      split <;> rfl
  cases closeFirst with
  | true =>
    simp only [if_true] at hsurv
    subst hsurv
    exact hbody a (by simp only [Pane._CloseChild, hs, if_false, if_true])
  | false =>
    simp only [Bool.false_eq_true, if_false] at hsurv
    subst hsurv
    exact hbody b (by simp only [Pane._CloseChild, hs, if_false, Bool.false_eq_true])

/-- Witness of `closeChild_splices` (C35): closing the leaf of `leafAndSplit` leaves the two
leaves of the surviving vertical split under the node, whose split position stays at one
quarter. -/
theorem closeChild_splices_witness :
    leafAndSplit._CloseChild true
      = .ok (.parent ⟨none, none, false, .Vertical, 1 / 4, ⟨100, 50⟩⟩
          (Pane.ctor 1 (exampleControl 1) false) (Pane.ctor 2 (exampleControl 2) false)) :=
  (closeChild_splices _ ⟨none, none, false, .Vertical, Half, ⟨100, 50⟩⟩ _ _ _ _ true
    (by decide) rfl (by decide)).2 (exampleControl 3) rfl ⟨rfl, rfl⟩


/-! ## Rounding to `float` -/

namespace F32

theorem binade_spec (x : ℚ) : ∀ (fuel : Nat) (p : ℚ), 0 < p →
    ∃ j, j ≤ fuel ∧ binade x fuel p = 2 ^ j * p ∧ (j ≠ 0 → 2 ^ j * p ≤ x) ∧
      (j ≠ fuel → x < 2 ^ (j + 1) * p) := by
  intro fuel
  induction fuel with
  | zero => intro p _; exact ⟨0, le_refl _, by simp [binade], fun h => absurd rfl h,
      fun h => absurd rfl h⟩
  | succ n ih =>
    intro p hp
    by_cases h : 2 * p ≤ x
    · obtain ⟨j, hj, hb, hlo, hhi⟩ := ih (2 * p) (by linarith)
      refine ⟨j + 1, by omega, ?_, ?_, ?_⟩
      · simp only [binade, h, if_true, hb]; ring
      · intro _
        by_cases hj0 : j = 0
        · subst hj0; simpa using h
        · have := hlo hj0
          calc (2 : ℚ) ^ (j + 1) * p = 2 ^ j * (2 * p) := by ring
            _ ≤ x := this
      · intro hne
        have := hhi (by omega)
        calc x < 2 ^ (j + 1) * (2 * p) := this
          _ = 2 ^ (j + 1 + 1) * p := by ring
    · refine ⟨0, by omega, by simp [binade, h], fun h0 => absurd rfl h0, ?_⟩
      intro _
      simpa using lt_of_not_le h

theorem binade_eq (v : ℚ) : ∀ (fuel : Nat) (p : ℚ) (i : Nat), 0 < p → i ≤ fuel →
    (i ≠ 0 → 2 ^ i * p ≤ v) → (i ≠ fuel → v < 2 ^ (i + 1) * p) →
    binade v fuel p = 2 ^ i * p := by
  intro fuel
  induction fuel with
  | zero =>
    intro p i _ hi _ _
    have : i = 0 := by omega
    subst this
    simp [binade]
  | succ n ih =>
    intro p i hp hi hlo hhi
    cases i with
    | zero =>
      have := hhi (by omega)
      have h : ¬ (2 * p ≤ v) := by simpa using this
      simp [binade, h]
    | succ i =>
      have h1 := hlo (by omega)
      have hpow : (1 : ℚ) ≤ 2 ^ i := one_le_pow₀ (by norm_num)
      have h : 2 * p ≤ v := by
        calc 2 * p = 1 * (2 * p) := by ring
          _ ≤ 2 ^ i * (2 * p) := by
            apply mul_le_mul_of_nonneg_right hpow; linarith
          _ = 2 ^ (i + 1) * p := by ring
          _ ≤ v := h1
      simp only [binade, h, if_true]
      rw [ih (2 * p) i (by linarith) (by omega)]
      · ring
      · intro _
        calc (2 : ℚ) ^ i * (2 * p) = 2 ^ (i + 1) * p := by ring
          _ ≤ v := h1
      · intro hne
        have := hhi (by omega)
        calc v < 2 ^ (i + 1 + 1) * p := this
          _ = 2 ^ (i + 1) * (2 * p) := by ring

theorem binade_mono (x y : ℚ) (hxy : x ≤ y) : ∀ (fuel : Nat) (p : ℚ), 0 < p →
    binade x fuel p ≤ binade y fuel p := by
  intro fuel
  induction fuel with
  | zero => intro p _; simp [binade]
  | succ n ih =>
    intro p hp
    by_cases h : 2 * p ≤ x
    · have h' : 2 * p ≤ y := le_trans h hxy
      simp only [binade, h, h', if_true]
      exact ih (2 * p) (by linarith)
    · simp only [binade, h, if_false]
      obtain ⟨j, _, hb, _, _⟩ := binade_spec y (n + 1) p hp
      rw [show (if 2 * p ≤ y then binade y n (2 * p) else p) = binade y (n + 1) p from rfl, hb]
      have hpow : (1 : ℚ) ≤ 2 ^ j := one_le_pow₀ (by norm_num)
      calc p = 1 * p := by ring
        _ ≤ 2 ^ j * p := mul_le_mul_of_nonneg_right hpow (le_of_lt hp)

theorem nearestEven_cases (t : ℚ) : nearestEven t = ⌊t⌋ ∨ nearestEven t = ⌊t⌋ + 1 := by
  unfold nearestEven
  split
  · exact Or.inl rfl
  · split
    · exact Or.inr rfl
    · split
      · exact Or.inl rfl
      · exact Or.inr rfl

theorem nearestEven_int (k : ℤ) : nearestEven (k : ℚ) = k := by
  unfold nearestEven
  simp

theorem nearestEven_mono (s t : ℚ) (h : s ≤ t) : nearestEven s ≤ nearestEven t := by
  have hf : ⌊s⌋ ≤ ⌊t⌋ := Int.floor_le_floor h
  rcases lt_or_eq_of_le hf with hlt | heq
  · rcases nearestEven_cases s with hs | hs <;> rcases nearestEven_cases t with ht | ht <;>
      omega
  · have hfrac : s - ⌊s⌋ ≤ t - ⌊t⌋ := by rw [heq]; linarith
    unfold nearestEven
    rw [heq] at hfrac ⊢
    split_ifs <;> first | omega | (exfalso; linarith)


theorem leastNormal_pos : 0 < leastNormal := by
  unfold leastNormal; positivity

/-- The binade of `x` as a power of two times the least normal number. -/
theorem binade_top (x : ℚ) :
    ∃ i, i ≤ 253 ∧ binade x 253 leastNormal = 2 ^ i * leastNormal ∧
      (i ≠ 0 → 2 ^ i * leastNormal ≤ x) ∧ (i ≠ 253 → x < 2 ^ (i + 1) * leastNormal) :=
  binade_spec x 253 leastNormal leastNormal_pos

theorem binade_pos (x : ℚ) : 0 < binade x 253 leastNormal := by
  obtain ⟨i, _, hb, _, _⟩ := binade_top x
  rw [hb]
  have := leastNormal_pos
  positivity

theorem nearestEven_nonneg (t : ℚ) (h : 0 ≤ t) : 0 ≤ nearestEven t := by
  have := nearestEven_mono 0 t h
  have h0 : nearestEven 0 = 0 := by simpa using nearestEven_int 0
  omega

theorem roundPos_nonneg (x : ℚ) (h : 0 ≤ x) : 0 ≤ roundPos x := by
  unfold roundPos
  have hq : 0 < binade x 253 leastNormal / 2 ^ 23 := div_pos (binade_pos x) (by positivity)
  have hn := nearestEven_nonneg (x / (binade x 253 leastNormal / 2 ^ 23)) (div_nonneg h hq.le)
  have : (0 : ℚ) ≤ nearestEven (x / (binade x 253 leastNormal / 2 ^ 23)) := by exact_mod_cast hn
  positivity

/-- A rounded number stays in the closed binade of the number. -/
theorem roundPos_bounds (x : ℚ) (i : Nat)
    (hb : binade x 253 leastNormal = 2 ^ i * leastNormal)
    (hlo : i ≠ 0 → 2 ^ i * leastNormal ≤ x) (hhi : i ≠ 253 → x < 2 ^ (i + 1) * leastNormal) :
    (i ≠ 0 → 2 ^ i * leastNormal ≤ roundPos x) ∧
      (i ≠ 253 → roundPos x ≤ 2 ^ (i + 1) * leastNormal) := by
  have hL := leastNormal_pos
  have hB : 0 < (2 : ℚ) ^ i * leastNormal := by positivity
  have hq : 0 < (2 : ℚ) ^ i * leastNormal / 2 ^ 23 := by positivity
  unfold roundPos
  simp only [hb]
  constructor
  · intro h0
    have h1 : ((2 ^ 23 : ℤ) : ℚ) ≤ x / (2 ^ i * leastNormal / 2 ^ 23) := by
      rw [le_div_iff₀ hq]
      have := hlo h0
      push_cast
      calc (2 : ℚ) ^ 23 * (2 ^ i * leastNormal / 2 ^ 23) = 2 ^ i * leastNormal := by
            field_simp
        _ ≤ x := this
    have h2 := nearestEven_mono _ _ h1
    rw [nearestEven_int] at h2
    have h3 : ((2 ^ 23 : ℤ) : ℚ) ≤ (nearestEven (x / (2 ^ i * leastNormal / 2 ^ 23)) : ℚ) := by
      exact_mod_cast h2
    calc (2 : ℚ) ^ i * leastNormal = ((2 ^ 23 : ℤ) : ℚ) * (2 ^ i * leastNormal / 2 ^ 23) := by
          push_cast; field_simp; ring
      _ ≤ _ := mul_le_mul_of_nonneg_right h3 hq.le
  · intro h0
    have h1 : x / (2 ^ i * leastNormal / 2 ^ 23) ≤ ((2 ^ 24 : ℤ) : ℚ) := by
      rw [div_le_iff₀ hq]
      have := hhi h0
      push_cast
      calc x ≤ 2 ^ (i + 1) * leastNormal := this.le
        _ = (2 : ℚ) ^ 24 * (2 ^ i * leastNormal / 2 ^ 23) := by
            field_simp; ring
    have h2 := nearestEven_mono _ _ h1
    rw [nearestEven_int] at h2
    have h3 : (nearestEven (x / (2 ^ i * leastNormal / 2 ^ 23)) : ℚ) ≤ ((2 ^ 24 : ℤ) : ℚ) := by
      exact_mod_cast h2
    calc _ ≤ ((2 ^ 24 : ℤ) : ℚ) * (2 ^ i * leastNormal / 2 ^ 23) :=
          mul_le_mul_of_nonneg_right h3 hq.le
      _ = 2 ^ (i + 1) * leastNormal := by
          push_cast; field_simp; ring

theorem roundPos_mono (x y : ℚ) (hxy : x ≤ y) : roundPos x ≤ roundPos y := by
  have hL := leastNormal_pos
  obtain ⟨i, hi, hbx, hlox, hhix⟩ := binade_top x
  obtain ⟨j, hj, hby, hloy, hhiy⟩ := binade_top y
  have hB := binade_mono x y hxy 253 leastNormal hL
  rw [hbx, hby] at hB
  have hij : i ≤ j := by
    by_contra hlt
    have hlt' : j < i := by omega
    have : (2 : ℚ) ^ j < 2 ^ i := pow_lt_pow_right₀ (by norm_num) hlt'
    have : (2 : ℚ) ^ j * leastNormal < 2 ^ i * leastNormal := mul_lt_mul_of_pos_right this hL
    linarith
  rcases Nat.lt_or_eq_of_le hij with hlt | heq
  · have h1 := (roundPos_bounds x i hbx hlox hhix).2 (by omega)
    have h2 := (roundPos_bounds y j hby hloy hhiy).1 (by omega)
    have : (2 : ℚ) ^ (i + 1) ≤ 2 ^ j := pow_le_pow_right₀ (by norm_num) (by omega)
    have : (2 : ℚ) ^ (i + 1) * leastNormal ≤ 2 ^ j * leastNormal :=
      mul_le_mul_of_nonneg_right this hL.le
    linarith
  · subst heq
    have hq : 0 < (2 : ℚ) ^ i * leastNormal / 2 ^ 23 := by positivity
    unfold roundPos
    simp only [hbx, hby]
    have h1 : x / (2 ^ i * leastNormal / 2 ^ 23) ≤ y / (2 ^ i * leastNormal / 2 ^ 23) :=
      div_le_div_of_nonneg_right hxy hq.le
    have h2 := nearestEven_mono _ _ h1
    have h3 : (nearestEven (x / (2 ^ i * leastNormal / 2 ^ 23)) : ℚ)
        ≤ nearestEven (y / (2 ^ i * leastNormal / 2 ^ 23)) := by exact_mod_cast h2
    exact mul_le_mul_of_nonneg_right h3 hq.le

theorem roundPos_eq (v B : ℚ) (hB : binade v 253 leastNormal = B) :
    roundPos v = nearestEven (v / (B / 2 ^ 23)) * (B / 2 ^ 23) := by
  unfold roundPos
  simp only [hB]

theorem roundPos_idem (x : ℚ) : roundPos (roundPos x) = roundPos x := by
  have hL := leastNormal_pos
  obtain ⟨i, hi, hb, hlo, hhi⟩ := binade_top x
  obtain ⟨hlo', hhi'⟩ := roundPos_bounds x i hb hlo hhi
  have hq : 0 < (2 : ℚ) ^ i * leastNormal / 2 ^ 23 := by positivity
  have hv := roundPos_eq x _ hb
  generalize nearestEven (x / (2 ^ i * leastNormal / 2 ^ 23)) = m at hv
  by_cases htop : i ≠ 253 ∧ m = 2 ^ 24
  · obtain ⟨h253, hm⟩ := htop
    have hv2 : roundPos x = 2 ^ (i + 1) * leastNormal := by
      rw [hv, hm]; push_cast; field_simp; ring
    have hq2 : 0 < (2 : ℚ) ^ (i + 1) * leastNormal / 2 ^ 23 := by positivity
    have hb2 : binade (roundPos x) 253 leastNormal = 2 ^ (i + 1) * leastNormal := by
      apply binade_eq _ 253 leastNormal (i + 1) hL (by omega)
      · intro _; rw [hv2]
      · intro _
        rw [hv2]
        have : (2 : ℚ) ^ (i + 1) < 2 ^ (i + 1 + 1) := pow_lt_pow_right₀ (by norm_num) (by omega)
        exact mul_lt_mul_of_pos_right this hL
    have ht : roundPos x / (2 ^ (i + 1) * leastNormal / 2 ^ 23) = ((2 ^ 23 : ℤ) : ℚ) := by
      rw [hv2]; push_cast; field_simp; norm_num
    rw [roundPos_eq _ _ hb2, ht, nearestEven_int, hv2]
    push_cast; field_simp; ring
  · have hb2 : binade (roundPos x) 253 leastNormal = 2 ^ i * leastNormal := by
      apply binade_eq _ 253 leastNormal i hL hi
      · exact hlo'
      · intro h253
        have hm1 := hhi' h253
        have hm2 : m ≠ 2 ^ 24 := fun h => htop ⟨h253, h⟩
        have hm3 : (m : ℚ) ≤ 2 ^ 24 := by
          rw [hv] at hm1
          have : (m : ℚ) * (2 ^ i * leastNormal / 2 ^ 23)
              ≤ 2 ^ 24 * (2 ^ i * leastNormal / 2 ^ 23) := by
            calc _ ≤ 2 ^ (i + 1) * leastNormal := hm1
              _ = 2 ^ 24 * (2 ^ i * leastNormal / 2 ^ 23) := by field_simp; ring
          exact le_of_mul_le_mul_right this hq
        have hm4 : m ≤ 2 ^ 24 := by exact_mod_cast hm3
        have hm5 : m ≤ 2 ^ 24 - 1 := by omega
        have hm6 : (m : ℚ) ≤ 2 ^ 24 - 1 := by exact_mod_cast hm5
        rw [hv]
        calc (m : ℚ) * (2 ^ i * leastNormal / 2 ^ 23)
            ≤ (2 ^ 24 - 1) * (2 ^ i * leastNormal / 2 ^ 23) :=
              mul_le_mul_of_nonneg_right hm6 hq.le
          _ < 2 ^ 24 * (2 ^ i * leastNormal / 2 ^ 23) := by
              apply mul_lt_mul_of_pos_right _ hq; norm_num
          _ = 2 ^ (i + 1) * leastNormal := by field_simp; ring
    have ht : roundPos x / (2 ^ i * leastNormal / 2 ^ 23) = (m : ℚ) := by
      rw [hv]; field_simp
    rw [roundPos_eq _ _ hb2, ht, nearestEven_int, hv]

theorem round_zero : round 0 = 0 := by decide!

theorem round_nonneg (x : ℚ) (h : 0 ≤ x) : 0 ≤ round x := by
  unfold round
  rw [if_neg (not_lt.mpr h)]
  exact roundPos_nonneg x h

theorem roundPos_zero : roundPos 0 = 0 := by decide!

theorem round_mono (x y : ℚ) (hxy : x ≤ y) : round x ≤ round y := by
  unfold round
  by_cases hx : x < 0
  · by_cases hy : y < 0
    · rw [if_pos hx, if_pos hy]
      have := roundPos_mono (-y) (-x) (by linarith)
      linarith
    · rw [if_pos hx, if_neg hy]
      have h1 := roundPos_nonneg (-x) (by linarith)
      have h2 := roundPos_nonneg y (by linarith)
      linarith
  · have hy : ¬ y < 0 := by
      intro h; apply hx; linarith
    rw [if_neg hx, if_neg hy]
    exact roundPos_mono x y hxy

theorem round_idem (x : ℚ) : round (round x) = round x := by
  unfold round
  by_cases hx : x < 0
  · rw [if_pos hx]
    have h1 := roundPos_nonneg (-x) (by linarith)
    by_cases h0 : -roundPos (-x) < 0
    · rw [if_pos h0, neg_neg, roundPos_idem]
    · have h2 : roundPos (-x) = 0 := by linarith
      rw [if_neg h0, h2, neg_zero, roundPos_zero]
  · rw [if_neg hx]
    have h1 := roundPos_nonneg x (by linarith)
    rw [if_neg (not_lt.mpr h1), roundPos_idem]

/-- A rounded number is a value of `float`. -/
theorem isFloat_round (x : ℚ) : IsFloat (round x) := round_idem x

/-- Rounding does not pass a `float` from below. -/
theorem round_le_of_le (x f : ℚ) (hf : IsFloat f) (h : x ≤ f) : round x ≤ f := by
  have := round_mono x f h
  rwa [show round f = f from hf] at this

/-- Rounding does not pass a `float` from above. -/
theorem le_round_of_le (x f : ℚ) (hf : IsFloat f) (h : f ≤ x) : f ≤ round x := by
  have := round_mono f x h
  rwa [show round f = f from hf] at this

end F32

theorem isFloat_zero : IsFloat 0 := by decide!

theorem isFloat_one : IsFloat 1 := by decide!

theorem isFloat_separator : IsFloat PaneSeparatorSize := by decide!


/-! ## The walk of `_SnapSizeUpwards32` from the minimum-size tree -/

theorem treeAfter32_size (p : Pane) (w : Bool) (k : ℕ) :
    (p.treeAfter32 w k).size = p.sizeAfter32 w k := by
  cases p <;> simp [Pane.treeAfter32, LayoutSizeNode.size]

theorem advances32_zero (m : PaneState) (w : Bool) (F S : ℕ → ℚ) : advances32 m w F S 0 = 0 := rfl

theorem advances32_succ_cases (m : PaneState) (w : Bool) (F S : ℕ → ℚ) (k : ℕ) :
    advances32 m w F S (k + 1) = advances32 m w F S k ∨
      advances32 m w F S (k + 1) = advances32 m w F S k + 1 := by
  simp only [advances32]
  split
  · exact Or.inr rfl
  · exact Or.inl rfl

theorem advances32_le (m : PaneState) (w : Bool) (F S : ℕ → ℚ) : ∀ k, advances32 m w F S k ≤ k := by
  intro k
  induction k with
  | zero => simp [advances32]
  | succ k ih =>
    rcases advances32_succ_cases m w F S k with h | h <;> omega

theorem advances32_mono (m : PaneState) (w : Bool) (F S : ℕ → ℚ) :
    ∀ i k, i ≤ k → advances32 m w F S i ≤ advances32 m w F S k := by
  intro i k hik
  induction k with
  | zero =>
    have : i = 0 := by omega
    rw [this]
  | succ k ih =>
    by_cases h : i = k + 1
    · rw [h]
    · have := ih (by omega)
      rcases advances32_succ_cases m w F S k with h | h <;> omega

theorem rest32_mono (m : PaneState) (w : Bool) (F S : ℕ → ℚ) :
    ∀ i k, i ≤ k → i - advances32 m w F S i ≤ k - advances32 m w F S k := by
  intro i k hik
  induction k with
  | zero =>
    have : i = 0 := by omega
    rw [this]
  | succ k ih =>
    by_cases h : i = k + 1
    · rw [h]
    · have := ih (by omega)
      have := advances32_le m w F S k
      rcases advances32_succ_cases m w F S k with h | h <;> omega

theorem sizeAfter32_parent_zero (m : PaneState) (a b : Pane) (w : Bool) :
    (Pane.parent m a b).sizeAfter32 w 0
      = m.sizeOfChildren32 w (a.sizeAfter32 w 0) (b.sizeAfter32 w 0) := rfl

/-- On a well-formed tree `_GetMinSize32` returns, and its dimensions are the sizes before any
snap. -/
theorem getMinSize32_ok : ∀ p : Pane, p.WellFormed →
    ∃ sz, p._GetMinSize32 = .ok sz ∧
      ∀ w : Bool, (if w then sz.Width else sz.Height) = p.sizeAfter32 w 0 := by
  intro p
  induction p with
  | childless m =>
    intro hwf
    obtain ⟨hs, hc⟩ := hwf
    obtain ⟨c, hc⟩ := Option.isSome_iff_exists.mp hc
    refine ⟨c.MinimumSize, by simp [Pane._GetMinSize32, hs, hc], ?_⟩
    intro w
    simp [Pane.sizeAfter32, hc, leafSizeAfter32, TermControl.minDimension]
  | parent m a b iha ihb =>
    intro hwf
    obtain ⟨hs, ha, hb⟩ := hwf
    obtain ⟨sa, hsa, hda⟩ := iha ha
    obtain ⟨sb, hsb, hdb⟩ := ihb hb
    refine ⟨_, by simp only [Pane._GetMinSize32, hs, if_false, hsa, hsb]; rfl, ?_⟩
    intro w
    rw [sizeAfter32_parent_zero, ← hda w, ← hdb w]
    cases hst : m._splitState with
    | None => exact absurd hst hs
    | Vertical =>
      cases w <;> simp [PaneState.sizeOfChildren32, SnapDirectionIsParallelToSplit, hst]
    | Horizontal =>
      cases w <;> simp [PaneState.sizeOfChildren32, SnapDirectionIsParallelToSplit, hst]

/-- On a well-formed tree `_GetMinSizeTree32` returns the tree before any snap. -/
theorem getMinSizeTree32_eq (w : Bool) : ∀ p : Pane, p.WellFormed →
    p._GetMinSizeTree32 w = .ok (p.treeAfter32 w 0) := by
  intro p
  induction p with
  | childless m =>
    intro hwf
    obtain ⟨sz, hsz, hd⟩ := getMinSize32_ok _ hwf
    obtain ⟨hs, hc⟩ := hwf
    simp only [Pane._GetMinSizeTree32, hsz, hs, if_true, hd w, Pane.treeAfter32]
    simp
  | parent m a b iha ihb =>
    intro hwf
    obtain ⟨sz, hsz, hd⟩ := getMinSize32_ok _ hwf
    obtain ⟨hs, ha, hb⟩ := hwf
    simp only [Pane._GetMinSizeTree32, hsz, hs, if_false, hd w, Pane.treeAfter32, iha ha, ihb hb,
      advances32_zero]
    simp

theorem leafProposed32_first (m : PaneState) (c : TermControl) (hc : m._control = some c)
    (w : Bool) :
    ∃ bounds, m.leafProposedSnapSizes32 w (F32.add (c.minDimension w) 1) = .ok bounds ∧
      bounds.higher = c.firstSnap32 w := by
  have hdef : m.leafProposedSnapSizes32 w (F32.add (c.minDimension w) 1)
      = (if F32.add (c.minDimension w) 1 ≤ c.minDimension w then
          .ok ⟨c.minDimension w, c.minDimension w⟩
        else if c.SnapDimensionToGrid w (F32.add (c.minDimension w) 1)
            = F32.add (c.minDimension w) 1 then
          .ok ⟨c.SnapDimensionToGrid w (F32.add (c.minDimension w) 1),
            c.SnapDimensionToGrid w (F32.add (c.minDimension w) 1)⟩
        else
          .ok ⟨c.SnapDimensionToGrid w (F32.add (c.minDimension w) 1),
            F32.add (c.SnapDimensionToGrid w (F32.add (c.minDimension w) 1))
              (c.cellDimension w)⟩) := by
    simp only [PaneState.leafProposedSnapSizes32, hc]
    rfl
  rw [hdef]
  unfold TermControl.firstSnap32
  by_cases h1 : F32.add (c.minDimension w) 1 ≤ c.minDimension w
  · rw [if_pos h1, if_pos h1]
    exact ⟨_, rfl, rfl⟩
  · rw [if_neg h1, if_neg h1]
    by_cases h2 : c.SnapDimensionToGrid w (F32.add (c.minDimension w) 1)
        = F32.add (c.minDimension w) 1
    · rw [if_pos h2, if_pos h2]
      exact ⟨_, rfl, rfl⟩
    · rw [if_neg h2, if_neg h2]
      exact ⟨_, rfl, rfl⟩

theorem leafSnap32_eq (m : PaneState) (c : TermControl) (hc : m._control = some c) (w : Bool)
    (k : ℕ) :
    m.leafSnapSizeUpwards32 w
        (.mk (leafSizeAfter32 c w k) (decide (k = 0)) none none none none)
      = .ok (.mk (leafSizeAfter32 c w (k + 1)) false none none none none) := by
  cases k with
  | zero =>
    obtain ⟨bounds, hb, hh⟩ := leafProposed32_first m c hc w
    simp only [PaneState.leafSnapSizeUpwards32, leafSizeAfter32, decide_True, if_true, hb, hh]
  | succ k =>
    simp only [PaneState.leafSnapSizeUpwards32, hc, leafSizeAfter32,
      TermControl.cellDimension]
    simp

/-- On a well-formed tree `_SnapSizeUpwards32` takes the tree after `k` snaps to the tree after
`k + 1` snaps. -/
theorem snapSizeUpwards32_treeAfter (w : Bool) : ∀ p : Pane, p.WellFormed →
    ∀ k, p._SnapSizeUpwards32 w (p.treeAfter32 w k) = .ok (p.treeAfter32 w (k + 1)) := by
  intro p
  induction p with
  | childless m =>
    intro hwf k
    obtain ⟨hs, hc⟩ := hwf
    obtain ⟨c, hc⟩ := Option.isSome_iff_exists.mp hc
    simp only [Pane._SnapSizeUpwards32, hs, if_true, Pane.treeAfter32, Pane.sizeAfter32, hc,
      leafSnap32_eq m c hc w k]
    simp
  | parent m a b iha ihb =>
    intro hwf k
    obtain ⟨hs, ha, hb⟩ := hwf
    have hj := advances32_le m w (a.sizeAfter32 w) (b.sizeAfter32 w) k
    simp only [Pane._SnapSizeUpwards32, hs, if_false, Pane.treeAfter32, LayoutSizeNode.firstChild,
      LayoutSizeNode.secondChild, LayoutSizeNode.nextFirstChild,
      LayoutSizeNode.nextSecondChild, treeAfter32_size, Pane.sizeAfter32, advances32]
    generalize advances32 m w (a.sizeAfter32 w) (b.sizeAfter32 w) k = j at hj ⊢
    have h1 : k + 1 - (j + 1) = k - j := by omega
    have h2 : k + 1 - j = k - j + 1 := by omega
    have hk : ¬ (k + 1 = 0) := by omega
    by_cases hk0 : k = 0
    · have hj0 : j = 0 := by omega
      subst hk0
      subst hj0
      simp only [if_true, iha ha 0, ihb hb 0, treeAfter32_size]
      by_cases hadv : m.advanceFirst32 w (a.sizeAfter32 w 0) (b.sizeAfter32 w (0 - 0))
          (a.sizeAfter32 w (0 + 1)) (b.sizeAfter32 w (0 - 0 + 1)) = true
      · simp only [hadv, if_true, iha ha (0 + 1), h1, hk, if_false, decide_False]
      · rw [Bool.not_eq_true] at hadv
        simp only [hadv, Bool.false_eq_true, if_false, ihb hb (0 + 1), h2, hk, decide_False,
          Nat.sub_zero, Nat.zero_add]
    · simp only [hk0, if_false, treeAfter32_size]
      by_cases hadv : m.advanceFirst32 w (a.sizeAfter32 w j) (b.sizeAfter32 w (k - j))
          (a.sizeAfter32 w (j + 1)) (b.sizeAfter32 w (k - j + 1)) = true
      · simp only [hadv, if_true, iha ha (j + 1), h1, hk, if_false, decide_False]
      · rw [Bool.not_eq_true] at hadv
        simp only [hadv, Bool.false_eq_true, if_false, ihb hb (k - j + 1), h2, hk,
          decide_False]


/-! ## Sizes along the walk in `float` -/

/-- On a well-formed tree the upward-snap walk in `float` returns the size tree of each of
its steps. -/
theorem snapWalk32_eq (p : Pane) (w : Bool) (hwf : p.WellFormed) :
    ∀ k, p.snapWalk32 w k = .ok (p.treeAfter32 w k) := by
  intro k
  induction k with
  | zero => exact getMinSizeTree32_eq w p hwf
  | succ k ih =>
    simp only [Pane.snapWalk32, ih]
    exact snapSizeUpwards32_treeAfter w p hwf k

/-- The first snap upwards of a leaf gives a `float` that is not below the minimum size. -/
theorem firstSnap32_spec (c : TermControl) (w : Bool) (hg : FloatGrid w c) :
    IsFloat (c.firstSnap32 w) ∧ c.minDimension w ≤ c.firstSnap32 w := by
  obtain ⟨hmin, hcell, hsnap⟩ := hg
  unfold TermControl.firstSnap32
  by_cases h1 : F32.add (c.minDimension w) 1 ≤ c.minDimension w
  · rw [if_pos h1]
    exact ⟨hmin, le_refl _⟩
  · rw [if_neg h1]
    obtain ⟨hf, hlo, hhi⟩ := hsnap (F32.add (c.minDimension w) 1) (F32.isFloat_round _)
      (not_le.mp h1)
    by_cases h2 : c.SnapDimensionToGrid w (F32.add (c.minDimension w) 1)
        = F32.add (c.minDimension w) 1
    · rw [if_pos h2]
      exact ⟨hf, hlo⟩
    · rw [if_neg h2]
      refine ⟨F32.isFloat_round _, ?_⟩
      have := F32.le_round_of_le
        (c.SnapDimensionToGrid w (F32.add (c.minDimension w) 1) + c.cellDimension w) _ hf
        (by linarith)
      exact le_trans hlo this

/-- The sizes of a leaf along the walk are values of `float`. -/
theorem leafSizeAfter32_float (c : TermControl) (w : Bool) (hg : FloatGrid w c) :
    ∀ k, IsFloat (leafSizeAfter32 c w k) := by
  intro k
  match k with
  | 0 => exact hg.1
  | 1 => exact (firstSnap32_spec c w hg).1
  | k + 2 => exact F32.isFloat_round _

/-- A snap upwards does not make a leaf smaller. -/
theorem leafSizeAfter32_step (c : TermControl) (w : Bool) (hg : FloatGrid w c) (k : ℕ) :
    leafSizeAfter32 c w k ≤ leafSizeAfter32 c w (k + 1) := by
  match k with
  | 0 => exact (firstSnap32_spec c w hg).2
  | k + 1 =>
    show leafSizeAfter32 c w (k + 1)
      ≤ F32.add (leafSizeAfter32 c w (k + 1)) (c.cellDimension w)
    exact F32.le_round_of_le _ _ (leafSizeAfter32_float c w hg (k + 1))
      (by have := hg.2.1; linarith)

theorem leafSizeAfter32_mono (c : TermControl) (w : Bool) (hg : FloatGrid w c) :
    Monotone (leafSizeAfter32 c w) :=
  monotone_nat_of_le_succ (leafSizeAfter32_step c w hg)

theorem sizeOfChildren32_mono (m : PaneState) (w : Bool) (x x' y y' : ℚ) (hx : x ≤ x')
    (hy : y ≤ y') : m.sizeOfChildren32 w x y ≤ m.sizeOfChildren32 w x' y' := by
  simp only [PaneState.sizeOfChildren32]
  split
  · exact max_le_max hx hy
  · apply F32.round_mono
    have := F32.round_mono (x + PaneSeparatorSize) (x' + PaneSeparatorSize) (by linarith)
    simp only [F32.add]
    linarith

/-- On a well-formed tree whose controls are `float` grids the sizes along the walk never
decrease. -/
theorem sizeAfter32_mono (w : Bool) : ∀ p : Pane, p.WellFormed →
    p.EveryControl (FloatGrid w) → Monotone (p.sizeAfter32 w) := by
  intro p
  induction p with
  | childless m =>
    intro hwf hgrid
    obtain ⟨hs, hc⟩ := hwf
    obtain ⟨c, hc⟩ := Option.isSome_iff_exists.mp hc
    intro i k hik
    simp only [Pane.sizeAfter32, hc]
    exact leafSizeAfter32_mono c w (hgrid c hc) hik
  | parent m a b iha ihb =>
    intro hwf hgrid
    obtain ⟨hs, ha, hb⟩ := hwf
    intro i k hik
    simp only [Pane.sizeAfter32]
    exact sizeOfChildren32_mono m w _ _ _ _
      (iha ha hgrid.1 (advances32_mono m w _ _ i k hik))
      (ihb hb hgrid.2 (rest32_mono m w _ _ i k hik))

/-- On a well-formed tree whose controls are `float` grids the sizes along the walk are values
of `float`. -/
theorem sizeAfter32_float (w : Bool) : ∀ p : Pane, p.WellFormed →
    p.EveryControl (FloatGrid w) → ∀ k, IsFloat (p.sizeAfter32 w k) := by
  intro p
  induction p with
  | childless m =>
    intro hwf hgrid k
    obtain ⟨hs, hc⟩ := hwf
    obtain ⟨c, hc⟩ := Option.isSome_iff_exists.mp hc
    simp only [Pane.sizeAfter32, hc]
    exact leafSizeAfter32_float c w (hgrid c hc) k
  | parent m a b iha ihb =>
    intro hwf hgrid k
    simp only [Pane.sizeAfter32, PaneState.sizeOfChildren32]
    split
    · rcases max_choice (a.sizeAfter32 w (advances32 m w (a.sizeAfter32 w) (b.sizeAfter32 w) k))
          (b.sizeAfter32 w (k - advances32 m w (a.sizeAfter32 w) (b.sizeAfter32 w) k))
        with h | h
      · rw [h]; exact iha hwf.2.1 hgrid.1 _
      · rw [h]; exact ihb hwf.2.2 hgrid.2 _
    · exact F32.isFloat_round _

/-- Later trees of the walk are nowhere smaller than earlier ones. -/
theorem treeAfter32_noSmaller (w : Bool) : ∀ p : Pane, p.WellFormed →
    p.EveryControl (FloatGrid w) → ∀ i j, i ≤ j →
    p.NoSmaller (p.treeAfter32 w i) (p.treeAfter32 w j) := by
  intro p
  induction p with
  | childless m =>
    intro hwf hgrid i j hij
    have hmono := sizeAfter32_mono w _ hwf hgrid
    simp only [Pane.NoSmaller, treeAfter32_size]
    exact hmono hij
  | parent m a b iha ihb =>
    intro hwf hgrid i j hij
    have hmono := sizeAfter32_mono w _ hwf hgrid
    refine ⟨?_, ⟨_, _, rfl, rfl, iha hwf.2.1 hgrid.1 _ _ (advances32_mono m w _ _ i j hij)⟩,
      ⟨_, _, rfl, rfl, ihb hwf.2.2 hgrid.2 _ _ (rest32_mono m w _ _ i j hij)⟩⟩
    rw [treeAfter32_size, treeAfter32_size]
    exact hmono hij

/-! ## The loop of `_CalcSnappedPaneDimensions` in `float` -/

theorem loop32_spec (p : Pane) (w : Bool) (fullSize : ℚ) (hwf : p.WellFormed) (K : ℕ)
    (hK : fullSize ≤ p.sizeAfter32 w K) (hlt : ∀ i, i < K → p.sizeAfter32 w i < fullSize) :
    ∀ fuel k l, k ≤ K → K ≤ k + fuel →
      ((k = 0 ∧ l = 0) ∨ (l + 1 = k ∧ p.sizeAfter32 w k ≠ fullSize)) →
      Pane._CalcSnappedPaneDimensions32.loop p w fullSize fuel (p.treeAfter32 w k)
          (p.treeAfter32 w l)
        = some (childrenBounds (p.treeAfter32 w (lowerIndex (p.sizeAfter32 w) fullSize K))
            (p.treeAfter32 w K)) := by
  have hend : ∀ l, ((K = 0 ∧ l = 0) ∨ (l + 1 = K ∧ p.sizeAfter32 w K ≠ fullSize)) →
      l = lowerIndex (p.sizeAfter32 w) fullSize K := by
    intro l hl
    unfold lowerIndex
    rcases hl with ⟨h1, h2⟩ | ⟨h1, h2⟩
    · rw [if_pos (Or.inl h1), h1, h2]
    · rw [if_neg (by rintro (h | h); omega; exact h2 h)]
      omega
  have hnot : ¬ (p.sizeAfter32 w K < fullSize) := not_lt.mpr hK
  intro fuel
  induction fuel with
  | zero =>
    intro k l hk hfuel hinv
    have hkK : k = K := by omega
    subst hkK
    simp only [Pane._CalcSnappedPaneDimensions32.loop, treeAfter32_size, hnot, if_false]
    rw [← hend l hinv]
  | succ fuel ih =>
    intro k l hk hfuel hinv
    by_cases hkK : k = K
    · subst hkK
      simp only [Pane._CalcSnappedPaneDimensions32.loop, treeAfter32_size, hnot, if_false]
      rw [← hend l hinv]
    · have hklt : k < K := by omega
      have hsz := hlt k hklt
      simp only [Pane._CalcSnappedPaneDimensions32.loop, treeAfter32_size, hsz, if_true,
        snapSizeUpwards32_treeAfter w p hwf k]
      by_cases hex : p.sizeAfter32 w (k + 1) = fullSize
      · have hk1 : k + 1 = K := by
          by_contra hne
          have := hlt (k + 1) (by omega)
          linarith
        subst hk1
        simp only [hex, if_true]
        have : lowerIndex (p.sizeAfter32 w) fullSize (k + 1) = k + 1 := by
          unfold lowerIndex
          rw [if_pos (Or.inr hex)]
        rw [this]
      · simp only [hex, if_false]
        exact ih (k + 1) k (by omega) (by omega) (Or.inr ⟨rfl, hex⟩)

/-- While the sizes of the walk stay below `fullSize` the loop does not end. -/
theorem loop32_none (p : Pane) (w : Bool) (fullSize : ℚ) (hwf : p.WellFormed)
    (hlt : ∀ i, p.sizeAfter32 w i < fullSize) :
    ∀ fuel k l, Pane._CalcSnappedPaneDimensions32.loop p w fullSize fuel (p.treeAfter32 w k)
      (p.treeAfter32 w l) = none := by
  intro fuel
  induction fuel with
  | zero =>
    intro k l
    simp only [Pane._CalcSnappedPaneDimensions32.loop, treeAfter32_size, hlt k, if_true]
  | succ fuel ih =>
    intro k l
    have hne : ¬ (p.sizeAfter32 w (k + 1) = fullSize) := ne_of_lt (hlt (k + 1))
    simp only [Pane._CalcSnappedPaneDimensions32.loop, treeAfter32_size, hlt k, if_true,
      snapSizeUpwards32_treeAfter w p hwf k, hne, if_false]
    exact ih (k + 1) k

theorem childrenBounds32_parent (m : PaneState) (a b : Pane) (w : Bool) (j K : ℕ) :
    childrenBounds ((Pane.parent m a b).treeAfter32 w j) ((Pane.parent m a b).treeAfter32 w K)
      = .ok ⟨⟨a.sizeAfter32 w (advances32 m w (a.sizeAfter32 w) (b.sizeAfter32 w) j),
          a.sizeAfter32 w (advances32 m w (a.sizeAfter32 w) (b.sizeAfter32 w) K)⟩,
        ⟨b.sizeAfter32 w (j - advances32 m w (a.sizeAfter32 w) (b.sizeAfter32 w) j),
          b.sizeAfter32 w (K - advances32 m w (a.sizeAfter32 w) (b.sizeAfter32 w) K)⟩⟩ := by
  simp only [childrenBounds, Pane.treeAfter32, LayoutSizeNode.firstChild,
    LayoutSizeNode.secondChild, treeAfter32_size]

/-- On a well-formed internal node whose walk reaches `fullSize`,
`_CalcSnappedPaneDimensions` in `float` returns when it has fuel for `K` rounds, where `K`
is the first index of the walk whose size reaches `fullSize`; the bounds are the sizes of the
children in the trees of indices `lowerIndex` and `K`. -/
theorem calcSnapped32_spec (m : PaneState) (a b : Pane) (w : Bool) (fullSize : ℚ)
    (hwf : (Pane.parent m a b).WellFormed) (N : ℕ)
    (hN : fullSize ≤ (Pane.parent m a b).sizeAfter32 w N) :
    ∃ K, K ≤ N ∧ fullSize ≤ (Pane.parent m a b).sizeAfter32 w K ∧
      (∀ i, i < K → (Pane.parent m a b).sizeAfter32 w i < fullSize) ∧
      ∀ fuel, K ≤ fuel →
        (Pane.parent m a b)._CalcSnappedPaneDimensions32 fuel w fullSize
          = some (.ok ⟨⟨a.sizeAfter32 w (advances32 m w (a.sizeAfter32 w) (b.sizeAfter32 w)
                (lowerIndex ((Pane.parent m a b).sizeAfter32 w) fullSize K)),
              a.sizeAfter32 w (advances32 m w (a.sizeAfter32 w) (b.sizeAfter32 w) K)⟩,
            ⟨b.sizeAfter32 w (lowerIndex ((Pane.parent m a b).sizeAfter32 w) fullSize K
                - advances32 m w (a.sizeAfter32 w) (b.sizeAfter32 w)
                  (lowerIndex ((Pane.parent m a b).sizeAfter32 w) fullSize K)),
              b.sizeAfter32 w (K - advances32 m w (a.sizeAfter32 w) (b.sizeAfter32 w) K)⟩⟩) := by
  classical
  have hex : ∃ k, fullSize ≤ (Pane.parent m a b).sizeAfter32 w k := ⟨N, hN⟩
  refine ⟨Nat.find hex, Nat.find_min' hex hN, Nat.find_spec hex, ?_, ?_⟩
  · intro i hi
    exact not_le.mp (Nat.find_min hex hi)
  · intro fuel hfuel
    have hleaf : (Pane.parent m a b)._IsLeaf = false := by
      simp [Pane._IsLeaf, Pane.m, hwf.1]
    simp only [Pane._CalcSnappedPaneDimensions32, hleaf, getMinSizeTree32_eq w _ hwf]
    rw [← childrenBounds32_parent]
    simp only [Bool.false_eq_true, if_false]
    exact loop32_spec _ w fullSize hwf (Nat.find hex) (Nat.find_spec hex)
      (fun i hi => not_le.mp (Nat.find_min hex hi)) fuel 0 0 (Nat.zero_le _) (by omega)
      (Or.inl ⟨rfl, rfl⟩)

/-- While the sizes of the walk stay below `fullSize`, `_CalcSnappedPaneDimensions` in
`float` does not return, whatever the number of rounds. -/
theorem calcSnapped32_none (m : PaneState) (a b : Pane) (w : Bool) (fullSize : ℚ)
    (hwf : (Pane.parent m a b).WellFormed)
    (hlt : ∀ i, (Pane.parent m a b).sizeAfter32 w i < fullSize) :
    ∀ fuel, (Pane.parent m a b)._CalcSnappedPaneDimensions32 fuel w fullSize = none := by
  intro fuel
  have hleaf : (Pane.parent m a b)._IsLeaf = false := by
    simp [Pane._IsLeaf, Pane.m, hwf.1]
  simp only [Pane._CalcSnappedPaneDimensions32, hleaf, getMinSizeTree32_eq w _ hwf,
    Bool.false_eq_true, if_false]
  exact loop32_none _ w fullSize hwf hlt fuel 0 0

theorem sizeAfter32_perpendicular (m : PaneState) (a b : Pane) (w : Bool) (i : ℕ)
    (hpar : SnapDirectionIsParallelToSplit w m._splitState = false) :
    (Pane.parent m a b).sizeAfter32 w i
      = F32.add (F32.add
          (a.sizeAfter32 w (advances32 m w (a.sizeAfter32 w) (b.sizeAfter32 w) i))
          PaneSeparatorSize)
        (b.sizeAfter32 w (i - advances32 m w (a.sizeAfter32 w) (b.sizeAfter32 w) i)) := by
  simp [Pane.sizeAfter32, PaneState.sizeOfChildren32, hpar]


/-! ## The example controls and trees in `float` -/

/-- A grid control that rounds its result is a `float` grid when its minimum size is a
`float` and its cell has a positive size. -/
theorem gridControl32_floatGrid (id : Nat) (minSize cellSize : Size) (focused : Bool) (w : Bool)
    (hmin : IsFloat (if w then minSize.Width else minSize.Height))
    (hcell : 0 < (if w then cellSize.Width else cellSize.Height)) :
    FloatGrid w (gridControl32 id minSize cellSize focused) := by
  have key : ∀ mn cell d : ℚ, IsFloat mn → 0 < cell → IsFloat d → mn < d →
      IsFloat (F32.round (mn + cell * ⌊(d - mn) / cell⌋)) ∧
        mn ≤ F32.round (mn + cell * ⌊(d - mn) / cell⌋) ∧
        F32.round (mn + cell * ⌊(d - mn) / cell⌋) ≤ d := by
    intro mn cell d hmn hc hd hlt
    have hq : 0 ≤ (d - mn) / cell := div_nonneg (by linarith) hc.le
    have hf0 : (0 : ℚ) ≤ ⌊(d - mn) / cell⌋ := by exact_mod_cast Int.floor_nonneg.mpr hq
    have hfl : (⌊(d - mn) / cell⌋ : ℚ) ≤ (d - mn) / cell := Int.floor_le _
    have hmul : cell * ⌊(d - mn) / cell⌋ ≤ d - mn := by
      calc cell * ⌊(d - mn) / cell⌋ ≤ cell * ((d - mn) / cell) :=
            mul_le_mul_of_nonneg_left hfl hc.le
        _ = d - mn := by field_simp
    refine ⟨F32.isFloat_round _, F32.le_round_of_le _ _ hmn ?_, F32.round_le_of_le _ _ hd ?_⟩
    · have : 0 ≤ cell * ⌊(d - mn) / cell⌋ := mul_nonneg hc.le hf0
      linarith
    · linarith
  cases w with
  | true =>
    simp only [if_true] at hmin hcell
    refine ⟨hmin, hcell.le, ?_⟩
    intro d hd hlt
    exact key minSize.Width cellSize.Width d hmin hcell hd hlt
  | false =>
    simp only [Bool.false_eq_true, if_false] at hmin hcell
    refine ⟨hmin, hcell.le, ?_⟩
    intro d hd hlt
    exact key minSize.Height cellSize.Height d hmin hcell hd hlt

theorem floatLeaves_wellFormed : floatLeaves.WellFormed :=
  ⟨by decide, ⟨rfl, rfl⟩, ⟨rfl, rfl⟩⟩

theorem floatLeaves_floatGrid (w : Bool) : floatLeaves.EveryControl (FloatGrid w) := by
  constructor
  · intro c hc
    cases hc
    exact gridControl32_floatGrid 1 _ _ false w (by cases w <;> decide!)
      (by cases w <;> norm_num)
  · intro c hc
    cases hc
    exact gridControl32_floatGrid 2 _ _ false w (by cases w <;> decide!)
      (by cases w <;> norm_num)

theorem tinyCellLeaf_wellFormed : tinyCellLeaf.WellFormed := ⟨rfl, rfl⟩

theorem tinyCellLeaves_wellFormed : tinyCellLeaves.WellFormed :=
  ⟨by decide, ⟨rfl, rfl⟩, ⟨rfl, rfl⟩⟩

/-- With cells of `2 ^ (-21)` of a pixel a leaf whose first snap gives 17 stays at 17:
`17 + 2 ^ (-21)` is rounded back to 17. -/
theorem tinyCell_stuck (c : TermControl) (hfirst : c.firstSnap32 true = 17)
    (hcell : c.cellDimension true = 1 / 2 ^ 21) (k : ℕ) :
    leafSizeAfter32 c true (k + 1) = 17 := by
  induction k with
  | zero => exact hfirst
  | succ k ih =>
    show F32.add (leafSizeAfter32 c true (k + 1)) (c.cellDimension true) = 17
    rw [ih, hcell]
    decide!

theorem tinyCell_le (c : TermControl) (hmin : c.minDimension true = 16)
    (hfirst : c.firstSnap32 true = 17) (hcell : c.cellDimension true = 1 / 2 ^ 21) (k : ℕ) :
    leafSizeAfter32 c true k ≤ 17 := by
  cases k with
  | zero =>
    show c.minDimension true ≤ 17
    rw [hmin]
    norm_num
  | succ k => rw [tinyCell_stuck c hfirst hcell]

/-- The sizes of the walk of `tinyCellLeaves` along the width stay at or below 38. -/
theorem tinyCellLeaves_bounded (k : ℕ) : tinyCellLeaves.sizeAfter32 true k ≤ 38 := by
  have h : PaneState.sizeOfChildren32 ⟨none, none, false, .Vertical, Half, ⟨100, 50⟩⟩ true
      17 17 = 38 := by decide!
  rw [← h]
  exact sizeOfChildren32_mono _ true _ _ _ _
    (tinyCell_le _ (by decide!) (by decide!) (by decide!) _)
    (tinyCell_le _ (by decide!) (by decide!) (by decide!) _)


/-! ## Whole numbers of pixels in `float` -/

namespace F32

end F32

namespace F32

theorem nearestEven_error (t : ℚ) :
    t - 1 / 2 ≤ (nearestEven t : ℚ) ∧ (nearestEven t : ℚ) ≤ t + 1 / 2 := by
  have h1 := Int.floor_le t
  have h2 := Int.lt_floor_add_one t
  unfold nearestEven
  by_cases ha : t - ⌊t⌋ < 1 / 2
  · rw [if_pos ha]
    constructor <;> linarith
  · rw [if_neg ha]
    by_cases hb : 1 / 2 < t - ⌊t⌋
    · rw [if_pos hb]
      push_cast
      constructor <;> linarith
    · rw [if_neg hb]
      have he : t - ⌊t⌋ = 1 / 2 := le_antisymm (not_lt.mp hb) (not_lt.mp ha)
      split
      · constructor <;> linarith
      · push_cast
        constructor <;> linarith

theorem roundPos_error (x : ℚ) (h : 0 ≤ x) :
    x - (x + leastNormal) / 2 ^ 24 ≤ roundPos x ∧
      roundPos x ≤ x + (x + leastNormal) / 2 ^ 24 := by
  obtain ⟨i, _, hb, hlo, _⟩ := binade_top x
  have hL := leastNormal_pos
  have hB : 0 < (2 : ℚ) ^ i * leastNormal := by positivity
  have hBx : (2 : ℚ) ^ i * leastNormal ≤ x + leastNormal := by
    by_cases h0 : i = 0
    · subst h0
      simp only [pow_zero, one_mul]
      linarith
    · have := hlo h0
      linarith
  have hq : 0 < (2 : ℚ) ^ i * leastNormal / 2 ^ 23 := by positivity
  rw [roundPos_eq x _ hb]
  obtain ⟨e1, e2⟩ := nearestEven_error (x / (2 ^ i * leastNormal / 2 ^ 23))
  have hx : x / (2 ^ i * leastNormal / 2 ^ 23) * (2 ^ i * leastNormal / 2 ^ 23) = x := by
    field_simp
  have hhalf : (1 : ℚ) / 2 * (2 ^ i * leastNormal / 2 ^ 23)
      = 2 ^ i * leastNormal / 2 ^ 24 := by
    ring
  have hle : (2 : ℚ) ^ i * leastNormal / 2 ^ 24 ≤ (x + leastNormal) / 2 ^ 24 :=
    div_le_div_of_nonneg_right hBx (by positivity)
  have m1 := mul_le_mul_of_nonneg_right e1 hq.le
  have m2 := mul_le_mul_of_nonneg_right e2 hq.le
  rw [sub_mul, hx, hhalf] at m1
  rw [add_mul, hx, hhalf] at m2
  constructor <;> linarith

theorem round_error (x : ℚ) :
    x - (|x| + leastNormal) / 2 ^ 24 ≤ round x ∧
      round x ≤ x + (|x| + leastNormal) / 2 ^ 24 := by
  unfold round
  by_cases hx : x < 0
  · rw [if_pos hx]
    obtain ⟨e1, e2⟩ := roundPos_error (-x) (by linarith)
    rw [abs_of_neg hx]
    constructor <;> linarith
  · rw [if_neg hx]
    rw [abs_of_nonneg (not_lt.mp hx)]
    exact roundPos_error x (not_lt.mp hx)

theorem leastNormal_le_one : leastNormal ≤ 1 := by
  unfold leastNormal
  rw [div_le_one (by positivity)]
  exact one_le_pow₀ (by norm_num)

theorem leastNormal_le_half : leastNormal ≤ 1 / 2 := by
  unfold leastNormal
  norm_num

end F32

/-- The rounded sums of two sizes and the separator exceed the exact sum by at most the
rounding. -/
theorem sum_error (f b F : ℚ) (hf : 0 ≤ f) (hb : 0 ≤ b)
    (hlow : F32.add (F32.add f PaneSeparatorSize) b ≤ F) :
    0 ≤ F ∧ f + 4 + b ≤ F + (F + 4) / 2 ^ 22 := by
  have hL1 := F32.leastNormal_le_half
  have hL0 := F32.leastNormal_pos
  have hs1 := (F32.round_error (f + 4)).1
  rw [abs_of_nonneg (by linarith)] at hs1
  have hs10 : 0 ≤ F32.round (f + 4) := F32.round_nonneg _ (by linarith)
  have hS := (F32.round_error (F32.round (f + 4) + b)).1
  rw [abs_of_nonneg (by linarith)] at hS
  have hS0 : 0 ≤ F32.round (F32.round (f + 4) + b) := F32.round_nonneg _ (by linarith)
  have hlow2 : F32.round (F32.round (f + 4) + b) ≤ F := hlow
  have hF0 : 0 ≤ F := le_trans hS0 hlow2
  refine ⟨hF0, ?_⟩
  obtain ⟨s1, hs1e⟩ : ∃ s1, s1 = F32.round (f + 4) := ⟨_, rfl⟩
  rw [← hs1e] at hs1 hs10 hS hS0 hlow2
  obtain ⟨S, hSe⟩ : ∃ S, S = F32.round (s1 + b) := ⟨_, rfl⟩
  rw [← hSe] at hS hS0 hlow2
  obtain ⟨L, hLe⟩ : ∃ L, L = F32.leastNormal := ⟨_, rfl⟩
  rw [← hLe] at hL1 hL0 hs1 hS
  norm_num at hs1 hS ⊢
  linarith

/-- The second component of `_GetPaneSizes` is below the second lower bound by at most the
rounding. -/
theorem second_error (f b F : ℚ) (hf : 0 ≤ f) (hb : 0 ≤ b)
    (hlow : F32.add (F32.add f PaneSeparatorSize) b ≤ F) :
    b - (F + 4) / 2 ^ 21 ≤ F32.sub (F32.sub F PaneSeparatorSize) f := by
  obtain ⟨hF0, hsum⟩ := sum_error f b F hf hb hlow
  have hL1 := F32.leastNormal_le_half
  have hL0 := F32.leastNormal_pos
  have hd := F32.round_error (F - 4)
  have habs : |F - 4| ≤ F + 4 := abs_le.mpr ⟨by linarith, by linarith⟩
  obtain ⟨d1, hd1⟩ : ∃ d1, d1 = F32.round (F - 4) := ⟨_, rfl⟩
  rw [← hd1] at hd
  have h2 := (F32.round_error (d1 - f)).1
  have hgoal : F32.sub (F32.sub F PaneSeparatorSize) f = F32.round (d1 - f) := by
    rw [hd1]
    rfl
  rw [hgoal]
  obtain ⟨s2, hs2⟩ : ∃ s2, s2 = F32.round (d1 - f) := ⟨_, rfl⟩
  rw [← hs2] at h2 ⊢
  obtain ⟨L, hLe⟩ : ∃ L, L = F32.leastNormal := ⟨_, rfl⟩
  rw [← hLe] at hL1 hL0 hd h2
  obtain ⟨A, hA⟩ : ∃ A, A = |F - 4| := ⟨_, rfl⟩
  rw [← hA] at hd habs
  obtain ⟨hda, hdb⟩ := hd
  by_cases hs : 0 ≤ d1 - f
  · rw [abs_of_nonneg hs] at h2
    norm_num at hda hdb h2 hsum ⊢
    linarith
  · rw [abs_of_neg (not_le.mp hs)] at h2
    norm_num at hda hdb h2 hsum ⊢
    linarith


/-! ## C27, C34, C37, C39: the layout as the source computes it, in `float` -/

/-- C27, as the spec states it, fails in `float`. On the node `floatLeaves`, whose children
have the minimum width 10, with `totalSize = 100` (so `totalSize - 4 = 96 > 0` and
`10 + 10 ≤ 96`) and the requested ratio 0.05, `_ClampSplitPosition` returns the quotient
`10 / 96` rounded to `float`, which is below `10 / 96`: `r * (totalSize - 4) < 10`. On the
node `thirdsLeaves`, whose children have the minimum widths 1 and 2, with `totalSize = 7`
(so `1 + 2 ≤ 7 - 4`), the rounded lower bound `1 / 3` is above the rounded upper bound
`1 - 2 / 3`, and `std::clamp` has no defined result. -/
theorem clampSplitPosition_rounds_below :
    floatLeaves._ClampSplitPosition32 true float0_05 100 = .ok (13981013 / 134217728) ∧
      (0 : ℚ) < 100 - 4 ∧ (10 : ℚ) + 10 ≤ 100 - 4 ∧
      (13981013 / 134217728 : ℚ) * (100 - 4) < 10 ∧
      (0 : ℚ) < 7 - 4 ∧ (1 : ℚ) + 2 ≤ 7 - 4 ∧
      thirdsLeaves._ClampSplitPosition32 true Half 7 = .error .undefined := by
  decide!

/-- C27, amended. Split-ratio clamp in `float`: on a node with children whose minimum sizes
`m1`, `m2` along the axis are not negative, for a `totalSize` whose difference
`d = totalSize - 4`, rounded to `float`, is positive, and such that the bounds
`lo = m1 / d` and `hi = 1 - m2 / d`, each operation rounded to `float`, are in order,
`_ClampSplitPosition` returns a ratio `r` with `lo ≤ r ≤ hi` that lies in `[0, 1]` and equals
the requested ratio whenever that lies between the two bounds. Where the difference and the
quotient are values of `float` as they stand `r * (totalSize - 4) ≥ m1`, and where the
difference, the quotient and `1 - m2 / (totalSize - 4)` are, `(1 - r) * (totalSize - 4) ≥
m2`. In every case the two inequalities of the claim hold up to the rounding:
`r * d ≥ m1 - (m1 + d) / 2 ^ 24` and `(1 - r) * d ≥ m2 - (m2 + d) / 2 ^ 23`. -/
theorem clampSplitPosition_bounds (m : PaneState) (a b : Pane) (w : Bool)
    (requested totalSize : ℚ) (firstMin secondMin : Size)
    (ha : a._GetMinSize32 = .ok firstMin) (hb : b._GetMinSize32 = .ok secondMin)
    (h1 : 0 ≤ (if w then firstMin.Width else firstMin.Height))
    (h2 : 0 ≤ (if w then secondMin.Width else secondMin.Height))
    (hd : 0 < F32.sub totalSize PaneSeparatorSize)
    (hord : F32.div (if w then firstMin.Width else firstMin.Height)
        (F32.sub totalSize PaneSeparatorSize)
      ≤ F32.sub 1 (F32.div (if w then secondMin.Width else secondMin.Height)
        (F32.sub totalSize PaneSeparatorSize))) :
    ∃ r, (Pane.parent m a b)._ClampSplitPosition32 w requested totalSize = .ok r ∧
      F32.div (if w then firstMin.Width else firstMin.Height)
        (F32.sub totalSize PaneSeparatorSize) ≤ r ∧
      r ≤ F32.sub 1 (F32.div (if w then secondMin.Width else secondMin.Height)
        (F32.sub totalSize PaneSeparatorSize)) ∧
      0 ≤ r ∧ r ≤ 1 ∧
      (F32.div (if w then firstMin.Width else firstMin.Height)
          (F32.sub totalSize PaneSeparatorSize) ≤ requested →
        requested ≤ F32.sub 1 (F32.div (if w then secondMin.Width else secondMin.Height)
          (F32.sub totalSize PaneSeparatorSize)) → r = requested) ∧
      (IsFloat (totalSize - 4) →
        IsFloat ((if w then firstMin.Width else firstMin.Height) / (totalSize - 4)) →
        (if w then firstMin.Width else firstMin.Height) ≤ r * (totalSize - 4)) ∧
      (IsFloat (totalSize - 4) →
        IsFloat ((if w then secondMin.Width else secondMin.Height) / (totalSize - 4)) →
        IsFloat (1 - (if w then secondMin.Width else secondMin.Height) / (totalSize - 4)) →
        (if w then secondMin.Width else secondMin.Height) ≤ (1 - r) * (totalSize - 4)) ∧
      (if w then firstMin.Width else firstMin.Height)
          - ((if w then firstMin.Width else firstMin.Height)
            + F32.sub totalSize PaneSeparatorSize) / 2 ^ 24
        ≤ r * F32.sub totalSize PaneSeparatorSize ∧
      (if w then secondMin.Width else secondMin.Height)
          - ((if w then secondMin.Width else secondMin.Height)
            + F32.sub totalSize PaneSeparatorSize) / 2 ^ 23
        ≤ (1 - r) * F32.sub totalSize PaneSeparatorSize := by
  obtain ⟨m1, hm1⟩ : ∃ m1, m1 = (if w then firstMin.Width else firstMin.Height) := ⟨_, rfl⟩
  obtain ⟨m2, hm2⟩ : ∃ m2, m2 = (if w then secondMin.Width else secondMin.Height) := ⟨_, rfl⟩
  obtain ⟨d, hdd⟩ : ∃ d, d = F32.sub totalSize PaneSeparatorSize := ⟨_, rfl⟩
  rw [← hm1] at h1 hord ⊢
  rw [← hm2] at h2 hord ⊢
  rw [← hdd] at hd hord ⊢
  obtain ⟨lo, hlo⟩ : ∃ lo, lo = F32.div m1 d := ⟨_, rfl⟩
  obtain ⟨hi, hhi⟩ : ∃ hi, hi = F32.sub 1 (F32.div m2 d) := ⟨_, rfl⟩
  rw [← hlo, ← hhi] at hord ⊢
  have hlo0 : 0 ≤ lo := by
    rw [hlo]
    exact F32.round_nonneg _ (div_nonneg h1 hd.le)
  have hhi1 : hi ≤ 1 := by
    rw [hhi]
    apply F32.round_le_of_le _ _ isFloat_one
    have : 0 ≤ F32.div m2 d := F32.round_nonneg _ (div_nonneg h2 hd.le)
    linarith
  have hne : ¬ (d = 0) := ne_of_gt hd
  have hnot : ¬ (hi < lo) := not_lt.mpr hord
  have hcall : (Pane.parent m a b)._ClampSplitPosition32 w requested totalSize
      = .ok (if requested < lo then lo else if hi < requested then hi else requested) := by
    simp only [Pane._ClampSplitPosition32, ha, hb, ← hm1, ← hm2, ← hdd, hne, if_false,
      ← hlo, ← hhi, std_clamp, hnot]
  have hr1 : lo ≤ (if requested < lo then lo else if hi < requested then hi else requested) := by
    split
    · exact le_refl _
    · split
      · exact hord
      · linarith
  have hr2 : (if requested < lo then lo else if hi < requested then hi else requested) ≤ hi := by
    split
    · exact hord
    · split
      · exact le_refl _
      · linarith
  obtain ⟨r, hr⟩ : ∃ r, r = (if requested < lo then lo else if hi < requested then hi
      else requested) := ⟨_, rfl⟩
  rw [← hr] at hcall hr1 hr2
  have hL1 := F32.leastNormal_le_one
  have hL0 := F32.leastNormal_pos
  have hLd : F32.leastNormal * d ≤ d := mul_le_of_le_one_left hd.le hL1
  have hq0 : 0 ≤ F32.div m2 d := F32.round_nonneg _ (div_nonneg h2 hd.le)
  have herr1 : m1 - (m1 + F32.leastNormal * d) / 2 ^ 24 ≤ lo * d := by
    have e := (F32.round_error (m1 / d)).1
    rw [abs_of_nonneg (div_nonneg h1 hd.le)] at e
    have e2 := mul_le_mul_of_nonneg_right e hd.le
    have e3 : (m1 / d - (m1 / d + F32.leastNormal) / 2 ^ 24) * d
        = m1 / d * d - (m1 / d * d + F32.leastNormal * d) / 2 ^ 24 := by ring
    have e4 : m1 / d * d = m1 := by field_simp
    rw [e3, e4] at e2
    rw [hlo]
    exact e2
  have herr2 : m2 - (m2 + F32.leastNormal * d) / 2 ^ 24 ≤ F32.div m2 d * d := by
    have e := (F32.round_error (m2 / d)).1
    rw [abs_of_nonneg (div_nonneg h2 hd.le)] at e
    have e2 := mul_le_mul_of_nonneg_right e hd.le
    have e3 : (m2 / d - (m2 / d + F32.leastNormal) / 2 ^ 24) * d
        = m2 / d * d - (m2 / d * d + F32.leastNormal * d) / 2 ^ 24 := by ring
    have e4 : m2 / d * d = m2 := by field_simp
    rw [e3, e4] at e2
    exact e2
  have herr3 : F32.div m2 d * (1 - 1 / 2 ^ 24) - (1 + F32.leastNormal) / 2 ^ 24
      ≤ 1 - hi := by
    have e := (F32.round_error (1 - F32.div m2 d)).2
    have e5 : hi = F32.round (1 - F32.div m2 d) := hhi
    rw [← e5] at e
    by_cases hq1 : F32.div m2 d ≤ 1
    · rw [abs_of_nonneg (by linarith)] at e
      linarith
    · rw [abs_of_neg (by linarith)] at e
      linarith
  refine ⟨r, hcall, hr1, hr2, le_trans hlo0 hr1, le_trans hr2 hhi1, ?_, ?_, ?_, ?_, ?_⟩
  · intro h3 h4
    rw [hr, if_neg (not_lt.mpr h3), if_neg (not_lt.mpr h4)]
  · intro hf1 hf2
    have hd4 : d = totalSize - 4 := by
      rw [hdd]
      exact hf1
    have hloe : lo = m1 / (totalSize - 4) := by
      rw [hlo, hd4]
      exact hf2
    have hpos : 0 < totalSize - 4 := by rw [← hd4]; exact hd
    calc m1 = m1 / (totalSize - 4) * (totalSize - 4) := by field_simp
      _ ≤ r * (totalSize - 4) :=
        mul_le_mul_of_nonneg_right (by rw [← hloe]; exact hr1) hpos.le
  · intro hf1 hf2 hf3
    have hd4 : d = totalSize - 4 := by
      rw [hdd]
      exact hf1
    have hq : F32.div m2 d = m2 / (totalSize - 4) := by
      rw [hd4]
      exact hf2
    have hhie : hi = 1 - m2 / (totalSize - 4) := by
      rw [hhi, hq]
      exact hf3
    have hpos : 0 < totalSize - 4 := by rw [← hd4]; exact hd
    have h5 : m2 / (totalSize - 4) ≤ 1 - r := by
      rw [hhie] at hr2
      linarith
    calc m2 = m2 / (totalSize - 4) * (totalSize - 4) := by field_simp
      _ ≤ (1 - r) * (totalSize - 4) := mul_le_mul_of_nonneg_right h5 hpos.le
  · have e1 := mul_le_mul_of_nonneg_right hr1 hd.le
    have e2 : (m1 + F32.leastNormal * d) / 2 ^ 24 ≤ (m1 + d) / 2 ^ 24 :=
      div_le_div_of_nonneg_right (by linarith) (by positivity)
    linarith
  · have e1 : 1 - hi ≤ 1 - r := by linarith
    have e2 := mul_le_mul_of_nonneg_right (le_trans herr3 e1) hd.le
    have e3 : (F32.div m2 d * (1 - 1 / 2 ^ 24) - (1 + F32.leastNormal) / 2 ^ 24) * d
        = F32.div m2 d * d * (1 - 1 / 2 ^ 24) - (d + F32.leastNormal * d) / 2 ^ 24 := by
      ring
    rw [e3] at e2
    have e4 := mul_le_mul_of_nonneg_right herr2
      (show (0 : ℚ) ≤ 1 - 1 / 2 ^ 24 by norm_num)
    have hLd2 : F32.leastNormal * d ≤ d / 2 := by
      have := mul_le_mul_of_nonneg_right F32.leastNormal_le_half hd.le
      linarith
    have hLd0 : 0 ≤ F32.leastNormal * d := mul_nonneg hL0.le hd.le
    linarith

/-- Witness of `clampSplitPosition_bounds` (C27): the requested ratio 0.05 on the node
`floatLeaves` of width 100, which is clamped to the lower bound. -/
theorem clampSplitPosition_bounds_witness :
    ∃ r, floatLeaves._ClampSplitPosition32 true float0_05 100 = .ok r ∧
      F32.div 10 (F32.sub 100 PaneSeparatorSize) ≤ r ∧
      r ≤ F32.sub 1 (F32.div 10 (F32.sub 100 PaneSeparatorSize)) ∧
      0 ≤ r ∧ r ≤ 1 ∧
      (F32.div 10 (F32.sub 100 PaneSeparatorSize) ≤ float0_05 →
        float0_05 ≤ F32.sub 1 (F32.div 10 (F32.sub 100 PaneSeparatorSize)) →
        r = float0_05) ∧
      (IsFloat (100 - 4) → IsFloat ((10 : ℚ) / (100 - 4)) → (10 : ℚ) ≤ r * (100 - 4)) ∧
      (IsFloat (100 - 4) → IsFloat ((10 : ℚ) / (100 - 4)) →
        IsFloat (1 - (10 : ℚ) / (100 - 4)) → (10 : ℚ) ≤ (1 - r) * (100 - 4)) ∧
      (10 : ℚ) - (10 + F32.sub 100 PaneSeparatorSize) / 2 ^ 24
        ≤ r * F32.sub 100 PaneSeparatorSize ∧
      (10 : ℚ) - (10 + F32.sub 100 PaneSeparatorSize) / 2 ^ 23
        ≤ (1 - r) * F32.sub 100 PaneSeparatorSize :=
  clampSplitPosition_bounds _ _ _ true float0_05 100 ⟨10, 10⟩ ⟨10, 10⟩ rfl rfl
    (by norm_num) (by norm_num) (by decide!) (by decide!)

/-- C34, as the spec states it, fails in `float` on a leaf: the control of `tinyCellLeaf` has
cells of the positive size `2 ^ (-21)`, the walk along the width returns a node of size 17
after one step, and one more `_SnapSizeUpwards` returns a node of size 17 again, since
`17 + 2 ^ (-21)` is rounded back to 17. -/
theorem snapSizeUpwards_absorbed :
    tinyCellLeaf.WellFormed ∧
      (∀ c, tinyCellLeaf.m._control = some c → 0 < c.cellDimension true) ∧
      ∃ t t', tinyCellLeaf.snapWalk32 true 1 = .ok t ∧
        tinyCellLeaf._SnapSizeUpwards32 true t = .ok t' ∧ t.size = 17 ∧ t'.size = 17 ∧
        ¬ t.size < t'.size := by
  refine ⟨tinyCellLeaf_wellFormed, ?_, tinyCellLeaf.treeAfter32 true 1,
    tinyCellLeaf.treeAfter32 true 2, snapWalk32_eq _ true tinyCellLeaf_wellFormed 1,
    snapSizeUpwards32_treeAfter true _ tinyCellLeaf_wellFormed 1, ?_, ?_, ?_⟩
  · intro c hc
    cases hc
    decide!
  · rw [treeAfter32_size]
    exact tinyCell_stuck _ (by decide!) (by decide!) 0
  · rw [treeAfter32_size]
    exact tinyCell_stuck _ (by decide!) (by decide!) 1
  · rw [treeAfter32_size, treeAfter32_size]
    have h1 : tinyCellLeaf.sizeAfter32 true 1 = 17 :=
      tinyCell_stuck _ (by decide!) (by decide!) 0
    have h2 : tinyCellLeaf.sizeAfter32 true 2 = 17 :=
      tinyCell_stuck _ (by decide!) (by decide!) 1
    rw [h1, h2]
    norm_num

/-- C34, amended. The upward snap walk in `float` does not decrease: on a well-formed tree
whose controls have a `float` as minimum size, a cell size that is not negative, and snap a
`float` above the minimum size to a `float` between the minimum size and the proposed size,
the size tree after `k` steps of the walk exists, one more `_SnapSizeUpwards` returns, and
the tree it leaves is nowhere smaller: not at the node and not at any node below it. On a
leaf the step from the minimum size makes the size strictly larger when `size + 1` is a
`float` and the control snaps it to less than a cell below it, and a later step gives the
rounded sum of the size and the cell size, which is strictly larger when the cell is
positive and the sum is a `float`. -/
theorem snapSizeUpwards_nondecreasing (p : Pane) (w : Bool) (k : ℕ) (hwf : p.WellFormed)
    (hgrid : p.EveryControl (FloatGrid w)) :
    ∃ t t', p.snapWalk32 w k = .ok t ∧ p._SnapSizeUpwards32 w t = .ok t' ∧
      p.snapWalk32 w (k + 1) = .ok t' ∧ t.size ≤ t'.size ∧ p.NoSmaller t t' ∧
      (∀ m c, p = .childless m → m._control = some c →
        (k = 0 → IsFloat (t.size + 1) →
          t.size + 1 < c.SnapDimensionToGrid w (t.size + 1) + c.cellDimension w →
          t.size < t'.size) ∧
        (1 ≤ k → t'.size = F32.add t.size (c.cellDimension w) ∧
          (0 < c.cellDimension w → IsFloat (t.size + c.cellDimension w) →
            t.size < t'.size))) := by
  refine ⟨p.treeAfter32 w k, p.treeAfter32 w (k + 1), snapWalk32_eq p w hwf k,
    snapSizeUpwards32_treeAfter w p hwf k, snapWalk32_eq p w hwf (k + 1), ?_,
    treeAfter32_noSmaller w p hwf hgrid k (k + 1) (Nat.le_succ k), ?_⟩
  · rw [treeAfter32_size, treeAfter32_size]
    exact sizeAfter32_mono w p hwf hgrid (Nat.le_succ k)
  · intro m c hp hc
    subst hp
    rw [treeAfter32_size, treeAfter32_size]
    simp only [Pane.sizeAfter32, hc]
    have hg : FloatGrid w c := hgrid c hc
    constructor
    · intro hk hf hsnap
      subst hk
      show c.minDimension w < c.firstSnap32 w
      have hsz : leafSizeAfter32 c w 0 = c.minDimension w := rfl
      rw [hsz] at hf hsnap
      have hd : F32.add (c.minDimension w) 1 = c.minDimension w + 1 := hf
      unfold TermControl.firstSnap32
      rw [hd]
      rw [if_neg (by linarith)]
      split
      · rename_i h2
        rw [h2]
        linarith
      · have := F32.le_round_of_le
          (c.SnapDimensionToGrid w (c.minDimension w + 1) + c.cellDimension w)
          (c.minDimension w + 1) hf hsnap.le
        have h3 : c.minDimension w + 1 ≤ F32.add
            (c.SnapDimensionToGrid w (c.minDimension w + 1)) (c.cellDimension w) := this
        linarith
    · intro hk
      obtain ⟨j, hj⟩ := Nat.exists_eq_add_of_le hk
      have hk2 : k = j + 1 := by omega
      subst hk2
      refine ⟨rfl, ?_⟩
      intro hcell hf
      show leafSizeAfter32 c w (j + 1)
        < F32.add (leafSizeAfter32 c w (j + 1)) (c.cellDimension w)
      have : F32.add (leafSizeAfter32 c w (j + 1)) (c.cellDimension w)
          = leafSizeAfter32 c w (j + 1) + c.cellDimension w := hf
      rw [this]
      linarith

/-- Witness of `snapSizeUpwards_nondecreasing` (C34): the second step of the walk along the
width of the example split of two leaves. -/
theorem snapSizeUpwards_nondecreasing_witness :
    ∃ t t', floatLeaves.snapWalk32 true 1 = .ok t ∧
      floatLeaves._SnapSizeUpwards32 true t = .ok t' ∧
      floatLeaves.snapWalk32 true 2 = .ok t' ∧ t.size ≤ t'.size ∧
      floatLeaves.NoSmaller t t' ∧
      (∀ m c, floatLeaves = .childless m → m._control = some c →
        (1 = 0 → IsFloat (t.size + 1) →
          t.size + 1 < c.SnapDimensionToGrid true (t.size + 1) + c.cellDimension true →
          t.size < t'.size) ∧
        (1 ≤ 1 → t'.size = F32.add t.size (c.cellDimension true) ∧
          (0 < c.cellDimension true → IsFloat (t.size + c.cellDimension true) →
            t.size < t'.size))) :=
  snapSizeUpwards_nondecreasing floatLeaves true 1 floatLeaves_wellFormed
    (floatLeaves_floatGrid true)

/-- C37, as the spec states it, fails in `float`: the children of `fractionalLeaves` have the
minimum widths 7.2 and 8.4 as `float`s, the minimum width of the node is
`(7.2 + 4) + 8.4` with each sum rounded, and at that `fullSize` `_GetPaneSizes` returns the
pair whose second component `(fullSize - 4) - 7.2`, each difference rounded, is below the
minimum width of the second child. And on `tinyCellLeaves`, whose minimum width is 36 and
whose leaves have cells of `2 ^ (-21)`, `_GetPaneSizes(100)` has not returned after any
number of rounds of the loop of `_CalcSnappedPaneDimensions`. -/
theorem paneSizes_rounds_below_minimum :
    fractionalLeaves._GetMinSize32 = .ok ⟨2569011 / 131072, 10⟩ ∧
      fractionalLeaves._GetPaneSizes32 0 (2569011 / 131072)
        = some (.ok (float7_2, 8808037 / 1048576)) ∧
      (8808037 / 1048576 : ℚ) < float8_4 ∧
      tinyCellLeaves._GetMinSize32 = .ok ⟨36, 16⟩ ∧
      ∀ fuel, tinyCellLeaves._GetPaneSizes32 fuel 100 = none := by
  refine ⟨by decide!, by decide!, by decide!, by decide!, fun fuel => ?_⟩
  have h : tinyCellLeaves._CalcSnappedPaneDimensions32 fuel true 100 = none := by
    apply calcSnapped32_none _ _ _ true 100 tinyCellLeaves_wellFormed
    intro i
    have h38 : tinyCellLeaves.sizeAfter32 true i ≤ 38 := tinyCellLeaves_bounded i
    exact lt_of_le_of_lt h38 (by norm_num)
  have hv : decide (tinyCellLeaves.m._splitState = SplitState.Vertical) = true := by decide
  simp only [Pane._GetPaneSizes32, hv, h]

/-- C37, amended. Children and their minimum in `float`: on a well-formed node with children
whose controls are `float` grids, for a `fullSize` that is not below the dimension of
`_GetMinSize` of the node along its split and is reached by a step `N` of the upward-snap
walk of the node, `_GetPaneSizes(fullSize)` returns (with fuel for `N` rounds of the loop) a
pair whose first component is the size of a step of the upward-snap walk of the first child
and not below the dimension of `_GetMinSize` of the first child, and whose second component
is `(fullSize - 4) - first`, each difference rounded. The second component is not below the
lower snap bound of the second child, which is not below the dimension of `_GetMinSize` of
the second child, when the sums `first + 4` and `first + 4 + bound` and the difference
`fullSize - 4` are values of `float` as they stand; and for minimum sizes that are not
negative it is below that bound by at most the rounding, `(fullSize + 4) / 2 ^ 21`. -/
theorem paneSizes_above_minimum (m : PaneState) (a b : Pane) (fullSize : ℚ) (minSize : Size)
    (N : ℕ) (reached : LayoutSizeNode) (hwf : (Pane.parent m a b).WellFormed)
    (hgrid : (Pane.parent m a b).EveryControl (FloatGrid (decide (m._splitState = .Vertical))))
    (hmin : (Pane.parent m a b)._GetMinSize32 = .ok minSize)
    (hfull : (if m._splitState = .Vertical then minSize.Width else minSize.Height)
      ≤ fullSize)
    (hwalk : (Pane.parent m a b).snapWalk32 (decide (m._splitState = .Vertical)) N
      = .ok reached)
    (hreach : fullSize ≤ reached.size) :
    ∃ first second firstMin secondMin bound,
      (∀ fuel, N ≤ fuel →
        (Pane.parent m a b)._GetPaneSizes32 fuel fullSize = some (.ok (first, second))) ∧
      a._GetMinSize32 = .ok firstMin ∧ b._GetMinSize32 = .ok secondMin ∧
      (if m._splitState = .Vertical then firstMin.Width else firstMin.Height) ≤ first ∧
      (∃ k sizeNode, a.snapWalk32 (decide (m._splitState = .Vertical)) k = .ok sizeNode ∧
        sizeNode.size = first) ∧
      second = F32.sub (F32.sub fullSize PaneSeparatorSize) first ∧
      (∃ k sizeNode, b.snapWalk32 (decide (m._splitState = .Vertical)) k = .ok sizeNode ∧
        sizeNode.size = bound) ∧
      (if m._splitState = .Vertical then secondMin.Width else secondMin.Height) ≤ bound ∧
      (IsFloat (first + 4) → IsFloat (first + 4 + bound) → IsFloat (fullSize - 4) →
        bound ≤ second) ∧
      (0 ≤ (if m._splitState = .Vertical then firstMin.Width else firstMin.Height) →
        0 ≤ (if m._splitState = .Vertical then secondMin.Width else secondMin.Height) →
        bound - (fullSize + 4) / 2 ^ 21 ≤ second) := by
  have hpar := splitAxis_perpendicular m._splitState hwf.1
  have hdimw : ∀ sz : Size, (if m._splitState = .Vertical then sz.Width else sz.Height)
      = (if decide (m._splitState = .Vertical) = true then sz.Width else sz.Height) := by
    intro sz
    simp only [decide_eq_true_eq]
  rw [hdimw] at hfull
  simp only [hdimw]
  obtain ⟨w, hw⟩ : ∃ w, w = decide (m._splitState = .Vertical) := ⟨_, rfl⟩
  rw [← hw] at hgrid hpar hfull hwalk ⊢
  obtain ⟨sz, hsz, hdim⟩ := getMinSize32_ok _ hwf
  rw [hmin] at hsz
  injection hsz with hsz
  subst hsz
  obtain ⟨sa, hsa, hda⟩ := getMinSize32_ok a hwf.2.1
  obtain ⟨sb, hsb, hdb⟩ := getMinSize32_ok b hwf.2.2
  rw [hdim w] at hfull
  rw [snapWalk32_eq _ w hwf N] at hwalk
  injection hwalk with hwalk
  rw [← hwalk, treeAfter32_size] at hreach
  obtain ⟨K, hKN, _, hlt, hr⟩ := calcSnapped32_spec m a b w fullSize hwf N hreach
  have hlow := lowerIndex_le _ fullSize K hlt hfull
  rw [sizeAfter32_perpendicular m a b w _ hpar] at hlow
  have hma := sizeAfter32_mono w a hwf.2.1 hgrid.1
  have hmb := sizeAfter32_mono w b hwf.2.2 hgrid.2
  obtain ⟨j, hj⟩ : ∃ j, j = lowerIndex ((Pane.parent m a b).sizeAfter32 w) fullSize K :=
    ⟨_, rfl⟩
  rw [← hj] at hlow hr
  obtain ⟨ja, hja⟩ : ∃ ja, ja = advances32 m w (a.sizeAfter32 w) (b.sizeAfter32 w) j :=
    ⟨_, rfl⟩
  rw [← hja] at hlow hr
  refine ⟨a.sizeAfter32 w ja,
    F32.sub (F32.sub fullSize PaneSeparatorSize) (a.sizeAfter32 w ja), sa, sb,
    b.sizeAfter32 w (j - ja), fun fuel hfuel => ?_, hsa, hsb, ?_,
    ⟨ja, a.treeAfter32 w ja, snapWalk32_eq a w hwf.2.1 ja, treeAfter32_size a w ja⟩, rfl,
    ⟨j - ja, b.treeAfter32 w (j - ja), snapWalk32_eq b w hwf.2.2 (j - ja),
      treeAfter32_size b w (j - ja)⟩, ?_, ?_, ?_⟩
  · simp only [Pane._GetPaneSizes32, Pane.m, ← hw, hr fuel (by omega)]
  · rw [hda w]
    exact hma (Nat.zero_le _)
  · rw [hdb w]
    exact hmb (Nat.zero_le _)
  · intro hf1 hf2 hf3
    have e1 : F32.add (a.sizeAfter32 w ja) PaneSeparatorSize = a.sizeAfter32 w ja + 4 := hf1
    have e2 : F32.add (a.sizeAfter32 w ja + 4) (b.sizeAfter32 w (j - ja))
        = a.sizeAfter32 w ja + 4 + b.sizeAfter32 w (j - ja) := hf2
    have e3 : F32.sub fullSize PaneSeparatorSize = fullSize - 4 := hf3
    rw [e1, e2] at hlow
    rw [e3]
    have hbf : IsFloat (b.sizeAfter32 w (j - ja)) := sizeAfter32_float w b hwf.2.2 hgrid.2 _
    exact F32.le_round_of_le _ _ hbf (by linarith)
  · intro h0a h0b
    rw [hda w] at h0a
    rw [hdb w] at h0b
    have hf0 : 0 ≤ a.sizeAfter32 w ja := le_trans h0a (hma (Nat.zero_le _))
    have hb0 : 0 ≤ b.sizeAfter32 w (j - ja) := le_trans h0b (hmb (Nat.zero_le _))
    exact second_error _ _ _ hf0 hb0 hlow

/-- Witness of `paneSizes_above_minimum` (C37): the full size 33 on the vertical split of two
leaves, whose minimum size is 24 x 10 and whose walk reaches 34 with its first step. -/
theorem paneSizes_above_minimum_witness :
    floatLeaves._GetMinSize32 = .ok ⟨24, 10⟩ ∧
      ∃ first second firstMin secondMin bound,
        (∀ fuel, 1 ≤ fuel → floatLeaves._GetPaneSizes32 fuel 33 = some (.ok (first, second))) ∧
        (Pane.ctor 1 (gridControl32 1 ⟨10, 10⟩ ⟨10, 20⟩ false) false)._GetMinSize32
          = .ok firstMin ∧
        (Pane.ctor 2 (gridControl32 2 ⟨10, 10⟩ ⟨10, 20⟩ false) false)._GetMinSize32
          = .ok secondMin ∧
        (if SplitState.Vertical = .Vertical then firstMin.Width else firstMin.Height)
          ≤ first ∧
        (∃ k sizeNode, (Pane.ctor 1 (gridControl32 1 ⟨10, 10⟩ ⟨10, 20⟩ false) false).snapWalk32
            (decide (SplitState.Vertical = .Vertical)) k = .ok sizeNode ∧
          sizeNode.size = first) ∧
        second = F32.sub (F32.sub 33 PaneSeparatorSize) first ∧
        (∃ k sizeNode, (Pane.ctor 2 (gridControl32 2 ⟨10, 10⟩ ⟨10, 20⟩ false) false).snapWalk32
            (decide (SplitState.Vertical = .Vertical)) k = .ok sizeNode ∧
          sizeNode.size = bound) ∧
        (if SplitState.Vertical = .Vertical then secondMin.Width else secondMin.Height)
          ≤ bound ∧
        (IsFloat (first + 4) → IsFloat (first + 4 + bound) → IsFloat ((33 : ℚ) - 4) →
          bound ≤ second) ∧
        (0 ≤ (if SplitState.Vertical = .Vertical then firstMin.Width else firstMin.Height) →
          0 ≤ (if SplitState.Vertical = .Vertical then secondMin.Width
            else secondMin.Height) →
          bound - ((33 : ℚ) + 4) / 2 ^ 21 ≤ second) :=
  ⟨by decide!, paneSizes_above_minimum _ _ _ 33 ⟨24, 10⟩ 1 (floatLeaves.treeAfter32 true 1)
    floatLeaves_wellFormed (floatLeaves_floatGrid _) (by decide!) (by norm_num)
    (snapWalk32_eq _ _ floatLeaves_wellFormed 1) (by rw [treeAfter32_size]; decide!)⟩

end TerminalApp
